import Mathlib

/-
  Verification of the object/array walking utilities of crosslink-plotly.js
  (src/src/utils/objectUtils.js).

  The JavaScript module is shallowly embedded as follows.

  * A JavaScript value (`JVal`) is a scalar (number, string, boolean, null,
    undefined) or a reference into a heap.  A heap (`Heap`) is a list of
    containers (`JCont`): plain objects (insertion-ordered field lists),
    arrays (element lists with `none` marking an empty slot / hole), or
    `other` for non-plain, non-array objects such as dates.  A heap address
    is the index of the container in the list, and JavaScript strict
    equality `===` on values coincides with decidable equality on `JVal`
    (scalars by value, objects by reference identity).

  * Numbers are modelled as `Int`: every number appearing in the claims is
    integral, and none of the functions under verification perform
    arithmetic on data values.

  * Array indexing in JavaScript goes through decimal string keys
    (`Object.keys` of an array yields "0", "1", ...).  The decimal
    rendering/parsing pair `renderIdx` / `parseIdx` and its round-trip
    theorem model this.

  * Exceptions are modelled with `Except String`.

  For claims that do not depend on reference identity, JavaScript input
  values are additionally modelled as finite trees (`Tree`), and the
  traversal `_walkObject` is translated a second time as a structurally
  recursive function over trees (`walkFieldsT` etc.); that translation is
  line-for-line the same traversal, instrumented with a log of visitor
  invocations.  Reference identity matters only inside `copyObject`
  (its `indexOf`-based correspondence table), which is verified against
  the heap embedding.
-/

namespace ObjectUtils

/-! ## JavaScript values and heaps -/

/-- Address of a container in the heap. -/
abbrev Addr := Nat

/-- A JavaScript value: a scalar or a reference to a heap container. -/
inductive JVal where
  | num (n : Int)
  | str (s : String)
  | bool (b : Bool)
  | null
  | undef
  | ref (a : Addr)
deriving DecidableEq, Repr

/-- A heap container: a plain object, an array (with `none` for holes), or
an opaque non-plain object (e.g. a date). -/
inductive JCont where
  | obj (fields : List (String × JVal))
  | arr (elems : List (Option JVal))
  | other
deriving DecidableEq, Repr

/-- A heap is a list of containers, addressed by position. -/
abbrev Heap := List JCont

/-- Decision of `is-plain-object` on a value: true exactly for references
to plain-object containers. -/
def isPlainObject (h : Heap) : JVal → Bool
  | .ref a => match h[a]? with
              | some (.obj _) => true
              | _ => false
  | _ => false

/-- Decision of `Array.isArray` on a value. -/
def isArrayVal (h : Heap) : JVal → Bool
  | .ref a => match h[a]? with
              | some (.arr _) => true
              | _ => false
  | _ => false

/-- Check whether the container at an address is an array (used for the
`Array.isArray(parent)` tests, where the parent is a container). -/
def isArrAt (h : Heap) (a : Addr) : Bool :=
  match h[a]? with
  | some (.arr _) => true
  | _ => false

/-! ## Decimal string keys for array indices -/

/-- Digits of a natural number, least significant first; the first
argument is fuel bounding the recursion depth (any fuel at least the
number itself is enough, see `digitsRevFuel_congr`). -/
def digitsRevFuel : Nat → Nat → List Char
  | 0, n => [Nat.digitChar n]
  | fuel + 1, n =>
      if n < 10 then [Nat.digitChar n]
      else Nat.digitChar (n % 10) :: digitsRevFuel fuel (n / 10)

/-- Digits of a natural number, least significant first. -/
def digitsRev (n : Nat) : List Char := digitsRevFuel n n

/-- Decimal rendering of an array index, e.g. `renderIdx 12 = "12"`;
this is the string `Object.keys` produces for that index. -/
def renderIdx (n : Nat) : String :=
  ⟨(digitsRev n).reverse⟩

/-- Value of a decimal digit character. -/
def digitVal (c : Char) : Nat := c.toNat - 48

/-- Check for a decimal digit character. -/
def isDigitChar (c : Char) : Bool := 48 ≤ c.toNat && c.toNat ≤ 57

/-- Parse a list of characters as a decimal numeral. -/
def parseDigits (cs : List Char) : Nat :=
  cs.foldl (fun acc c => acc * 10 + digitVal c) 0

/-- Parse a string as a canonical array index: a nonempty string of
decimal digits without a leading zero (except "0" itself), the exact
strings JavaScript treats as array indices. -/
def parseIdx (s : String) : Option Nat :=
  if s.data ≠ [] && s.data.all isDigitChar &&
     (decide (s.data.length = 1) || decide (s.data.head? ≠ some (Char.ofNat 48))) then
    some (parseDigits s.data)
  else none

/-! ## Heap access -/

/-- Lookup of a field of an object field list by key (first match, as a
JavaScript object has at most one own property per key). -/
def lookupField : List (String × JVal) → String → Option JVal
  | [], _ => none
  | (k2, v) :: rest, k => if k2 = k then some v else lookupField rest k

/-- Property write on an object field list: replace the value in place if
the key is present, append otherwise (JavaScript insertion order). -/
def setField : List (String × JVal) → String → JVal → List (String × JVal)
  | [], k, v => [(k, v)]
  | (k2, v2) :: rest, k, v =>
      if k2 = k then (k2, v) :: rest else (k2, v2) :: setField rest k v

/-- Element write on an array: set in place if in range, otherwise pad
with holes and append (JavaScript array index assignment). -/
def setElem (es : List (Option JVal)) (i : Nat) (v : JVal) : List (Option JVal) :=
  if i < es.length then es.set i (some v)
  else es ++ List.replicate (i - es.length) none ++ [some v]

/-- Own enumerable keys of a container, in JavaScript `Object.keys` order:
field keys in insertion order for objects, decimal index strings for the
non-hole slots of an array. -/
def contKeys : JCont → List String
  | .obj fs => fs.map Prod.fst
  | .arr es => es.enum.filterMap (fun p => p.2.map (fun _ => renderIdx p.1))
  | .other => []

/-- Property read on a container; absent keys give `undefined`. -/
def contProp : JCont → String → JVal
  | .obj fs, k => (lookupField fs k).getD .undef
  | .arr es, k =>
      match parseIdx k with
      | some i => ((es[i]?).getD none).getD .undef
      | none => .undef
  | .other, _ => (.undef)

/-- Property write on a container.  Writing a non-index key to an array
would attach a named property in JavaScript; `copyObject` only ever
writes index keys to arrays, and array elements are unaffected either
way, so this is modelled as a no-op on the elements. -/
def contWrite : JCont → String → JVal → JCont
  | .obj fs, k, v => .obj (setField fs k v)
  | .arr es, k, v =>
      match parseIdx k with
      | some i => .arr (setElem es i v)
      | none => .arr es
  | .other, _, _ => .other

/-- Keys of the container at an address (empty for a dangling address). -/
def heapKeys (h : Heap) (a : Addr) : List String :=
  match h[a]? with
  | some c => contKeys c
  | none => []

/-- Read `object[key]` where `object` is the container at address `a`. -/
def readProp (h : Heap) (a : Addr) (k : String) : JVal :=
  match h[a]? with
  | some c => contProp c k
  | none => (.undef)

/-- Write `object[key] = v` where `object` is the container at address `a`. -/
def heapWrite (h : Heap) (a : Addr) (k : String) (v : JVal) : Heap :=
  match h[a]? with
  | some c => h.set a (contWrite c k v)
  | none => h

/-! ## align -/

/-- Length a JavaScript `array.length = n` assignment produces: truncation
when shrinking, padding with holes when growing. -/
def setLength (n : Nat) (es : List (Option JVal)) : List (Option JVal) :=
  if n ≤ es.length then es.take n
  else es ++ List.replicate (n - es.length) none

/-- Translation of `align`: mutate every inner array so that all have the
maximal length, and return the outer array.  The outer array is a list of
inner arrays (each `List (Option JVal)`, holes allowed). -/
def align (data : List (List (Option JVal))) : List (List (Option JVal)) :=
  let maxLength := List.foldl max 0 (data.map (fun array => array.length))
  data.map (setLength maxLength)

/-- Maximum length among the inner arrays, as computed by `align`. -/
def alignMax (data : List (List (Option JVal))) : Nat :=
  List.foldl max 0 (data.map (fun array => array.length))

/-! ## shallowEqual -/

/-- Keys of a value as the ramda `keys` function sees them: container keys
for a reference, empty for scalars. -/
def jsKeys (h : Heap) : JVal → List String
  | .ref a => heapKeys h a
  | _ => []

/-- Property read on a value as ramda `prop` sees it: `undefined` off a
scalar or for an absent key. -/
def jsProp (h : Heap) (v : JVal) (k : String) : JVal :=
  match v with
  | .ref a => readProp h a k
  | _ => (.undef)

/-- Translation of `shallowEqual`: strict equality short-circuit, then key
count comparison and strict equality of the values of the keys of `a`. -/
def shallowEqual (h : Heap) (a b : JVal) : Bool :=
  if a = b then true
  else
    let keysA := jsKeys h a
    let pairs := List.zip (keysA.map (fun k => jsProp h a k)) (keysA.map (fun k => jsProp h b k))
    decide (keysA.length = (jsKeys h b).length) && pairs.all (fun p => decide (p.1 = p.2))

/-! ## Path accumulation (getPath) -/

/-- Accumulated path value: a segment list in array mode, a concatenated
string in nestedProperty mode. -/
inductive PathVal where
  | segs (l : List String)
  | np (s : String)
deriving DecidableEq, Repr

/-- Path accumulator object built by `getPath`: the path type together
with the `_path` accumulated so far. -/
structure PathAcc where
  pathType : String
  _path : PathVal
deriving DecidableEq, Repr

/-- Translation of the `getPath` constructor.  The second argument models
the optional `_path` argument; `_path || (pathType === 'array' ? [] : '')`
falls back to the mode-appropriate empty path when `_path` is absent
(an empty string argument is falsy and also falls back, to itself). -/
def getPath (pathType : String) (p : Option PathVal) : PathAcc :=
  ⟨pathType, p.getD (if pathType = "array" then .segs [] else .np "")⟩

/-- Translation of the accumulator method `set(parent, key)`; the parent
enters only through `Array.isArray(parent)`, passed as `parentIsArr`.
An unrecognized path type throws. -/
def PathAcc.set (pa : PathAcc) (parentIsArr : Bool) (k : String) : Except String PathAcc :=
  if pa.pathType = "array" then
    match pa._path with
    | .segs l => .ok ⟨pa.pathType, .segs (l ++ [k])⟩
    | .np s => .ok ⟨pa.pathType, .np s⟩
  else if pa.pathType = "nestedProperty" then
    match pa._path with
    | .np s =>
        .ok ⟨pa.pathType, .np (if s.length = 0 then k
                               else if parentIsArr then s ++ "[" ++ k ++ "]"
                               else s ++ "." ++ k)⟩
    | .segs l => .ok ⟨pa.pathType, .segs l⟩
  else .error ("unrecognized pathType " ++ pa.pathType)

/-- Translation of the accumulator method `get(parent, key)`: in array
mode the accumulated path (without the leaf key), otherwise the path of
`set(parent, key)` (which throws on an unrecognized path type). -/
def PathAcc.get (pa : PathAcc) (parentIsArr : Bool) (k : String) : Except String PathVal :=
  if pa.pathType = "array" then .ok pa._path
  else (pa.set parentIsArr k).map (fun pa2 => pa2._path)

/-! ## makeAttrSetterPath -/

/-- Path part accepted by `makeAttrSetterPath`: a string, a number, or a
single-element positional list holding a number (the only list shape the
specification describes for this function). -/
inductive Seg where
  | str (s : String)
  | num (n : Int)
  | lst (n : Int)
deriving DecidableEq, Repr

/-- Loop body of `makeAttrSetterPath`: numbers and lists append a bracket
segment (a list through its first element); any other part appends a dot
separator (omitted at the first position) and the part itself. -/
def attrLoop : List Seg → Bool → String → String
  | [], _, acc => acc
  | s :: rest, first, acc =>
      match s with
      | .num n => attrLoop rest false (acc ++ "[" ++ toString n ++ "]")
      | .lst n => attrLoop rest false (acc ++ "[" ++ toString n ++ "]")
      | .str t => attrLoop rest false (acc ++ (if first then "" else ".") ++ t)

/-- Translation of `makeAttrSetterPath`.  The index adjustments
`if (parts[i0] === '_fullData') i0 += 2; if (parts[i0] === '_fullInput') i0++;
if (parts[i0] === '_fullLayout') i0++;` are three sequential checks, each
looking at the already adjusted position; they are rendered as drops. -/
def makeAttrSetterPath (parts : List Seg) : String :=
  let l1 := if parts.head? = some (.str "_fullData") then parts.drop 2 else parts
  let l2 := if l1.head? = some (.str "_fullInput") then l1.drop 1 else l1
  let l3 := if l2.head? = some (.str "_fullLayout") then l2.drop 1 else l2
  attrLoop l3 true ""

/-- Text contributed by one remaining path part, per the wording of claim
C6: a segment that is numeric or a single-element positional list is
appended as a bracketed number; every other segment is appended as a dot
followed by the segment, the dot omitted for the first emitted segment. -/
def segText : Seg → Bool → String
  | .num n, _ => "[" ++ toString n ++ "]"
  | .lst n, _ => "[" ++ toString n ++ "]"
  | .str t, first => (if first then "" else ".") ++ t

/-- Concatenation of the texts of the remaining path parts, per the
wording of claim C6. -/
def claimLoop : List Seg → Bool → String
  | [], _ => ""
  | s :: rest, first => segText s first ++ claimLoop rest false

/-- Formalization of the wording of claim C6: strip 2 leading parts when
the first part is the marker `_fullData`, OTHERWISE strip 1 when it is
`_fullInput`; then strip 1 more when the (possibly adjusted) next part is
`_fullLayout`; then format the remaining parts. -/
def claimSetterPath (parts : List Seg) : String :=
  let l1 := if parts.head? = some (.str "_fullData") then parts.drop 2
            else if parts.head? = some (.str "_fullInput") then parts.drop 1
            else parts
  let l2 := if l1.head? = some (.str "_fullLayout") then l1.drop 1 else l1
  claimLoop l2 true

/-- Sequential-stripping description of `makeAttrSetterPath` (the amended
claim C6): strip 2 leading parts when the first part is `_fullData`; THEN
strip 1 when the (possibly adjusted) next part is `_fullInput`; then strip
1 more when the (possibly adjusted) next part is `_fullLayout`; then
format the remaining parts. -/
def amendedSetterPath (parts : List Seg) : String :=
  let l1 := if parts.head? = some (.str "_fullData") then parts.drop 2 else parts
  let l2 := if l1.head? = some (.str "_fullInput") then l1.drop 1 else l1
  let l3 := if l2.head? = some (.str "_fullLayout") then l2.drop 1 else l2
  claimLoop l3 true

/-! ## Tree model of JavaScript values -/

mutual
/-- A JavaScript value as a finite tree: scalars, an opaque non-plain
object (`othr`, e.g. a date), plain objects and arrays.  This models
inputs without internal sharing; sharing-dependent behavior is verified
against the heap model instead. -/
inductive Tree where
  | num (n : Int)
  | str (s : String)
  | bool (b : Bool)
  | null
  | undef
  | othr
  | obj (fields : Fields)
  | arr (elems : Elems)

/-- Field list of a plain object, in insertion order. -/
inductive Fields where
  | fnil
  | fcons (k : String) (t : Tree) (rest : Fields)

/-- Element list of an array. -/
inductive Elems where
  | enil
  | econs (t : Tree) (rest : Elems)
end

/-- Keys of a field list, in order. -/
def fieldKeys : Fields → List String
  | .fnil => []
  | .fcons k _ rest => k :: fieldKeys rest

/-- Number of elements of an element list. -/
def elemsLen : Elems → Nat
  | .enil => 0
  | .econs _ rest => elemsLen rest + 1

/-- Decision of `is-plain-object` on a tree value. -/
def isPlainObjectT : Tree → Bool
  | .obj _ => true
  | _ => false

/-- Decision of `Array.isArray` on a tree value. -/
def isArrayT : Tree → Bool
  | .arr _ => true
  | _ => false

/-- Own enumerable keys of a tree value, in `Object.keys` order. -/
def treeKeys : Tree → List String
  | .obj fs => fieldKeys fs
  | .arr es => (List.range (elemsLen es)).map renderIdx
  | _ => []

mutual
/-- Well-formedness of a tree as the image of a JavaScript value: every
object node has pairwise distinct keys (a JavaScript object cannot have
two own properties with the same key). -/
def wfT : Tree → Bool
  | .obj fs => decide (fieldKeys fs).Nodup && wfF fs
  | .arr es => wfE es
  | _ => true

/-- Well-formedness of the trees of a field list. -/
def wfF : Fields → Bool
  | .fnil => true
  | .fcons _ t rest => wfT t && wfF rest

/-- Well-formedness of the trees of an element list. -/
def wfE : Elems → Bool
  | .enil => true
  | .econs t rest => wfT t && wfE rest
end

/-! ## walkObject configuration -/

/-- Configuration object of `walkObject`; absent options are `none`
(JavaScript `undefined`).  The flag `walkArrays` is only ever tested for
truthiness, so it is modelled as a plain Bool. -/
structure Config where
  walkArrays : Bool
  walkArraysMatchingKeys : Option (List String)
  pathType : Option String
deriving DecidableEq, Repr

/-- Translation of the helper `doArrayWalk`, factored over the result of
the `Array.isArray(value)` test so the tree and heap walkers share it:
an array value is walked iff `walkArrays` is truthy or
`walkArraysMatchingKeys` is present and contains the key. -/
def doArrayWalk (isArr : Bool) (key : String) (walkArrays : Bool)
    (walkArraysMatchingKeys : Option (List String)) : Bool :=
  if !isArr then false
  else if walkArrays ||
          (match walkArraysMatchingKeys with
           | some ks => ks.contains key
           | none => false) then true
  else false

/-! ## Tree walker (walkObject over tree-modelled values) -/

/-- Visitor invocation record: the structural position of the parent node
(the key list from the root, bookkeeping added by the embedding), the
visited key, the path value handed to the visitor, and whether the
visitor returned a truthy stop signal. -/
structure Entry where
  pos : List String
  key : String
  pv : PathVal
  ret : Bool
deriving DecidableEq, Repr

/-- State threaded through a walk: the visitor state and the log of
visitor invocations (instrumentation: the walker appends one entry
exactly when the source invokes the callback). -/
structure WalkSt (σ : Type) where
  user : σ
  log : List Entry
deriving DecidableEq, Repr

/-- A visitor: receives the key, the parent node and the path value, and
returns the stop signal together with its next state. -/
abbrev TCb (σ : Type) := String → Tree → PathVal → σ → Bool × σ

/-- Result of a walk: normal completion, or a thrown error; a thrown
error also carries the state at the throw point (JavaScript exceptions do
not undo visitor side effects). -/
inductive TRes (σ : Type) where
  | ok (st : WalkSt σ)
  | err (msg : String) (st : WalkSt σ)
deriving DecidableEq, Repr

mutual
/-- Translation of `_walkObject` restricted to tree-modelled values:
dispatch on the node kind to the key iteration.  Non-container nodes have
no keys (`Object.keys` of the unreachable cases is empty). -/
def walkNodeT (cb : TCb σ) (cfg : Config) :
    Tree → List String → PathAcc → WalkSt σ → TRes σ
  | .obj fs, pos, pa, st => walkFieldsT cb cfg (.obj fs) fs pos pa st
  | .arr es, pos, pa, st => walkElemsT cb cfg (.arr es) es 0 pos pa st
  | _, _, _, st => .ok st

/-- Body of the `Object.keys(object).forEach` loop of `_walkObject` for an
object node: compute the path, invoke the callback (logging the
invocation), skip descent on a truthy return, otherwise descend into
plain-object values and into array values allowed by `doArrayWalk`, then
continue with the remaining keys.  Iterating the field list positionally
agrees with `object[key]` lookup because object keys are distinct. -/
def walkFieldsT (cb : TCb σ) (cfg : Config) (par : Tree) :
    Fields → List String → PathAcc → WalkSt σ → TRes σ
  | .fnil, _, _, st => .ok st
  | .fcons k tv rest, pos, pa, st =>
    match pa.get (isArrayT par) k with
    | .error e => .err e st
    | .ok pv =>
      let r := cb k par pv st.user
      let st1 : WalkSt σ := ⟨r.2, st.log ++ [⟨pos, k, pv, r.1⟩]⟩
      if r.1 then walkFieldsT cb cfg par rest pos pa st1
      else if isPlainObjectT tv ||
              doArrayWalk (isArrayT tv) k cfg.walkArrays cfg.walkArraysMatchingKeys then
        match pa.set (isArrayT par) k with
        | .error e => .err e st1
        | .ok pa2 =>
          match walkNodeT cb cfg tv (pos ++ [k]) pa2 st1 with
          | .ok st2 => walkFieldsT cb cfg par rest pos pa st2
          | .err e st2 => .err e st2
      else walkFieldsT cb cfg par rest pos pa st1

/-- Body of the same loop for an array node; the keys are the decimal
index strings produced by `Object.keys`. -/
def walkElemsT (cb : TCb σ) (cfg : Config) (par : Tree) :
    Elems → Nat → List String → PathAcc → WalkSt σ → TRes σ
  | .enil, _, _, _, st => .ok st
  | .econs tv rest, i, pos, pa, st =>
    match pa.get (isArrayT par) (renderIdx i) with
    | .error e => .err e st
    | .ok pv =>
      let r := cb (renderIdx i) par pv st.user
      let st1 : WalkSt σ := ⟨r.2, st.log ++ [⟨pos, renderIdx i, pv, r.1⟩]⟩
      if r.1 then walkElemsT cb cfg par rest (i + 1) pos pa st1
      else if isPlainObjectT tv ||
              doArrayWalk (isArrayT tv) (renderIdx i) cfg.walkArrays
                cfg.walkArraysMatchingKeys then
        match pa.set (isArrayT par) (renderIdx i) with
        | .error e => .err e st1
        | .ok pa2 =>
          match walkNodeT cb cfg tv (pos ++ [renderIdx i]) pa2 st1 with
          | .ok st2 => walkElemsT cb cfg par rest (i + 1) pos pa st2
          | .err e st2 => .err e st2
      else walkElemsT cb cfg par rest (i + 1) pos pa st1
end

/-- Translation of `walkObject` for tree-modelled values: reject an input
that is neither a plain object nor an array, then walk from an empty
path; `getPath(config.pathType)` falls back to the default path type
"array" when the option is absent. -/
def walkObjectT (input : Tree) (cb : TCb σ) (cfg : Config) (s : σ) : TRes σ :=
  if !(isPlainObjectT input) && !(isArrayT input) then
    .err "The input must be an object." ⟨s, []⟩
  else
    walkNodeT cb cfg input [] (getPath (cfg.pathType.getD "array") none) ⟨s, []⟩

/-! ## Heap walker (walkObject over heap values) and copyObject -/

/-- A heap visitor: receives the key, the parent container's address, the
path value, the heap and the visitor state; it may mutate the heap (the
copy callback writes output containers) and returns the stop signal with
the new heap and state, or throws. -/
abbrev HCb (σ : Type) := String → Addr → PathVal → Heap → σ → Except String (Bool × Heap × σ)

/-- Translation of the `Object.keys(object).forEach` loop of `_walkObject`
over the heap: `ks` is the key snapshot taken when the container at `a`
was entered.  The fuel argument is a modeling artifact bounding the
recursion: one unit is spent per visited key, so the definition is
structurally recursive, and running out models the stack overflow an
overly deep (or cyclic) structure causes in JavaScript.  Every theorem
supplies enough fuel, where the behavior coincides with the source. -/
def walkItems {σ : Type} (cb : HCb σ) (cfg : Config) :
    Nat → Addr → List String → PathAcc → Heap → σ → Except String (Heap × σ)
  | _, _, [], _, h, s => .ok (h, s)
  | 0, _, _ :: _, _, _, _ => .error "maximum call stack size exceeded"
  | fuel + 1, a, k :: rest, pa, h, s =>
    match pa.get (isArrAt h a) k with
    | .error e => .error e
    | .ok pv =>
      match cb k a pv h s with
      | .error e => .error e
      | .ok (stop, h1, s1) =>
        if stop then walkItems cb cfg fuel a rest pa h1 s1
        else
          if isPlainObject h1 (readProp h1 a k) ||
             doArrayWalk (isArrayVal h1 (readProp h1 a k)) k cfg.walkArrays
               cfg.walkArraysMatchingKeys then
            match readProp h1 a k with
            | .ref a2 =>
              match pa.set (isArrAt h1 a) k with
              | .error e => .error e
              | .ok pa2 =>
                match walkItems cb cfg fuel a2 (heapKeys h1 a2) pa2 h1 s1 with
                | .error e => .error e
                | .ok (h2, s2) => walkItems cb cfg fuel a rest pa h2 s2
            | _ => walkItems cb cfg fuel a rest pa h1 s1
          else walkItems cb cfg fuel a rest pa h1 s1

/-- Translation of `walkObject` over the heap: reject an input that is
neither a plain object nor an array, then walk its keys from an empty
path.  A container value is always a reference, so the last arm is
unreachable under the guard. -/
def walkObject {σ : Type} (input : JVal) (cb : HCb σ) (cfg : Config) (fuel : Nat)
    (h : Heap) (s : σ) : Except String (Heap × σ) :=
  if !(isPlainObject h input) && !(isArrayVal h input) then
    .error "The input must be an object."
  else
    match input with
    | .ref a =>
        walkItems cb cfg fuel a (heapKeys h a) (getPath (cfg.pathType.getD "array") none) h s
    | _ => .error "The input must be an object."

/-- First index of a value in a list under strict equality, or the list
length when the value is absent.  JavaScript `indexOf` returns -1 when
absent; the only use reads `outputObjects` at the returned index, and
both a read at -1 and a read past the end give undefined, modelled by an
out-of-range index. -/
def jsIndexOf (l : List JVal) (x : JVal) : Nat :=
  match l with
  | [] => 0
  | y :: rest => if y = x then 0 else jsIndexOf rest x + 1

/-- State of a `copyObject` run: the parallel arrays relating each input
container seen so far to its output container (related by index). -/
structure CopySt where
  inputObjects : List JVal
  outputObjects : List Addr
deriving DecidableEq, Repr

/-- Translation of the `walkCallback` closure of `copyObject`: prune when
the caller's callback returns exactly false; otherwise find the output
parent through the index of the input parent, allocate a fresh empty
container for a plain-object or array value (recording the pair), or
assign the value as is.  Reading `outputObjects` off the end — which in
JavaScript yields undefined and makes the subsequent property assignment
throw a TypeError — throws; the correspondence invariant keeps this
unreachable. -/
def walkCallback (userCb : String → JVal → PathVal → JVal) : HCb CopySt :=
  fun k aParent pv h st =>
    if userCb k (.ref aParent) pv = .bool false then .ok (true, h, st)
    else
      match st.outputObjects[jsIndexOf st.inputObjects (.ref aParent)]? with
      | none => .error "TypeError: cannot set properties of undefined"
      | some outParent =>
        let inputValue := readProp h aParent k
        let isObject := isPlainObject h inputValue
        let isArray := if isObject then false else isArrayVal h inputValue
        if isObject || isArray then
          let outputValue : JCont := if isArray then .arr [] else .obj []
          .ok (false,
               heapWrite (h ++ [outputValue]) outParent k (.ref h.length),
               ⟨st.inputObjects ++ [inputValue], st.outputObjects ++ [h.length]⟩)
        else
          .ok (false, heapWrite h outParent k inputValue, st)

/-- Translation of `copyObject`: allocate the output container of the
same kind as the input, seed the correspondence with the input/output
pair, and drive `walkObject` with `walkArrays: true`; the copy is the
reference to the output container. -/
def copyObject (fuel : Nat) (input : JVal) (userCb : String → JVal → PathVal → JVal)
    (h : Heap) : Except String (Heap × JVal) :=
  let output : JCont := if isArrayVal h input then .arr [] else .obj []
  match walkObject input (walkCallback userCb) ⟨true, none, none⟩ fuel (h ++ [output])
      ⟨[input], [h.length]⟩ with
  | .error e => .error e
  | .ok (h2, _) => .ok (h2, .ref h.length)

/-! ## Embedding trees into the heap -/

mutual
/-- Embed a tree value into a heap: children are allocated first, then
the node itself is appended, so a container's address is the top of its
subtree's address range and distinct containers get distinct addresses. -/
def embedT : Tree → Heap → JVal × Heap
  | .num n, h => (.num n, h)
  | .str s, h => (.str s, h)
  | .bool b, h => (.bool b, h)
  | .null, h => (.null, h)
  | .undef, h => (.undef, h)
  | .othr, h => (.ref h.length, h ++ [.other])
  | .obj fs, h =>
      let r := embedF fs h
      (.ref r.2.length, r.2 ++ [.obj r.1])
  | .arr es, h =>
      let r := embedE es h
      (.ref r.2.length, r.2 ++ [.arr r.1])

/-- Embed a field list, left to right. -/
def embedF : Fields → Heap → List (String × JVal) × Heap
  | .fnil, h => ([], h)
  | .fcons k t rest, h =>
      let r := embedT t h
      let r2 := embedF rest r.2
      ((k, r.1) :: r2.1, r2.2)

/-- Embed an element list, left to right (no holes). -/
def embedE : Elems → Heap → List (Option JVal) × Heap
  | .enil, h => ([], h)
  | .econs t rest, h =>
      let r := embedT t h
      let r2 := embedE rest r.2
      (some r.1 :: r2.1, r2.2)
end

mutual
/-- Exact representation of a tree by a heap value on the address range
[lo, hi): scalars occupy an empty range, a container sits at hi - 1 with
its children laid out below it, and sibling subtrees occupy consecutive
disjoint sub-ranges (this is the layout `embedT` produces and gives the
distinctness of all container addresses of the input). -/
def RepR (lo hi : Nat) (h : Heap) (v : JVal) : Tree → Prop
  | .num n => v = .num n ∧ lo = hi
  | .str s => v = .str s ∧ lo = hi
  | .bool b => v = .bool b ∧ lo = hi
  | .null => v = .null ∧ lo = hi
  | .undef => v = .undef ∧ lo = hi
  | .othr => hi = lo + 1 ∧ v = .ref lo ∧ h[lo]? = some .other
  | .obj fs => ∃ (a : Nat) (fjs : List (String × JVal)), hi = a + 1 ∧ lo ≤ a ∧ v = .ref a ∧
      h[a]? = some (.obj fjs) ∧ RepRF lo a h fjs fs
  | .arr es => ∃ (a : Nat) (ejs : List (Option JVal)), hi = a + 1 ∧ lo ≤ a ∧ v = .ref a ∧
      h[a]? = some (.arr ejs) ∧ RepRE lo a h ejs es

/-- Exact representation of a field list on [lo, hi), fields in
consecutive sub-ranges. -/
def RepRF (lo hi : Nat) (h : Heap) (fjs : List (String × JVal)) : Fields → Prop
  | .fnil => fjs = [] ∧ lo = hi
  | .fcons k t rest => ∃ v fjs2 mid, fjs = (k, v) :: fjs2 ∧
      RepR lo mid h v t ∧ RepRF mid hi h fjs2 rest

/-- Exact representation of an element list on [lo, hi), elements in
consecutive sub-ranges, no holes. -/
def RepRE (lo hi : Nat) (h : Heap) (ejs : List (Option JVal)) : Elems → Prop
  | .enil => ejs = [] ∧ lo = hi
  | .econs t rest => ∃ v ejs2 mid, ejs = some v :: ejs2 ∧
      RepR lo mid h v t ∧ RepRE mid hi h ejs2 rest
end

mutual
/-- Representation of a tree by a heap value with every container address
inside [lo, hi); used for the output of `copyObject`, where `lo` is the
heap size before the copy, making every copied container provably fresh
and disjoint from the input. -/
def RepO (lo hi : Nat) (h : Heap) (v : JVal) : Tree → Prop
  | .num n => v = .num n
  | .str s => v = .str s
  | .bool b => v = .bool b
  | .null => v = .null
  | .undef => v = .undef
  | .othr => False
  | .obj fs => ∃ (a : Nat) (fjs : List (String × JVal)), v = .ref a ∧ lo ≤ a ∧ a < hi ∧
      h[a]? = some (.obj fjs) ∧ RepOF lo hi h fjs fs
  | .arr es => ∃ (a : Nat) (ejs : List (Option JVal)), v = .ref a ∧ lo ≤ a ∧ a < hi ∧
      h[a]? = some (.arr ejs) ∧ RepOE lo hi h ejs es

/-- Representation of a field list with addresses inside [lo, hi). -/
def RepOF (lo hi : Nat) (h : Heap) (fjs : List (String × JVal)) : Fields → Prop
  | .fnil => fjs = []
  | .fcons k t rest => ∃ v fjs2, fjs = (k, v) :: fjs2 ∧
      RepO lo hi h v t ∧ RepOF lo hi h fjs2 rest

/-- Representation of an element list with addresses inside [lo, hi). -/
def RepOE (lo hi : Nat) (h : Heap) (ejs : List (Option JVal)) : Elems → Prop
  | .enil => ejs = []
  | .econs t rest => ∃ v ejs2, ejs = some v :: ejs2 ∧
      RepO lo hi h v t ∧ RepOE lo hi h ejs2 rest
end

mutual
/-- Fuel needed to walk the keys of a tree node with `walkItems`: one
unit per key plus the fuel of the deepest descent. -/
def fuelT : Tree → Nat
  | .obj fs => fuelF fs
  | .arr es => fuelE es
  | _ => 0

/-- Fuel bound over a field list. -/
def fuelF : Fields → Nat
  | .fnil => 0
  | .fcons _ t rest => 1 + max (fuelT t) (fuelF rest)

/-- Fuel bound over an element list. -/
def fuelE : Elems → Nat
  | .enil => 0
  | .econs t rest => 1 + max (fuelT t) (fuelE rest)
end

mutual
/-- Check that a tree consists of scalars, plain objects and arrays only
(no opaque non-plain containers); claim C2 speaks about copied
containers, and an opaque container is copied by reference, not cloned. -/
def plainT : Tree → Bool
  | .othr => false
  | .obj fs => plainF fs
  | .arr es => plainE es
  | _ => true

/-- Plainness of the trees of a field list. -/
def plainF : Fields → Bool
  | .fnil => true
  | .fcons _ t rest => plainT t && plainF rest

/-- Plainness of the trees of an element list. -/
def plainE : Elems → Bool
  | .enil => true
  | .econs t rest => plainT t && plainE rest
end

/-- Shape of a log entry produced while walking the keys `ks` of the node
at position `pos`: either the entry is at `pos` itself with one of those
keys, or it lies inside the subtree of one of those keys. -/
def EntryShape (pos : List String) (ks : List String) (e : Entry) : Prop :=
  (e.pos = pos ∧ e.key ∈ ks) ∨ ∃ k2, k2 ∈ ks ∧ pos ++ [k2] <+: e.pos

/-- Veto soundness of a log fragment: whenever an entry records a truthy
visitor return, no entry of the fragment lies inside the vetoed subtree
(at or below the vetoed key's value). -/
def VetoOk (log : List Entry) : Prop :=
  ∀ e ∈ log, e.ret = true → ∀ e2 ∈ log, ¬ (e.pos ++ [e.key] <+: e2.pos)

/-! ## Theorems: decimal index strings -/

theorem digitsRevFuel_congr (fuel fuel2 n : Nat) (h : n ≤ fuel) (h2 : n ≤ fuel2) :
    digitsRevFuel fuel n = digitsRevFuel fuel2 n := by
  induction fuel generalizing fuel2 n with
  | zero =>
    have hn : n = 0 := by omega
    subst hn
    cases fuel2 <;> simp [digitsRevFuel]
  | succ fuel ih =>
    cases fuel2 with
    | zero =>
      have hn : n = 0 := by omega
      subst hn
      simp [digitsRevFuel]
    | succ fuel2 =>
      simp only [digitsRevFuel]
      split
      · rfl
      · rename_i hge
        have hd : n / 10 < n := Nat.div_lt_self (by omega) (by omega)
        rw [ih fuel2 (n / 10) (by omega) (by omega)]

theorem digitsRev_step (n : Nat) :
    digitsRev n = if n < 10 then [Nat.digitChar n]
                  else Nat.digitChar (n % 10) :: digitsRev (n / 10) := by
  show digitsRevFuel n n = _
  rcases n with _ | m
  · simp [digitsRevFuel]
  · simp only [digitsRevFuel]
    split
    · rfl
    · rename_i hge
      have hd : (m + 1) / 10 < m + 1 := Nat.div_lt_self (by omega) (by omega)
      rw [digitsRevFuel_congr m ((m + 1) / 10) ((m + 1) / 10) (by omega) (by omega)]
      rfl

theorem digitChar_isDigit (n : Nat) (h : n < 10) : isDigitChar (Nat.digitChar n) = true := by
  interval_cases n <;> decide

theorem digitVal_digitChar (n : Nat) (h : n < 10) : digitVal (Nat.digitChar n) = n := by
  interval_cases n <;> decide

theorem digitsRev_ne_nil (n : Nat) : digitsRev n ≠ [] := by
  rw [digitsRev_step]
  split <;> simp

theorem digitsRev_all_digits (n : Nat) : (digitsRev n).all isDigitChar = true := by
  induction n using Nat.strong_induction_on with
  | _ n ih =>
    rw [digitsRev_step]
    split
    · simp [digitChar_isDigit n (by omega)]
    · rename_i hn
      have h10 : ¬ n < 10 := hn
      have := ih (n / 10) (Nat.div_lt_self (by omega) (by omega))
      simp only [List.all_cons, this, Bool.and_true]
      exact digitChar_isDigit (n % 10) (Nat.mod_lt _ (by omega))

theorem parseDigits_append (cs ds : List Char) :
    parseDigits (cs ++ ds) = ds.foldl (fun acc c => acc * 10 + digitVal c) (parseDigits cs) := by
  simp [parseDigits, List.foldl_append]

theorem parseDigits_digitsRev_reverse (n : Nat) :
    parseDigits (digitsRev n).reverse = n := by
  induction n using Nat.strong_induction_on with
  | _ n ih =>
    rw [digitsRev_step]
    split
    · rename_i h
      simp [parseDigits, digitVal_digitChar n h]
    · rename_i hn
      have h10 : ¬ n < 10 := hn
      have ihd := ih (n / 10) (Nat.div_lt_self (by omega) (by omega))
      simp only [List.reverse_cons, parseDigits_append, ihd, List.foldl_cons, List.foldl_nil]
      rw [digitVal_digitChar (n % 10) (Nat.mod_lt _ (by omega))]
      omega

theorem digitsRev_reverse_head_ne_zero (n : Nat) (h : 1 ≤ n) :
    (digitsRev n).reverse.head? ≠ some (Char.ofNat 48) := by
  induction n using Nat.strong_induction_on with
  | _ n ih =>
    rw [digitsRev_step]
    split
    · rename_i hlt
      interval_cases n <;> decide
    · rename_i hn
      have h10 : ¬ n < 10 := hn
      have hpos : 1 ≤ n / 10 := Nat.le_div_iff_mul_le (by omega) |>.mpr (by omega)
      have ihd := ih (n / 10) (Nat.div_lt_self (by omega) (by omega)) hpos
      rw [List.reverse_cons, List.head?_append_of_ne_nil]
      · exact ihd
      · simp [digitsRev_ne_nil (n / 10)]

/-- Round trip: parsing the rendered index string gives the index back. -/
theorem parseIdx_renderIdx (n : Nat) : parseIdx (renderIdx n) = some n := by
  simp only [parseIdx, renderIdx]
  rw [if_pos]
  · rw [parseDigits_digitsRev_reverse]
  · simp only [Bool.and_eq_true, decide_eq_true_eq, Bool.or_eq_true]
    refine ⟨⟨?_, ?_⟩, ?_⟩
    · simp [digitsRev_ne_nil n]
    · have := digitsRev_all_digits n
      simp only [List.all_eq_true] at this ⊢
      intro c hc
      exact this c (List.mem_reverse.mp hc)
    · by_cases hn : n = 0
      · subst hn; left; decide
      · right; exact digitsRev_reverse_head_ne_zero n (by omega)

theorem renderIdx_injective {m n : Nat} (h : renderIdx m = renderIdx n) : m = n := by
  have hm := parseIdx_renderIdx m
  rw [h, parseIdx_renderIdx n] at hm
  exact (Option.some.injEq _ _ ▸ hm).symm

/-! ## Theorems: shallowEqual (claims C1 and C7) -/

/-- Claim C1 (counterexample): contrary to the claim, the call
shallowEqual({x:1}, {x:1,y:2}) does NOT return true: the key counts 1 and
2 differ, so the count comparison already fails. -/
theorem shallowEqual_sub_object_counterexample :
    ¬ (shallowEqual [JCont.obj [("x", JVal.num 1)], JCont.obj [("x", JVal.num 1), ("y", JVal.num 2)]]
        (JVal.ref 0) (JVal.ref 1) = true) := by
  decide

/-- Claim C1 (amended): shallowEqual({x:1}, {x:1,y:2}) returns false,
because the two objects have different own-key counts (1 versus 2). -/
theorem shallowEqual_sub_object_amended :
    shallowEqual [JCont.obj [("x", JVal.num 1)], JCont.obj [("x", JVal.num 1), ("y", JVal.num 2)]]
        (JVal.ref 0) (JVal.ref 1) = false := by
  decide

/-- Claim C7: shallowEqual(a, b) returns true immediately when a and b are
strictly equal (so shallowEqual(a, a) is always true); otherwise it
returns true if and only if a and b have the same number of own keys and
every key of a maps to a strictly equal value in b. -/
theorem shallowEqual_spec (h : Heap) (a b : JVal) :
    shallowEqual h a a = true ∧
    (a ≠ b →
      (shallowEqual h a b = true ↔
        (jsKeys h a).length = (jsKeys h b).length ∧
        ∀ k ∈ jsKeys h a, jsProp h a k = jsProp h b k)) := by
  constructor
  · simp [shallowEqual]
  · intro hne
    rw [shallowEqual, if_neg hne]
    simp [List.zip_map', List.all_map, List.all_eq_true, Function.comp]

/-- Witness for claim C7 at a concrete input with distinct objects. -/
theorem shallowEqual_spec_witness :
    (JVal.ref 0 ≠ JVal.ref 1) ∧
    (shallowEqual [JCont.obj [("x", JVal.num 1)], JCont.obj [("x", JVal.num 1)]]
        (JVal.ref 0) (JVal.ref 1) = true ↔
      (jsKeys [JCont.obj [("x", JVal.num 1)], JCont.obj [("x", JVal.num 1)]] (JVal.ref 0)).length =
        (jsKeys [JCont.obj [("x", JVal.num 1)], JCont.obj [("x", JVal.num 1)]] (JVal.ref 1)).length ∧
      ∀ k ∈ jsKeys [JCont.obj [("x", JVal.num 1)], JCont.obj [("x", JVal.num 1)]] (JVal.ref 0),
        jsProp [JCont.obj [("x", JVal.num 1)], JCont.obj [("x", JVal.num 1)]] (JVal.ref 0) k =
        jsProp [JCont.obj [("x", JVal.num 1)], JCont.obj [("x", JVal.num 1)]] (JVal.ref 1) k) :=
  ⟨by decide,
   (shallowEqual_spec [JCont.obj [("x", JVal.num 1)], JCont.obj [("x", JVal.num 1)]]
      (JVal.ref 0) (JVal.ref 1)).2 (by decide)⟩

/-! ## Theorems: align (claim C8) -/

theorem foldl_max_init_le (l : List Nat) (a : Nat) : a ≤ l.foldl max a := by
  induction l generalizing a with
  | nil => simp
  | cons x rest ih => exact le_trans (le_max_left a x) (ih (max a x))

theorem foldl_max_mem_le (l : List Nat) (a x : Nat) (hx : x ∈ l) : x ≤ l.foldl max a := by
  induction l generalizing a with
  | nil => cases hx
  | cons y rest ih =>
    rcases List.mem_cons.mp hx with h | h
    · subst h
      exact le_trans (le_max_right a x) (foldl_max_init_le rest (max a x))
    · exact ih (max a y) h

theorem length_le_alignMax (S : List (List (Option JVal))) (x : List (Option JVal))
    (hx : x ∈ S) : x.length ≤ alignMax S :=
  foldl_max_mem_le _ 0 x.length (List.mem_map_of_mem (fun array => array.length) hx)

/-- Claim C8: align(S) gives every contained array the maximal length
among them, each original array being a prefix of its padded version
(padding with empty slots, never truncating), the outer list keeping its
elements in place; and align([]) returns []. -/
theorem align_spec (S : List (List (Option JVal))) :
    List.Forall₂ (fun a b => a <+: b ∧ b.length = alignMax S) S (align S) ∧
    align [] = [] := by
  refine ⟨?_, rfl⟩
  show List.Forall₂ _ S (S.map (setLength (alignMax S)))
  rw [List.forall₂_map_right_iff, List.forall₂_same]
  intro x hx
  have hle := length_le_alignMax S x hx
  unfold setLength
  by_cases hc : alignMax S ≤ x.length
  · have hxeq : alignMax S = x.length := le_antisymm hc hle
    rw [if_pos hc, hxeq, List.take_length]
    exact ⟨List.prefix_rfl, rfl⟩
  · rw [if_neg hc]
    constructor
    · exact List.prefix_append x _
    · simp
      omega

/-! ## Theorems: makeAttrSetterPath (claim C6) -/

theorem string_empty_append (s : String) : "" ++ s = s := by
  apply String.ext
  simp [String.data_append]

theorem attrLoop_eq_claimLoop (l : List Seg) :
    ∀ (first : Bool) (acc : String), attrLoop l first acc = acc ++ claimLoop l first := by
  induction l with
  | nil =>
    intro first acc
    simp [attrLoop, claimLoop]
  | cons s rest ih =>
    intro first acc
    cases s <;>
      simp [attrLoop, claimLoop, segText, ih, String.append_assoc]

/-- Claim C6 (counterexample): on the input
['_fullData', 0, '_fullInput', 'x'] the code strips the '_fullInput'
marker found at the position already adjusted by the '_fullData' strip
and returns 'x', while the claimed else-branch reading leaves
'_fullInput' in place and would give '_fullInput.x'. -/
theorem makeAttrSetterPath_counterexample :
    makeAttrSetterPath [Seg.str "_fullData", Seg.num 0, Seg.str "_fullInput", Seg.str "x"] = "x" ∧
    claimSetterPath [Seg.str "_fullData", Seg.num 0, Seg.str "_fullInput", Seg.str "x"] =
      "_fullInput.x" ∧
    makeAttrSetterPath [Seg.str "_fullData", Seg.num 0, Seg.str "_fullInput", Seg.str "x"] ≠
      claimSetterPath [Seg.str "_fullData", Seg.num 0, Seg.str "_fullInput", Seg.str "x"] := by
  refine ⟨by decide, by decide, by decide⟩

/-- Claim C6 (amended): makeAttrSetterPath strips a 2-segment prefix if
segments[0] equals '_fullData', THEN strips a further 1-segment prefix if
the (possibly already adjusted) next segment equals '_fullInput', then
strips a further 1-segment prefix if the next segment equals
'_fullLayout'; each remaining numeric or single-element-list segment is
appended as a bracketed number and every other segment as a dot plus the
segment, the dot omitted for the first emitted segment; in particular
makeAttrSetterPath(['_fullData', 0, 'transforms', 3, 'type']) returns
'transforms[3].type'. -/
theorem makeAttrSetterPath_spec :
    (∀ parts, makeAttrSetterPath parts = amendedSetterPath parts) ∧
    makeAttrSetterPath
        [Seg.str "_fullData", Seg.num 0, Seg.str "transforms", Seg.num 3, Seg.str "type"] =
      "transforms[3].type" := by
  constructor
  · intro parts
    unfold makeAttrSetterPath amendedSetterPath
    rw [attrLoop_eq_claimLoop, string_empty_append]
  · decide

/-! ## Theorems: array walk policy and traversal examples (claim C4) -/

/-- Claim C4: an array value is recursed into iff walkArrays is true or
the key is among walkArraysMatchingKeys (the policy of doArrayWalk, which
the walker applies to every non-vetoed array value); walking
:: a: :: b: 1 :: :: , c: [1,2] :: with the default configuration visits
exactly the keys a, b (under a) and c, never descending into the array at
c, while with walkArrays: true it additionally visits the indices 0 and 1
under c. -/
theorem doArrayWalk_policy :
    (∀ (isArr : Bool) (k : String) (wA : Bool) (wamk : Option (List String)),
      doArrayWalk isArr k wA wamk = true ↔
        (isArr = true ∧ (wA = true ∨ ∃ ks, wamk = some ks ∧ k ∈ ks))) ∧
    walkObjectT
        (.obj (.fcons "a" (.obj (.fcons "b" (.num 1) .fnil))
          (.fcons "c" (.arr (.econs (.num 1) (.econs (.num 2) .enil))) .fnil)))
        (fun _ _ _ s => (false, s)) ⟨false, none, none⟩ () =
      .ok ⟨(), [⟨[], "a", .segs [], false⟩, ⟨["a"], "b", .segs ["a"], false⟩,
                ⟨[], "c", .segs [], false⟩]⟩ ∧
    walkObjectT
        (.obj (.fcons "a" (.obj (.fcons "b" (.num 1) .fnil))
          (.fcons "c" (.arr (.econs (.num 1) (.econs (.num 2) .enil))) .fnil)))
        (fun _ _ _ s => (false, s)) ⟨true, none, none⟩ () =
      .ok ⟨(), [⟨[], "a", .segs [], false⟩, ⟨["a"], "b", .segs ["a"], false⟩,
                ⟨[], "c", .segs [], false⟩, ⟨["c"], "0", .segs ["c"], false⟩,
                ⟨["c"], "1", .segs ["c"], false⟩]⟩ := by
  refine ⟨?_, by decide, by decide⟩
  intro isArr k wA wamk
  cases isArr <;> cases wA <;> rcases wamk with _ | ks <;>
    simp [doArrayWalk, List.elem_eq_mem]

/-! ## Theorems: unrecognized pathType (claim C9) -/

theorem getPath_get_bad (pt : String) (h1 : pt ≠ "array") (h2 : pt ≠ "nestedProperty")
    (b : Bool) (k : String) :
    (getPath pt none).get b k = Except.error ("unrecognized pathType " ++ pt) := by
  simp [getPath, PathAcc.get, PathAcc.set, h1, h2, Except.map]

/-- Claim C9: calling walkObject with a pathType that is neither "array"
nor "nestedProperty" on a container input with at least one key throws
the unrecognized-pathType error at the first path computation, before any
visitor invocation (the log at the throw point is empty). -/
theorem walkObject_bad_pathType {σ : Type} (pt : String)
    (h1 : pt ≠ "array") (h2 : pt ≠ "nestedProperty")
    (t : Tree) (cb : TCb σ) (wa : Bool) (wamk : Option (List String)) (s : σ)
    (hc : isPlainObjectT t = true ∨ isArrayT t = true)
    (hk : treeKeys t ≠ []) :
    walkObjectT t cb ⟨wa, wamk, some pt⟩ s =
      .err ("unrecognized pathType " ++ pt) ⟨s, []⟩ := by
  rw [walkObjectT]
  rw [if_neg (by rcases hc with hc | hc <;> simp [hc])]
  have hget := getPath_get_bad pt h1 h2
  cases t with
  | obj fs =>
    cases fs with
    | fnil => simp [treeKeys, fieldKeys] at hk
    | fcons k tv rest =>
      simp only [Option.getD_some, walkNodeT, walkFieldsT, hget]
  | arr es =>
    cases es with
    | enil => simp [treeKeys, elemsLen] at hk
    | econs tv rest =>
      simp only [Option.getD_some, walkNodeT, walkElemsT, hget]
  | othr => simp [isPlainObjectT, isArrayT] at hc
  | num n => simp [isPlainObjectT, isArrayT] at hc
  | str st2 => simp [isPlainObjectT, isArrayT] at hc
  | bool b => simp [isPlainObjectT, isArrayT] at hc
  | null => simp [isPlainObjectT, isArrayT] at hc
  | undef => simp [isPlainObjectT, isArrayT] at hc

/-- Witness for claim C9 at a concrete bad path type and input. -/
theorem walkObject_bad_pathType_witness :
    walkObjectT (.obj (.fcons "a" (.num 1) .fnil))
        (fun _ _ _ (s : Unit) => (false, s)) ⟨false, none, some "bogus"⟩ () =
      .err ("unrecognized pathType " ++ "bogus") ⟨(), []⟩ :=
  walkObject_bad_pathType "bogus" (by decide) (by decide) _ _ _ _ _
    (Or.inl (by decide)) (by decide)

/-! ## Theorems: the veto contract of the tree walker (claim C3) -/

theorem prefix_key_eq {pos : List String} {a b : String} {q : List String}
    (ha : pos ++ [a] <+: q) (hb : pos ++ [b] <+: q) : a = b := by
  have hlen : (pos ++ [a]).length ≤ (pos ++ [b]).length := by simp
  have hab := List.prefix_of_prefix_length_le ha hb hlen
  have heq : pos ++ [a] = pos ++ [b] := hab.eq_of_length (by simp)
  have h2 : [a] = [b] := List.append_cancel_left heq
  simpa using h2

theorem EntryShape_below {pos ks : List String} {e : Entry}
    (h : EntryShape pos ks e) : pos <+: e.pos := by
  rcases h with ⟨hp, _⟩ | ⟨k2, _, hp⟩
  · rw [hp]
  · exact (List.prefix_append pos [k2]).trans hp

theorem EntryShape_mono {pos ks ks2 : List String} (hsub : ks ⊆ ks2) {e : Entry}
    (h : EntryShape pos ks e) : EntryShape pos ks2 e := by
  rcases h with ⟨hp, hk⟩ | ⟨k2, hk2, hp⟩
  · exact Or.inl ⟨hp, hsub hk⟩
  · exact Or.inr ⟨k2, hsub hk2, hp⟩

/-- Assembly of the shape and veto facts for one loop step: the entry of
the current key, the log fragment of the descent into its value, and the
fragment of the remaining keys. -/
theorem step_assemble {pos : List String} {k : String} {ksr : List String} (e1 : Entry)
    (dD dR : List Entry)
    (hpos : e1.pos = pos) (hkey : e1.key = k)
    (hknot : k ∉ ksr)
    (hcase : e1.ret = false ∨ dD = [])
    (shapeD : ∀ e ∈ dD, pos ++ [k] <+: e.pos)
    (shapeR : ∀ e ∈ dR, EntryShape pos ksr e)
    (vetoD : VetoOk dD) (vetoR : VetoOk dR) :
    (∀ e ∈ e1 :: (dD ++ dR), EntryShape pos (k :: ksr) e) ∧
    VetoOk (e1 :: (dD ++ dR)) := by
  have hlenD : ∀ e ∈ dD, pos.length + 1 ≤ e.pos.length := by
    intro e he
    have := (shapeD e he).length_le
    simpa using this
  have hlenR : ∀ e ∈ dR, pos.length ≤ e.pos.length := by
    intro e he
    have := (EntryShape_below (shapeR e he)).length_le
    simpa using this
  constructor
  · intro e he
    rcases List.mem_cons.mp he with hE | hE
    · rw [hE]
      refine Or.inl ⟨hpos, ?_⟩
      rw [hkey]
      exact List.mem_cons_self k ksr
    rcases List.mem_append.mp hE with hED | hER
    · exact Or.inr ⟨k, List.mem_cons_self k ksr, shapeD e hED⟩
    · exact EntryShape_mono (List.subset_cons_self k ksr) (shapeR e hER)
  · intro e he hret e2 he2 hpre
    rcases List.mem_cons.mp he with hE | hE
    · -- the vetoing entry is the current key's entry
      have hD : dD = [] := by
        rcases hcase with hfalse | hnil
        · rw [hE, hfalse] at hret; cases hret
        · exact hnil
      subst hD
      rw [hE, hpos, hkey] at hpre
      rcases List.mem_cons.mp he2 with hE2 | hE2
      · -- target is the entry itself
        have := hpre.length_le
        rw [hE2, hpos] at this
        simp at this
      rcases List.mem_append.mp hE2 with hE2D | hE2R
      · cases hE2D
      · -- target among the remaining keys' entries
        rcases shapeR e2 hE2R with ⟨hp2, _⟩ | ⟨k2, hk2, hp2⟩
        · have := hpre.length_le
          rw [hp2] at this
          simp at this
        · exact hknot (prefix_key_eq hpre hp2 ▸ hk2)
    rcases List.mem_append.mp hE with hED | hER
    · -- the vetoing entry lies inside the current key's subtree
      have hkd : pos ++ [k] <+: e.pos := shapeD e hED
      have hkd2 : pos ++ [k] <+: e2.pos :=
        hkd.trans ((List.prefix_append e.pos [e.key]).trans hpre)
      rcases List.mem_cons.mp he2 with hE2 | hE2
      · have h1 := hpre.length_le
        have h2 := hlenD e hED
        rw [hE2, hpos] at h1
        simp at h1
        omega
      rcases List.mem_append.mp hE2 with hE2D | hE2R
      · exact vetoD e hED hret e2 hE2D hpre
      · rcases shapeR e2 hE2R with ⟨hp2, _⟩ | ⟨k2, hk2, hp2⟩
        · have := hkd2.length_le
          rw [hp2] at this
          simp at this
        · exact hknot (prefix_key_eq hkd2 hp2 ▸ hk2)
    · -- the vetoing entry lies among the remaining keys' entries
      rcases List.mem_cons.mp he2 with hE2 | hE2
      · have h1 := hpre.length_le
        have h2 := hlenR e hER
        rw [hE2, hpos] at h1
        simp at h1
        omega
      rcases List.mem_append.mp hE2 with hE2D | hE2R
      · -- target inside the current key's subtree
        have hkd2 : pos ++ [k] <+: e2.pos := shapeD e2 hE2D
        rcases shapeR e hER with ⟨hp1, hk1⟩ | ⟨k2, hk2, hp1⟩
        · have hpe : pos ++ [e.key] <+: e2.pos := by
            rw [hp1] at hpre
            exact hpre
          exact hknot (prefix_key_eq hkd2 hpe ▸ hk1)
        · have hpe : pos ++ [k2] <+: e2.pos :=
            hp1.trans ((List.prefix_append e.pos [e.key]).trans hpre)
          exact hknot (prefix_key_eq hkd2 hpe ▸ hk2)
      · exact vetoR e hER hret e2 hE2R hpre

theorem bool_eq_false_of_not_true {b : Bool} (h : ¬ b = true) : b = false := by
  cases b
  · rfl
  · exact absurd rfl h

mutual

/-- Log characterization of walking one node: the new entries lie at the
node's position with its keys or inside those keys' subtrees, and the
fragment respects the veto contract. -/
theorem walkNode_log {σ : Type} (cb : TCb σ) (cfg : Config) (t : Tree)
    (pos : List String) (pa : PathAcc) (st st' : WalkSt σ)
    (hwf : wfT t = true)
    (hrun : walkNodeT cb cfg t pos pa st = .ok st') :
    ∃ d, st'.log = st.log ++ d ∧ (∀ e ∈ d, EntryShape pos (treeKeys t) e) ∧ VetoOk d := by
  cases t with
  | obj fs =>
    have hnd : (fieldKeys fs).Nodup := by
      have := hwf
      simp only [wfT, Bool.and_eq_true, decide_eq_true_eq] at this
      exact this.1
    have hwfF : wfF fs = true := by
      have := hwf
      simp only [wfT, Bool.and_eq_true] at this
      exact this.2
    exact walkFields_log cb cfg (.obj fs) fs pos pa st st' hnd hwfF hrun
  | arr es =>
    have hwfE : wfE es = true := hwf
    have h := walkElems_log cb cfg (.arr es) es 0 pos pa st st' hwfE hrun
    simpa [treeKeys, List.range_eq_range'] using h
  | num n => exact ⟨[], by cases hrun; simp, by simp, by simp [VetoOk]⟩
  | str s2 => exact ⟨[], by cases hrun; simp, by simp, by simp [VetoOk]⟩
  | bool b => exact ⟨[], by cases hrun; simp, by simp, by simp [VetoOk]⟩
  | null => exact ⟨[], by cases hrun; simp, by simp, by simp [VetoOk]⟩
  | undef => exact ⟨[], by cases hrun; simp, by simp, by simp [VetoOk]⟩
  | othr => exact ⟨[], by cases hrun; simp, by simp, by simp [VetoOk]⟩

/-- Log characterization of the field loop of the tree walker. -/
theorem walkFields_log {σ : Type} (cb : TCb σ) (cfg : Config) (par : Tree) (fs : Fields)
    (pos : List String) (pa : PathAcc) (st st' : WalkSt σ)
    (hnd : (fieldKeys fs).Nodup) (hwf : wfF fs = true)
    (hrun : walkFieldsT cb cfg par fs pos pa st = .ok st') :
    ∃ d, st'.log = st.log ++ d ∧ (∀ e ∈ d, EntryShape pos (fieldKeys fs) e) ∧ VetoOk d := by
  cases fs with
  | fnil =>
    cases hrun
    exact ⟨[], by simp, by simp, by simp [VetoOk]⟩
  | fcons k tv rest =>
    have hknot : k ∉ fieldKeys rest := by
      have := hnd
      simp only [fieldKeys, List.nodup_cons] at this
      exact this.1
    have hndr : (fieldKeys rest).Nodup := by
      have := hnd
      simp only [fieldKeys, List.nodup_cons] at this
      exact this.2
    have hwft : wfT tv = true := by
      have := hwf
      simp only [wfF, Bool.and_eq_true] at this
      exact this.1
    have hwfr : wfF rest = true := by
      have := hwf
      simp only [wfF, Bool.and_eq_true] at this
      exact this.2
    rw [walkFieldsT] at hrun
    split at hrun
    · -- path computation threw
      simp at hrun
    · -- path computed
      rename_i pv hget
      dsimp only at hrun
      split at hrun
      · -- visitor returned a truthy stop signal
        rename_i hstop
        rcases walkFields_log cb cfg par rest pos pa _ st' hndr hwfr hrun with
          ⟨dR, hlog, hshape, hveto⟩
        refine ⟨⟨pos, k, pv, (cb k par pv st.user).1⟩ :: dR, ?_, ?_⟩
        · rw [hlog]
          simp
        · have h := step_assemble ⟨pos, k, pv, (cb k par pv st.user).1⟩
            [] dR rfl rfl hknot (Or.inr rfl) (by simp) hshape
            (by simp [VetoOk]) hveto
          simpa [fieldKeys] using h
      · -- visitor did not stop
        rename_i hstop
        have hretf : (cb k par pv st.user).1 = false := bool_eq_false_of_not_true hstop
        split at hrun
        · -- descend into the value
          split at hrun
          · -- path extension threw (cannot happen after a successful get)
            simp at hrun
          · rename_i pa2 hset
            split at hrun
            · -- subtree walk completed
              rename_i st2 hnode
              rcases walkNode_log cb cfg tv (pos ++ [k]) pa2 _ st2 hwft hnode with
                ⟨dD, hlogD, hshapeD, hvetoD⟩
              rcases walkFields_log cb cfg par rest pos pa st2 st' hndr hwfr hrun with
                ⟨dR, hlogR, hshapeR, hvetoR⟩
              refine ⟨⟨pos, k, pv, (cb k par pv st.user).1⟩ :: (dD ++ dR), ?_, ?_⟩
              · rw [hlogR, hlogD]
                simp
              · have h := step_assemble ⟨pos, k, pv, (cb k par pv st.user).1⟩
                  dD dR rfl rfl hknot (Or.inl hretf)
                  (fun e he => EntryShape_below (hshapeD e he)) hshapeR hvetoD hvetoR
                simpa [fieldKeys] using h
            · -- subtree walk threw
              simp at hrun
        · -- leaf value: no descent
          rcases walkFields_log cb cfg par rest pos pa _ st' hndr hwfr hrun with
            ⟨dR, hlog, hshape, hveto⟩
          refine ⟨⟨pos, k, pv, (cb k par pv st.user).1⟩ :: dR, ?_, ?_⟩
          · rw [hlog]
            simp
          · have h := step_assemble ⟨pos, k, pv, (cb k par pv st.user).1⟩
              [] dR rfl rfl hknot (Or.inr rfl) (by simp) hshape
              (by simp [VetoOk]) hveto
            simpa [fieldKeys] using h

/-- Log characterization of the element loop of the tree walker. -/
theorem walkElems_log {σ : Type} (cb : TCb σ) (cfg : Config) (par : Tree) (es : Elems)
    (i : Nat) (pos : List String) (pa : PathAcc) (st st' : WalkSt σ)
    (hwf : wfE es = true)
    (hrun : walkElemsT cb cfg par es i pos pa st = .ok st') :
    ∃ d, st'.log = st.log ++ d ∧
      (∀ e ∈ d, EntryShape pos ((List.range' i (elemsLen es)).map renderIdx) e) ∧
      VetoOk d := by
  cases es with
  | enil =>
    cases hrun
    exact ⟨[], by simp, by simp, by simp [VetoOk]⟩
  | econs tv rest =>
    have hknot : renderIdx i ∉ (List.range' (i + 1) (elemsLen rest)).map renderIdx := by
      intro hmem
      rcases List.mem_map.mp hmem with ⟨j, hj, hjeq⟩
      have hji := renderIdx_injective hjeq
      subst hji
      have := List.mem_range'_1.mp hj
      omega
    have hkeys : (List.range' i (elemsLen (.econs tv rest))).map renderIdx =
        renderIdx i :: (List.range' (i + 1) (elemsLen rest)).map renderIdx := by
      show (List.range' i (elemsLen rest + 1)).map renderIdx = _
      rw [List.range'_succ]
      simp
    have hwft : wfT tv = true := by
      have := hwf
      simp only [wfE, Bool.and_eq_true] at this
      exact this.1
    have hwfr : wfE rest = true := by
      have := hwf
      simp only [wfE, Bool.and_eq_true] at this
      exact this.2
    rw [walkElemsT] at hrun
    split at hrun
    · simp at hrun
    · rename_i pv hget
      dsimp only at hrun
      split at hrun
      · -- visitor returned a truthy stop signal
        rename_i hstop
        rcases walkElems_log cb cfg par rest (i + 1) pos pa _ st' hwfr hrun with
          ⟨dR, hlog, hshape, hveto⟩
        refine ⟨⟨pos, renderIdx i, pv, (cb (renderIdx i) par pv st.user).1⟩ :: dR, ?_, ?_⟩
        · rw [hlog]
          simp
        · have h := step_assemble
            ⟨pos, renderIdx i, pv, (cb (renderIdx i) par pv st.user).1⟩
            [] dR rfl rfl hknot (Or.inr rfl) (by simp) hshape
            (by simp [VetoOk]) hveto
          rw [hkeys]
          simpa using h
      · rename_i hstop
        have hretf : (cb (renderIdx i) par pv st.user).1 = false :=
          bool_eq_false_of_not_true hstop
        split at hrun
        · split at hrun
          · simp at hrun
          · rename_i pa2 hset
            split at hrun
            · rename_i st2 hnode
              rcases walkNode_log cb cfg tv (pos ++ [renderIdx i]) pa2 _ st2 hwft hnode with
                ⟨dD, hlogD, hshapeD, hvetoD⟩
              rcases walkElems_log cb cfg par rest (i + 1) pos pa st2 st' hwfr hrun with
                ⟨dR, hlogR, hshapeR, hvetoR⟩
              refine ⟨⟨pos, renderIdx i, pv, (cb (renderIdx i) par pv st.user).1⟩ ::
                (dD ++ dR), ?_, ?_⟩
              · rw [hlogR, hlogD]
                simp
              · have h := step_assemble
                  ⟨pos, renderIdx i, pv, (cb (renderIdx i) par pv st.user).1⟩
                  dD dR rfl rfl hknot (Or.inl hretf)
                  (fun e he => EntryShape_below (hshapeD e he)) hshapeR hvetoD hvetoR
                rw [hkeys]
                simpa using h
            · simp at hrun
        · rcases walkElems_log cb cfg par rest (i + 1) pos pa _ st' hwfr hrun with
            ⟨dR, hlog, hshape, hveto⟩
          refine ⟨⟨pos, renderIdx i, pv, (cb (renderIdx i) par pv st.user).1⟩ :: dR, ?_, ?_⟩
          · rw [hlog]
            simp
          · have h := step_assemble
              ⟨pos, renderIdx i, pv, (cb (renderIdx i) par pv st.user).1⟩
              [] dR rfl rfl hknot (Or.inr rfl) (by simp) hshape
              (by simp [VetoOk]) hveto
            rw [hkeys]
            simpa using h

end

/-- Claim C3: in every walkObject traversal (any visitor, any visitor
state, any configuration, any well-formed tree input), if the visitor
returns a truthy value when invoked for a key, the visitor is never
invoked for any key of the subtree stored at that key — no logged
invocation has a parent position at or below the vetoed key — while
iteration over the siblings continues: a visitor returning true at key a
of :: a: :: b: 1 :: , c: 2 :: is invoked exactly for a and for its
sibling c, never for b. -/
theorem walkObject_veto {σ : Type} (t : Tree) (cb : TCb σ) (cfg : Config) (s : σ)
    (st' : WalkSt σ) (hwf : wfT t = true)
    (hrun : walkObjectT t cb cfg s = .ok st') :
    (∀ e ∈ st'.log, e.ret = true → ∀ e2 ∈ st'.log, ¬ (e.pos ++ [e.key] <+: e2.pos)) ∧
    walkObjectT
        (.obj (.fcons "a" (.obj (.fcons "b" (.num 1) .fnil)) (.fcons "c" (.num 2) .fnil)))
        (fun k _ _ (u : Unit) => (k == "a", u)) ⟨false, none, none⟩ () =
      .ok ⟨(), [⟨[], "a", .segs [], true⟩, ⟨[], "c", .segs [], false⟩]⟩ := by
  refine ⟨?_, by decide⟩
  rw [walkObjectT] at hrun
  split at hrun
  · simp at hrun
  · rcases walkNode_log cb cfg t [] _ _ st' hwf hrun with ⟨d, hlog, hshape, hveto⟩
    have hd : st'.log = d := by simpa using hlog
    show VetoOk st'.log
    rw [hd]
    exact hveto

/-! ## Theorems: heap access basics -/

theorem list_set_self {α : Type} (l : List α) (i : Nat) (c : α) (h : l[i]? = some c) :
    l.set i c = l := by
  induction l generalizing i with
  | nil => simp at h
  | cons x rest ih =>
    cases i with
    | zero =>
      simp at h
      simp [h]
    | succ j =>
      simp at h
      simp [ih j h]

theorem heapWrite_length (h : Heap) (a : Addr) (k : String) (v : JVal) :
    (heapWrite h a k v).length = h.length := by
  rw [heapWrite]
  split <;> simp

theorem heapWrite_get_ne (h : Heap) (a : Addr) (k : String) (v : JVal) (i : Nat)
    (hne : i ≠ a) : (heapWrite h a k v)[i]? = h[i]? := by
  rw [heapWrite]
  split
  · exact List.getElem?_set_ne hne.symm
  · rfl

theorem heapWrite_get_eq (h : Heap) (a : Addr) (k : String) (v : JVal) (c : JCont)
    (hc : h[a]? = some c) : (heapWrite h a k v)[a]? = some (contWrite c k v) := by
  rw [heapWrite, hc]
  have ha : a < h.length := by
    rcases Nat.lt_or_ge a h.length with hlt | hge
    · exact hlt
    · rw [List.getElem?_eq_none hge] at hc
      cases hc
  rw [List.getElem?_set_self' ]
  simp [ha]

theorem setField_append (fs : List (String × JVal)) (k : String) (v : JVal)
    (hk : k ∉ fs.map Prod.fst) : setField fs k v = fs ++ [(k, v)] := by
  induction fs with
  | nil => rfl
  | cons p rest ih =>
    obtain ⟨k2, v2⟩ := p
    simp only [List.map_cons, List.mem_cons] at hk
    push_neg at hk
    rw [setField, if_neg (fun hc => hk.1 hc.symm)]
    rw [ih hk.2]
    simp

theorem setField_self (fs : List (String × JVal)) (k : String) (v : JVal)
    (hk : lookupField fs k = some v) : setField fs k v = fs := by
  induction fs with
  | nil => simp [lookupField] at hk
  | cons p rest ih =>
    obtain ⟨k2, v2⟩ := p
    rw [lookupField] at hk
    rw [setField]
    split
    · rename_i heq
      rw [if_pos heq] at hk
      simp at hk
      simp [hk]
    · rename_i hne
      rw [if_neg hne] at hk
      rw [ih hk]

theorem lookupField_append_nodup (pre post : List (String × JVal)) (k : String) (v : JVal)
    (hnd : ((pre ++ (k, v) :: post).map Prod.fst).Nodup) :
    lookupField (pre ++ (k, v) :: post) k = some v := by
  induction pre with
  | nil => simp [lookupField]
  | cons p rest ih =>
    obtain ⟨k2, v2⟩ := p
    simp only [List.cons_append, List.map_cons, List.nodup_cons] at hnd
    have hne : k2 ≠ k := by
      intro hc
      refine hnd.1 ?_
      rw [hc]
      simp
    rw [List.cons_append, lookupField, if_neg hne]
    exact ih hnd.2

theorem scalar_not_container (h : Heap) (v : JVal) (hs : ∀ a, v ≠ .ref a) :
    isPlainObject h v = false ∧ isArrayVal h v = false := by
  cases v with
  | ref a => exact absurd rfl (hs a)
  | num n => exact ⟨rfl, rfl⟩
  | str s => exact ⟨rfl, rfl⟩
  | bool b => exact ⟨rfl, rfl⟩
  | null => exact ⟨rfl, rfl⟩
  | undef => exact ⟨rfl, rfl⟩

/-! ## Theorems: jsIndexOf -/

theorem jsIndexOf_le_length (l : List JVal) (x : JVal) : jsIndexOf l x ≤ l.length := by
  induction l with
  | nil => simp [jsIndexOf]
  | cons y rest ih =>
    rw [jsIndexOf]
    split
    · simp
    · simpa using ih

theorem jsIndexOf_mem_of_lt (l : List JVal) (x : JVal) (h : jsIndexOf l x < l.length) :
    x ∈ l := by
  induction l with
  | nil => simp at h
  | cons y rest ih =>
    rw [jsIndexOf] at h
    by_cases hy : y = x
    · rw [hy]
      exact List.mem_cons_self x rest
    · rw [if_neg hy] at h
      simp only [List.length_cons] at h
      exact List.mem_cons_of_mem y (ih (by omega))

theorem jsIndexOf_append_of_mem (l l2 : List JVal) (x : JVal) (h : x ∈ l) :
    jsIndexOf (l ++ l2) x = jsIndexOf l x := by
  induction l with
  | nil => cases h
  | cons y rest ih =>
    by_cases hyx : y = x
    · simp [jsIndexOf, hyx]
    · have hy : x ∈ rest := by
        rcases List.mem_cons.mp h with hc | hc
        · exact absurd hc.symm hyx
        · exact hc
      simp [jsIndexOf, hyx, ih hy]

theorem jsIndexOf_append_of_notMem (l l2 : List JVal) (x : JVal) (h : x ∉ l) :
    jsIndexOf (l ++ l2) x = l.length + jsIndexOf l2 x := by
  induction l with
  | nil => simp
  | cons y rest ih =>
    have hy : y ≠ x := fun hc => h (hc ▸ List.mem_cons_self y rest)
    have hr : x ∉ rest := fun hc => h (List.mem_cons_of_mem y hc)
    simp [jsIndexOf, hy, ih hr]
    omega

/-! ## Theorems: representation predicates and embedding -/

mutual

theorem RepR_le (t : Tree) : ∀ (lo hi : Nat) (h : Heap) (v : JVal),
    RepR lo hi h v t → lo ≤ hi := by
  cases t with
  | obj fs =>
    intro lo hi h v hr
    obtain ⟨a, fjs, heq, hle, _, _, hf⟩ := hr
    have := RepRF_le fs lo a h fjs hf
    omega
  | arr es =>
    intro lo hi h v hr
    obtain ⟨a, ejs, heq, hle, _, _, hf⟩ := hr
    have := RepRE_le es lo a h ejs hf
    omega
  | othr => intro lo hi h v hr; have := hr.1; omega
  | num n => intro lo hi h v hr; exact le_of_eq hr.2
  | str s => intro lo hi h v hr; exact le_of_eq hr.2
  | bool b => intro lo hi h v hr; exact le_of_eq hr.2
  | null => intro lo hi h v hr; exact le_of_eq hr.2
  | undef => intro lo hi h v hr; exact le_of_eq hr.2

theorem RepRF_le (fs : Fields) : ∀ (lo hi : Nat) (h : Heap) (fjs : List (String × JVal)),
    RepRF lo hi h fjs fs → lo ≤ hi := by
  cases fs with
  | fnil => intro lo hi h fjs hr; exact le_of_eq hr.2
  | fcons k t rest =>
    intro lo hi h fjs hr
    obtain ⟨v, fjs2, mid, _, hv, hrest⟩ := hr
    have h1 := RepR_le t lo mid h v hv
    have h2 := RepRF_le rest mid hi h fjs2 hrest
    omega

theorem RepRE_le (es : Elems) : ∀ (lo hi : Nat) (h : Heap) (ejs : List (Option JVal)),
    RepRE lo hi h ejs es → lo ≤ hi := by
  cases es with
  | enil => intro lo hi h ejs hr; exact le_of_eq hr.2
  | econs t rest =>
    intro lo hi h ejs hr
    obtain ⟨v, ejs2, mid, _, hv, hrest⟩ := hr
    have h1 := RepR_le t lo mid h v hv
    have h2 := RepRE_le rest mid hi h ejs2 hrest
    omega

end

mutual

theorem RepR_mono (t : Tree) : ∀ (lo hi : Nat) (h h2 : Heap) (v : JVal),
    (∀ i, i < hi → h2[i]? = h[i]?) → RepR lo hi h v t → RepR lo hi h2 v t := by
  cases t with
  | obj fs =>
    intro lo hi h h2 v hag hr
    obtain ⟨a, fjs, heq, hle, hv, hget, hf⟩ := hr
    refine ⟨a, fjs, heq, hle, hv, ?_, ?_⟩
    · rw [hag a (by omega)]
      exact hget
    · exact RepRF_mono fs lo a h h2 fjs (fun i hi2 => hag i (by omega)) hf
  | arr es =>
    intro lo hi h h2 v hag hr
    obtain ⟨a, ejs, heq, hle, hv, hget, hf⟩ := hr
    refine ⟨a, ejs, heq, hle, hv, ?_, ?_⟩
    · rw [hag a (by omega)]
      exact hget
    · exact RepRE_mono es lo a h h2 ejs (fun i hi2 => hag i (by omega)) hf
  | othr =>
    intro lo hi h h2 v hag hr
    obtain ⟨h1, hv, h3⟩ := hr
    refine ⟨h1, hv, ?_⟩
    rw [hag lo (by omega)]
    exact h3
  | num n => intro lo hi h h2 v hag hr; exact hr
  | str s => intro lo hi h h2 v hag hr; exact hr
  | bool b => intro lo hi h h2 v hag hr; exact hr
  | null => intro lo hi h h2 v hag hr; exact hr
  | undef => intro lo hi h h2 v hag hr; exact hr

theorem RepRF_mono (fs : Fields) : ∀ (lo hi : Nat) (h h2 : Heap) (fjs : List (String × JVal)),
    (∀ i, i < hi → h2[i]? = h[i]?) → RepRF lo hi h fjs fs → RepRF lo hi h2 fjs fs := by
  cases fs with
  | fnil => intro lo hi h h2 fjs hag hr; exact hr
  | fcons k t rest =>
    intro lo hi h h2 fjs hag hr
    obtain ⟨v, fjs2, mid, hfeq, hv, hrest⟩ := hr
    have hmid : mid ≤ hi := RepRF_le rest mid hi h fjs2 hrest
    exact ⟨v, fjs2, mid, hfeq,
      RepR_mono t lo mid h h2 v (fun i hi2 => hag i (by omega)) hv,
      RepRF_mono rest mid hi h h2 fjs2 hag hrest⟩

theorem RepRE_mono (es : Elems) : ∀ (lo hi : Nat) (h h2 : Heap) (ejs : List (Option JVal)),
    (∀ i, i < hi → h2[i]? = h[i]?) → RepRE lo hi h ejs es → RepRE lo hi h2 ejs es := by
  cases es with
  | enil => intro lo hi h h2 ejs hag hr; exact hr
  | econs t rest =>
    intro lo hi h h2 ejs hag hr
    obtain ⟨v, ejs2, mid, heeq, hv, hrest⟩ := hr
    have hmid : mid ≤ hi := RepRE_le rest mid hi h ejs2 hrest
    exact ⟨v, ejs2, mid, heeq,
      RepR_mono t lo mid h h2 v (fun i hi2 => hag i (by omega)) hv,
      RepRE_mono rest mid hi h h2 ejs2 hag hrest⟩

end

theorem RepRF_keys (fs : Fields) : ∀ (lo hi : Nat) (h : Heap) (fjs : List (String × JVal)),
    RepRF lo hi h fjs fs → fjs.map Prod.fst = fieldKeys fs := by
  cases fs with
  | fnil =>
    intro lo hi h fjs hr
    rw [hr.1]
    rfl
  | fcons k t rest =>
    intro lo hi h fjs hr
    obtain ⟨v, fjs2, mid, hfeq, _, hrest⟩ := hr
    rw [hfeq]
    simp only [List.map_cons, fieldKeys]
    rw [RepRF_keys rest mid hi h fjs2 hrest]

theorem RepRE_shape (es : Elems) : ∀ (lo hi : Nat) (h : Heap) (ejs : List (Option JVal)),
    RepRE lo hi h ejs es → ejs.length = elemsLen es ∧ ∀ x ∈ ejs, x.isSome = true := by
  cases es with
  | enil =>
    intro lo hi h ejs hr
    rw [hr.1]
    simp [elemsLen]
  | econs t rest =>
    intro lo hi h ejs hr
    obtain ⟨v, ejs2, mid, heeq, _, hrest⟩ := hr
    obtain ⟨hlen, hall⟩ := RepRE_shape rest mid hi h ejs2 hrest
    subst heeq
    refine ⟨by simp [elemsLen, hlen], ?_⟩
    intro x hx
    rcases List.mem_cons.mp hx with hx | hx
    · rw [hx]; rfl
    · exact hall x hx

mutual

theorem RepO_mono (t : Tree) : ∀ (lo hi lo2 hi2 : Nat) (h h2 : Heap) (v : JVal),
    lo2 ≤ lo → hi ≤ hi2 → (∀ i, lo ≤ i → i < hi → h2[i]? = h[i]?) →
    RepO lo hi h v t → RepO lo2 hi2 h2 v t := by
  cases t with
  | obj fs =>
    intro lo hi lo2 hi2 h h2 v hl hh hag hr
    obtain ⟨a, fjs, hv, ha1, ha2, hget, hf⟩ := hr
    refine ⟨a, fjs, hv, ?_, ?_, ?_, ?_⟩
    · exact le_trans hl ha1
    · exact lt_of_lt_of_le ha2 hh
    · rw [hag a ha1 ha2]
      exact hget
    · exact RepOF_mono fs lo hi lo2 hi2 h h2 fjs hl hh hag hf
  | arr es =>
    intro lo hi lo2 hi2 h h2 v hl hh hag hr
    obtain ⟨a, ejs, hv, ha1, ha2, hget, hf⟩ := hr
    refine ⟨a, ejs, hv, ?_, ?_, ?_, ?_⟩
    · exact le_trans hl ha1
    · exact lt_of_lt_of_le ha2 hh
    · rw [hag a ha1 ha2]
      exact hget
    · exact RepOE_mono es lo hi lo2 hi2 h h2 ejs hl hh hag hf
  | othr => intro lo hi lo2 hi2 h h2 v hl hh hag hr; exact hr.elim
  | num n => intro lo hi lo2 hi2 h h2 v hl hh hag hr; exact hr
  | str s => intro lo hi lo2 hi2 h h2 v hl hh hag hr; exact hr
  | bool b => intro lo hi lo2 hi2 h h2 v hl hh hag hr; exact hr
  | null => intro lo hi lo2 hi2 h h2 v hl hh hag hr; exact hr
  | undef => intro lo hi lo2 hi2 h h2 v hl hh hag hr; exact hr

theorem RepOF_mono (fs : Fields) : ∀ (lo hi lo2 hi2 : Nat) (h h2 : Heap)
    (fjs : List (String × JVal)),
    lo2 ≤ lo → hi ≤ hi2 → (∀ i, lo ≤ i → i < hi → h2[i]? = h[i]?) →
    RepOF lo hi h fjs fs → RepOF lo2 hi2 h2 fjs fs := by
  cases fs with
  | fnil => intro lo hi lo2 hi2 h h2 fjs hl hh hag hr; exact hr
  | fcons k t rest =>
    intro lo hi lo2 hi2 h h2 fjs hl hh hag hr
    obtain ⟨v, fjs2, hfeq, hv, hrest⟩ := hr
    exact ⟨v, fjs2, hfeq, RepO_mono t lo hi lo2 hi2 h h2 v hl hh hag hv,
      RepOF_mono rest lo hi lo2 hi2 h h2 fjs2 hl hh hag hrest⟩

theorem RepOE_mono (es : Elems) : ∀ (lo hi lo2 hi2 : Nat) (h h2 : Heap)
    (ejs : List (Option JVal)),
    lo2 ≤ lo → hi ≤ hi2 → (∀ i, lo ≤ i → i < hi → h2[i]? = h[i]?) →
    RepOE lo hi h ejs es → RepOE lo2 hi2 h2 ejs es := by
  cases es with
  | enil => intro lo hi lo2 hi2 h h2 ejs hl hh hag hr; exact hr
  | econs t rest =>
    intro lo hi lo2 hi2 h h2 ejs hl hh hag hr
    obtain ⟨v, ejs2, heeq, hv, hrest⟩ := hr
    exact ⟨v, ejs2, heeq, RepO_mono t lo hi lo2 hi2 h h2 v hl hh hag hv,
      RepOE_mono rest lo hi lo2 hi2 h h2 ejs2 hl hh hag hrest⟩

end

mutual

theorem embedT_spec (t : Tree) : ∀ (h : Heap),
    ∃ ext, (embedT t h).2 = h ++ ext ∧
      RepR h.length (embedT t h).2.length (embedT t h).2 (embedT t h).1 t := by
  cases t with
  | obj fs =>
    intro h
    obtain ⟨ext, hext, hrep⟩ := embedF_spec fs h
    have hred : embedT (.obj fs) h =
        (.ref (embedF fs h).2.length, (embedF fs h).2 ++ [.obj (embedF fs h).1]) := rfl
    rw [hred]
    have hlen : h.length ≤ (embedF fs h).2.length := by rw [hext]; simp
    refine ⟨ext ++ [.obj (embedF fs h).1], by rw [hext]; simp, ?_⟩
    refine ⟨(embedF fs h).2.length, (embedF fs h).1, by simp, hlen, rfl, ?_, ?_⟩
    · rw [List.getElem?_concat_length]
    · exact RepRF_mono fs h.length (embedF fs h).2.length (embedF fs h).2 _ (embedF fs h).1
        (fun i hi2 => List.getElem?_append_left hi2) hrep
  | arr es =>
    intro h
    obtain ⟨ext, hext, hrep⟩ := embedE_spec es h
    have hred : embedT (.arr es) h =
        (.ref (embedE es h).2.length, (embedE es h).2 ++ [.arr (embedE es h).1]) := rfl
    rw [hred]
    have hlen : h.length ≤ (embedE es h).2.length := by rw [hext]; simp
    refine ⟨ext ++ [.arr (embedE es h).1], by rw [hext]; simp, ?_⟩
    refine ⟨(embedE es h).2.length, (embedE es h).1, by simp, hlen, rfl, ?_, ?_⟩
    · rw [List.getElem?_concat_length]
    · exact RepRE_mono es h.length (embedE es h).2.length (embedE es h).2 _ (embedE es h).1
        (fun i hi2 => List.getElem?_append_left hi2) hrep
  | othr =>
    intro h
    have hred : embedT .othr h = (.ref h.length, h ++ [.other]) := rfl
    rw [hred]
    refine ⟨[.other], rfl, by simp, rfl, ?_⟩
    rw [List.getElem?_concat_length]
  | num n => intro h; exact ⟨[], by simp [embedT], rfl, rfl⟩
  | str s => intro h; exact ⟨[], by simp [embedT], rfl, rfl⟩
  | bool b => intro h; exact ⟨[], by simp [embedT], rfl, rfl⟩
  | null => intro h; exact ⟨[], by simp [embedT], rfl, rfl⟩
  | undef => intro h; exact ⟨[], by simp [embedT], rfl, rfl⟩

theorem embedF_spec (fs : Fields) : ∀ (h : Heap),
    ∃ ext, (embedF fs h).2 = h ++ ext ∧
      RepRF h.length (embedF fs h).2.length (embedF fs h).2 (embedF fs h).1 fs := by
  cases fs with
  | fnil => intro h; exact ⟨[], by simp [embedF], rfl, rfl⟩
  | fcons k t rest =>
    intro h
    obtain ⟨ext1, hext1, hrep1⟩ := embedT_spec t h
    obtain ⟨ext2, hext2, hrep2⟩ := embedF_spec rest (embedT t h).2
    have hred : embedF (.fcons k t rest) h =
        ((k, (embedT t h).1) :: (embedF rest (embedT t h).2).1,
         (embedF rest (embedT t h).2).2) := rfl
    rw [hred]
    refine ⟨ext1 ++ ext2, by rw [hext2, hext1]; simp, ?_⟩
    refine ⟨(embedT t h).1, (embedF rest (embedT t h).2).1, (embedT t h).2.length,
      rfl, ?_, hrep2⟩
    refine RepR_mono t h.length (embedT t h).2.length (embedT t h).2 _ (embedT t h).1 ?_ hrep1
    intro i hi2
    rw [hext2]
    exact List.getElem?_append_left hi2

theorem embedE_spec (es : Elems) : ∀ (h : Heap),
    ∃ ext, (embedE es h).2 = h ++ ext ∧
      RepRE h.length (embedE es h).2.length (embedE es h).2 (embedE es h).1 es := by
  cases es with
  | enil => intro h; exact ⟨[], by simp [embedE], rfl, rfl⟩
  | econs t rest =>
    intro h
    obtain ⟨ext1, hext1, hrep1⟩ := embedT_spec t h
    obtain ⟨ext2, hext2, hrep2⟩ := embedE_spec rest (embedT t h).2
    have hred : embedE (.econs t rest) h =
        (some (embedT t h).1 :: (embedE rest (embedT t h).2).1,
         (embedE rest (embedT t h).2).2) := rfl
    rw [hred]
    refine ⟨ext1 ++ ext2, by rw [hext2, hext1]; simp, ?_⟩
    refine ⟨(embedT t h).1, (embedE rest (embedT t h).2).1, (embedT t h).2.length,
      rfl, ?_, hrep2⟩
    refine RepR_mono t h.length (embedT t h).2.length (embedT t h).2 _ (embedT t h).1 ?_ hrep1
    intro i hi2
    rw [hext2]
    exact List.getElem?_append_left hi2

end

theorem enumFrom_filterMap_allSome (ejs : List (Option JVal)) :
    ∀ (n : Nat), (∀ x ∈ ejs, x.isSome = true) →
    (List.enumFrom n ejs).filterMap (fun p => p.2.map (fun _ => renderIdx p.1)) =
      (List.range' n ejs.length).map renderIdx := by
  induction ejs with
  | nil => intro n hall; rfl
  | cons x rest ih =>
    intro n hall
    cases x with
    | none =>
      have := hall none (List.mem_cons_self none rest)
      simp at this
    | some v =>
      have hrest : ∀ y ∈ rest, y.isSome = true :=
        fun y hy => hall y (List.mem_cons_of_mem _ hy)
      simp only [List.enumFrom_cons, List.filterMap_cons, Option.map_some, List.length_cons,
        List.range'_succ, List.map_cons]
      rw [ih (n + 1) hrest]
      rfl

theorem heapKeys_arr_allSome (h : Heap) (a : Addr) (ejs : List (Option JVal))
    (hc : h[a]? = some (.arr ejs)) (hall : ∀ x ∈ ejs, x.isSome = true) :
    heapKeys h a = (List.range' 0 ejs.length).map renderIdx := by
  rw [heapKeys, hc]
  show (List.enumFrom 0 ejs).filterMap _ = _
  exact enumFrom_filterMap_allSome ejs 0 hall

/-! ## Theorems: copy step helpers -/

theorem lt_of_get_some {α : Type} {l : List α} {i : Nat} {c : α} (h : l[i]? = some c) :
    i < l.length := by
  rcases Nat.lt_or_ge i l.length with hlt | hge
  · exact hlt
  · rw [List.getElem?_eq_none hge] at h
    cases h

theorem nodup_of_append_right {α : Type} {l1 l2 : List α} (h : (l1 ++ l2).Nodup) :
    l2.Nodup :=
  h.sublist (List.sublist_append_right l1 l2)

theorem readProp_obj_head (h : Heap) (a : Addr) (fjsAll pre post : List (String × JVal))
    (k : String) (v : JVal) (hc : h[a]? = some (.obj fjsAll))
    (hsplit : fjsAll = pre ++ (k, v) :: post) (hnd : (fjsAll.map Prod.fst).Nodup) :
    readProp h a k = v := by
  rw [readProp.eq_def, hc]
  show contProp (.obj fjsAll) k = v
  rw [contProp.eq_def]
  show (lookupField fjsAll k).getD .undef = v
  rw [hsplit] at hnd
  rw [hsplit, lookupField_append_nodup pre post k v hnd]
  rfl

theorem heapKeys_obj (h : Heap) (a : Addr) (fjs : List (String × JVal))
    (hc : h[a]? = some (.obj fjs)) : heapKeys h a = fjs.map Prod.fst := by
  rw [heapKeys, hc]
  rfl

theorem setElem_append (es : List (Option JVal)) (i : Nat) (v : JVal) (hl : es.length = i) :
    setElem es i v = es ++ [some v] := by
  rw [setElem, if_neg (by omega)]
  subst hl
  simp

theorem contWrite_arr_idx (es : List (Option JVal)) (i : Nat) (v : JVal) :
    contWrite (.arr es) (renderIdx i) v = .arr (setElem es i v) := by
  rw [contWrite, parseIdx_renderIdx]

theorem readProp_arr_idx (h : Heap) (a : Addr) (ejs : List (Option JVal)) (i : Nat)
    (hc : h[a]? = some (.arr ejs)) :
    readProp h a (renderIdx i) = ((ejs[i]?).getD none).getD .undef := by
  rw [readProp.eq_def, hc]
  show contProp (.arr ejs) (renderIdx i) = _
  rw [contProp.eq_def]
  show (match parseIdx (renderIdx i) with
        | some i2 => ((ejs[i2]?).getD none).getD JVal.undef
        | none => JVal.undef) = _
  rw [parseIdx_renderIdx]

theorem pathGet_array (pa : PathAcc) (hpt : pa.pathType = "array") (b : Bool) (k : String) :
    pa.get b k = .ok pa._path := by
  rw [PathAcc.get, if_pos hpt]

theorem pathSet_array (pa : PathAcc) (hpt : pa.pathType = "array") (b : Bool) (k : String) :
    ∃ pa2, pa.set b k = .ok pa2 ∧ pa2.pathType = "array" := by
  rw [PathAcc.set, if_pos hpt]
  cases pa._path with
  | segs l => exact ⟨_, rfl, hpt⟩
  | np s2 => exact ⟨_, rfl, hpt⟩

theorem walkCallback_container (userCb : String → JVal → PathVal → JVal)
    (hcb : ∀ k2 v p, userCb k2 v p ≠ .bool false)
    (k : String) (a : Addr) (pv : PathVal) (h : Heap) (st : CopySt) (b : Addr) (c : Addr)
    (isArr : Bool)
    (hidx : st.outputObjects[jsIndexOf st.inputObjects (.ref a)]? = some b)
    (hval : readProp h a k = .ref c)
    (hkind : if isArr then isPlainObject h (.ref c) = false ∧ isArrayVal h (.ref c) = true
             else isPlainObject h (.ref c) = true) :
    walkCallback userCb k a pv h st =
      .ok (false,
           heapWrite (h ++ [if isArr then .arr [] else .obj []]) b k (.ref h.length),
           ⟨st.inputObjects ++ [.ref c], st.outputObjects ++ [h.length]⟩) := by
  show (if userCb k (.ref a) pv = .bool false then _ else _) = _
  rw [if_neg (hcb k (.ref a) pv), hidx]
  cases isArr with
  | true =>
    simp at hkind
    simp only [hval, hkind.1, hkind.2]
    rfl
  | false =>
    simp at hkind
    simp only [hval, hkind]
    rfl

theorem walkCallback_scalar (userCb : String → JVal → PathVal → JVal)
    (hcb : ∀ k2 v p, userCb k2 v p ≠ .bool false)
    (k : String) (a : Addr) (pv : PathVal) (h : Heap) (st : CopySt) (b : Addr) (v : JVal)
    (hidx : st.outputObjects[jsIndexOf st.inputObjects (.ref a)]? = some b)
    (hval : readProp h a k = v)
    (hobj : isPlainObject h v = false) (harr : isArrayVal h v = false) :
    walkCallback userCb k a pv h st = .ok (false, heapWrite h b k v, st) := by
  show (if userCb k (.ref a) pv = .bool false then _ else _) = _
  rw [if_neg (hcb k (.ref a) pv), hidx]
  simp only [hval, hobj, harr]
  rfl

/-! ## Theorems: invalid input (claim C5) -/

/-- Claim C5: when the top-level input is neither a plain object nor an
array, walkObject throws the invalid-input error before any visitor
invocation: the tree walker throws with an empty log, the heap walker
throws the same error for EVERY callback (so the outcome cannot depend on
the visitor), and copyObject, which drives walkObject, surfaces the same
error for every caller callback. -/
theorem walkObject_invalid_input :
    (∀ {σ : Type} (t : Tree) (cb : TCb σ) (cfg : Config) (s : σ),
       isPlainObjectT t = false → isArrayT t = false →
       walkObjectT t cb cfg s = .err "The input must be an object." ⟨s, []⟩) ∧
    (∀ {σ : Type} (v : JVal) (cb : HCb σ) (cfg : Config) (fuel : Nat) (h : Heap) (s : σ),
       isPlainObject h v = false → isArrayVal h v = false →
       walkObject v cb cfg fuel h s = .error "The input must be an object.") ∧
    (∀ (v : JVal) (userCb : String → JVal → PathVal → JVal) (fuel : Nat) (h : Heap),
       isPlainObject h v = false → isArrayVal h v = false →
       (∀ a, v = .ref a → a < h.length) →
       copyObject fuel v userCb h = .error "The input must be an object.") := by
  have hw : ∀ {σ : Type} (v : JVal) (cb : HCb σ) (cfg : Config) (fuel : Nat) (h : Heap)
      (s : σ), isPlainObject h v = false → isArrayVal h v = false →
      walkObject v cb cfg fuel h s = .error "The input must be an object." := by
    intro σ v cb cfg fuel h s h1 h2
    have hc : (!isPlainObject h v && !isArrayVal h v) = true := by simp [h1, h2]
    rw [walkObject.eq_def, if_pos hc]
  refine ⟨?_, hw, ?_⟩
  · intro σ t cb cfg s h1 h2
    have hc : (!isPlainObjectT t && !isArrayT t) = true := by simp [h1, h2]
    rw [walkObjectT.eq_def, if_pos hc]
  · intro v userCb fuel h h1 h2 hnd
    rw [copyObject]
    have h1e : isPlainObject (h ++ [if isArrayVal h v = true then JCont.arr [] else .obj []])
        v = false := by
      cases v with
      | ref a =>
        have ha := hnd a rfl
        rw [isPlainObject] at h1 ⊢
        rw [List.getElem?_append_left ha] at *
        exact h1
      | num n => rfl
      | str s2 => rfl
      | bool b => rfl
      | null => rfl
      | undef => rfl
    have h2e : isArrayVal (h ++ [if isArrayVal h v = true then JCont.arr [] else .obj []])
        v = false := by
      cases v with
      | ref a =>
        have ha := hnd a rfl
        rw [isArrayVal] at h2 ⊢
        rw [List.getElem?_append_left ha] at *
        exact h2
      | num n => rfl
      | str s2 => rfl
      | bool b => rfl
      | null => rfl
      | undef => rfl
    rw [hw v (walkCallback userCb) ⟨true, none, none⟩ fuel _ _ h1e h2e]

/-- Witness for claim C5 at concrete invalid inputs: a number for the
tree walker and heap walker, and a reference to a non-plain object (a
date, say) for copyObject. -/
theorem walkObject_invalid_input_witness :
    walkObjectT (Tree.num 3) (fun _ _ _ (u : Unit) => (false, u)) ⟨false, none, none⟩ () =
      .err "The input must be an object." ⟨(), []⟩ ∧
    walkObject (JVal.num 3) (fun _ _ _ h (u : Unit) => .ok (false, h, u))
        ⟨false, none, none⟩ 5 [] () = .error "The input must be an object." ∧
    copyObject 5 (JVal.ref 0) (fun _ _ _ => .bool true) [JCont.other] =
      .error "The input must be an object." :=
  ⟨walkObject_invalid_input.1 (Tree.num 3) _ _ _ rfl rfl,
   walkObject_invalid_input.2.1 (JVal.num 3) _ _ 5 [] () rfl rfl,
   walkObject_invalid_input.2.2 (JVal.ref 0) _ 5 [JCont.other] rfl rfl
     (fun a ha => by cases ha; decide)⟩

/-- Witness for claim C3 at a concrete traversal: the visitor vetoes at
key a of :: a: :: b: 1 :: :: and is never invoked below it. -/
theorem walkObject_veto_witness :
    ((∀ e ∈ [Entry.mk [] "a" (.segs []) true], e.ret = true →
        ∀ e2 ∈ [Entry.mk [] "a" (.segs []) true], ¬ (e.pos ++ [e.key] <+: e2.pos)) ∧
     walkObjectT
        (.obj (.fcons "a" (.obj (.fcons "b" (.num 1) .fnil)) (.fcons "c" (.num 2) .fnil)))
        (fun k _ _ (u : Unit) => (k == "a", u)) ⟨false, none, none⟩ () =
      .ok ⟨(), [⟨[], "a", .segs [], true⟩, ⟨[], "c", .segs [], false⟩]⟩) :=
  walkObject_veto (.obj (.fcons "a" (.obj (.fcons "b" (.num 1) .fnil)) .fnil))
    (fun k _ _ (u : Unit) => (k == "a", u)) ⟨false, none, none⟩ ()
    ⟨(), [⟨[], "a", .segs [], true⟩]⟩ (by decide) (by decide)

/-! ## Theorems: the copy simulation -/

mutual

/-- Simulation of the copy traversal over the remaining fields of an
input object: the walk succeeds, touches no existing address except the
output parent `b`, appends to `b` a fresh copy of each remaining field,
and pushes onto the correspondence only input containers from the fields'
address range. -/
theorem copyWalkF (userCb : String → JVal → PathVal → JVal)
    (hcb : ∀ k2 v p, userCb k2 v p ≠ JVal.bool false) (fs : Fields) :
    ∀ (lo a N fuel : Nat) (h : Heap) (st : CopySt) (b : Nat)
      (fjsAll pre fjs outFs : List (String × JVal)) (pa : PathAcc),
    h[a]? = some (.obj fjsAll) →
    fjsAll = pre ++ fjs →
    (fjsAll.map Prod.fst).Nodup →
    RepRF lo a h fjs fs →
    a < N → N ≤ h.length → N ≤ b →
    h[b]? = some (.obj outFs) →
    (∀ k2 ∈ fjs.map Prod.fst, k2 ∉ outFs.map Prod.fst) →
    st.outputObjects[jsIndexOf st.inputObjects (JVal.ref a)]? = some b →
    st.inputObjects.length = st.outputObjects.length →
    (∀ c, lo ≤ c → c < a → JVal.ref c ∉ st.inputObjects) →
    wfF fs = true → plainF fs = true →
    fuelF fs ≤ fuel →
    pa.pathType = "array" →
    ∃ h2 st2 newFs,
      walkItems (walkCallback userCb) ⟨true, none, none⟩ fuel a (fjs.map Prod.fst) pa h st =
        .ok (h2, st2) ∧
      h.length ≤ h2.length ∧
      (∀ i, i < h.length → i ≠ b → h2[i]? = h[i]?) ∧
      h2[b]? = some (.obj (outFs ++ newFs)) ∧
      newFs.map Prod.fst = fjs.map Prod.fst ∧
      RepOF h.length h2.length h2 newFs fs ∧
      ∃ dI dO, st2.inputObjects = st.inputObjects ++ dI ∧
        st2.outputObjects = st.outputObjects ++ dO ∧ dI.length = dO.length ∧
        ∀ x ∈ dI, ∃ c : Nat, x = JVal.ref c ∧ lo ≤ c ∧ c < a := by
  cases fs with
  | fnil =>
    intro lo a N fuel h st b fjsAll pre fjs outFs pa
    intro hgetA hsplitAll hnd hrep haN hNh hNb hgetB hdisj hidx hlen hseen hwf hplain hfuel hpt
    obtain ⟨hfjs, hlohi⟩ := hrep
    subst hfjs
    refine ⟨h, st, [], ?_, le_refl _, fun i _ _ => rfl, by simpa using hgetB, rfl, rfl,
      [], [], by simp, by simp, rfl, by simp⟩
    simp only [List.map_nil, walkItems]
  | fcons k tv rest =>
    intro lo a N fuel h st b fjsAll pre fjs outFs pa
    intro hgetA hsplitAll hnd hrep haN hNh hNb hgetB hdisj hidx hlen hseen hwf hplain hfuel hpt
    obtain ⟨v1, fjs2, mid, hsplit2, hv1, hrest⟩ := hrep
    subst hsplit2
    have hb_lt : b < h.length := lt_of_get_some hgetB
    have ha_lt : a < h.length := lt_of_get_some hgetA
    have hab : a ≠ b := by omega
    have hval : readProp h a k = v1 :=
      readProp_obj_head h a fjsAll pre fjs2 k v1 hgetA hsplitAll hnd
    have hk_notin : k ∉ outFs.map Prod.fst := hdisj k (by simp)
    have hmid_le : mid ≤ a := RepRF_le rest mid a h fjs2 hrest
    have hlo_mid : lo ≤ mid := RepR_le tv lo mid h v1 hv1
    have hkeys_nd : (k :: fjs2.map Prod.fst).Nodup := by
      have h2 := hnd
      rw [hsplitAll, List.map_append] at h2
      simpa using nodup_of_append_right h2
    have hknotin2 : k ∉ fjs2.map Prod.fst := (List.nodup_cons.mp hkeys_nd).1
    have hdisj2 : ∀ k2 ∈ fjs2.map Prod.fst, k2 ∉ outFs.map Prod.fst :=
      fun k2 hk2 => hdisj k2 (by simp [hk2])
    have hwf2 : wfT tv = true ∧ wfF rest = true := by
      simpa [wfF, Bool.and_eq_true] using hwf
    have hplain2 : plainT tv = true ∧ plainF rest = true := by
      simpa [plainF, Bool.and_eq_true] using hplain
    obtain ⟨fuel2, rfl⟩ : ∃ f2, fuel = f2 + 1 := by
      rw [fuelF] at hfuel
      exact ⟨fuel - 1, by omega⟩
    rw [fuelF] at hfuel
    have hfueltv : fuelT tv ≤ fuel2 := by
      have hm := le_max_left (fuelT tv) (fuelF rest)
      omega
    have hfuelrest : fuelF rest ≤ fuel2 := by
      have hm := le_max_right (fuelT tv) (fuelF rest)
      omega
    simp only [List.map_cons]
    cases tv with
    | othr => simp [plainT, plainF] at hplain
    | obj fsc =>
      obtain ⟨c, fjsc, hmid_eq, hlo_c, hv1eq, hgetC, hrepC⟩ := hv1
      subst hv1eq
      have hc_lt_a : c < a := by omega
      have hcN : c < N := by omega
      have hc_lt_h : c < h.length := lt_of_get_some hgetC
      have hcb2 : c ≠ b := by omega
      have hkind : isPlainObject h (.ref c) = true := by
        simp [isPlainObject, hgetC]
      have hcbEq : walkCallback userCb k a pa._path h st =
          .ok (false, heapWrite (h ++ [JCont.obj []]) b k (.ref h.length),
               ⟨st.inputObjects ++ [JVal.ref c], st.outputObjects ++ [h.length]⟩) :=
        walkCallback_container userCb hcb k a pa._path h st b c false hidx hval hkind
      have h1len : (heapWrite (h ++ [JCont.obj []]) b k (.ref h.length)).length =
          h.length + 1 := by
        rw [heapWrite_length]
        simp
      have h1i : ∀ i, i < h.length → i ≠ b →
          (heapWrite (h ++ [JCont.obj []]) b k (.ref h.length))[i]? = h[i]? := by
        intro i hi hne
        rw [heapWrite_get_ne _ _ _ _ _ hne]
        exact List.getElem?_append_left hi
      have h1b : (heapWrite (h ++ [JCont.obj []]) b k (.ref h.length))[b]? =
          some (.obj (outFs ++ [(k, .ref h.length)])) := by
        have hb2 : (h ++ [JCont.obj []])[b]? = some (.obj outFs) := by
          rw [List.getElem?_append_left hb_lt]
          exact hgetB
        rw [heapWrite_get_eq _ _ _ _ _ hb2]
        show some (JCont.obj (setField outFs k (JVal.ref h.length))) = _
        rw [setField_append outFs k _ hk_notin]
      have h1top : (heapWrite (h ++ [JCont.obj []]) b k (.ref h.length))[h.length]? =
          some (.obj []) := by
        rw [heapWrite_get_ne (h ++ [JCont.obj []]) b k (JVal.ref h.length) h.length
          (by omega)]
        rw [List.getElem?_concat_length]
      have h1a : (heapWrite (h ++ [JCont.obj []]) b k (.ref h.length))[a]? =
          some (.obj fjsAll) := by
        rw [h1i a ha_lt hab]
        exact hgetA
      have h1c : (heapWrite (h ++ [JCont.obj []]) b k (.ref h.length))[c]? =
          some (.obj fjsc) := by
        rw [h1i c hc_lt_h hcb2]
        exact hgetC
      have hval1 : readProp (heapWrite (h ++ [JCont.obj []]) b k (.ref h.length)) a k =
          .ref c :=
        readProp_obj_head _ a fjsAll pre fjs2 k (.ref c) h1a hsplitAll hnd
      have hcond : isPlainObject (heapWrite (h ++ [JCont.obj []]) b k (.ref h.length))
          (.ref c) = true := by
        simp [isPlainObject, h1c]
      obtain ⟨pa2, hset, hpt2⟩ := pathSet_array pa hpt
        (isArrAt (heapWrite (h ++ [JCont.obj []]) b k (.ref h.length)) a) k
      have hkeysC : heapKeys (heapWrite (h ++ [JCont.obj []]) b k (.ref h.length)) c =
          fjsc.map Prod.fst := heapKeys_obj _ c fjsc h1c
      have hwfC : wfT (Tree.obj fsc) = true := hwf2.1
      rw [wfT] at hwfC
      simp only [Bool.and_eq_true, decide_eq_true_eq] at hwfC
      have hndC : (fjsc.map Prod.fst).Nodup := by
        rw [RepRF_keys fsc lo c h fjsc hrepC]
        exact hwfC.1
      have hrepC1 : RepRF lo c (heapWrite (h ++ [JCont.obj []]) b k (.ref h.length))
          fjsc fsc :=
        RepRF_mono fsc lo c h _ fjsc (fun i hi2 => h1i i (by omega) (by omega)) hrepC
      have hnotinC : JVal.ref c ∉ st.inputObjects := hseen c hlo_c hc_lt_a
      have hidxC : (st.outputObjects ++ [h.length])[jsIndexOf
          (st.inputObjects ++ [JVal.ref c]) (JVal.ref c)]? = some h.length := by
        rw [jsIndexOf_append_of_notMem _ _ _ hnotinC]
        simp [jsIndexOf, hlen, List.getElem?_concat_length]
      have hseenC : ∀ c2, lo ≤ c2 → c2 < c →
          JVal.ref c2 ∉ st.inputObjects ++ [JVal.ref c] := by
        intro c2 hc2a hc2b hmem
        rcases List.mem_append.mp hmem with hm | hm
        · exact hseen c2 hc2a (by omega) hm
        · rw [List.mem_singleton] at hm
          injection hm with hm2e
          have hm3 : c2 = c := hm2e
          omega
      have ihc := copyWalkF userCb hcb fsc lo c N fuel2
        (heapWrite (h ++ [JCont.obj []]) b k (.ref h.length))
        ⟨st.inputObjects ++ [JVal.ref c], st.outputObjects ++ [h.length]⟩ h.length
        fjsc [] fjsc [] pa2 h1c (by simp) hndC hrepC1 hcN (by omega) hNh h1top
        (by simp) hidxC (by simp [hlen]) hseenC hwfC.2
        (by simpa [plainT] using hplain2.1)
        (by
          have hft : fuelT (Tree.obj fsc) = fuelF fsc := rfl
          omega)
        hpt2
      obtain ⟨h3, st3, newFsC, heq3, hlen3, hag3, hb3, hkeys3, hrop3,
        dIc, dOc, hstIc, hstOc, hdlenc, hdrangec⟩ := ihc
      have hstIc2 : st3.inputObjects = (st.inputObjects ++ [JVal.ref c]) ++ dIc := hstIc
      have hstOc2 : st3.outputObjects = (st.outputObjects ++ [h.length]) ++ dOc := hstOc
      have h3a : h3[a]? = some (.obj fjsAll) := by
        rw [hag3 a (by omega) (by omega)]
        exact h1a
      have h3b : h3[b]? = some (.obj (outFs ++ [(k, JVal.ref h.length)])) := by
        rw [hag3 b (by omega) (by omega)]
        exact h1b
      have hrep3 : RepRF mid a h3 fjs2 rest := by
        refine RepRF_mono rest mid a h h3 fjs2 ?_ hrest
        intro i hi2
        rw [hag3 i (by omega) (by omega), h1i i (by omega) (by omega)]
      have hidx_lt : jsIndexOf st.inputObjects (JVal.ref a) < st.outputObjects.length :=
        lt_of_get_some hidx
      have hmemA : JVal.ref a ∈ st.inputObjects :=
        jsIndexOf_mem_of_lt _ _ (by omega)
      have hidx3 : st3.outputObjects[jsIndexOf st3.inputObjects (JVal.ref a)]? =
          some b := by
        rw [hstIc2, hstOc2, List.append_assoc st.inputObjects,
          jsIndexOf_append_of_mem _ _ _ hmemA, List.append_assoc st.outputObjects,
          List.getElem?_append_left hidx_lt]
        exact hidx
      have hseen3 : ∀ c2, mid ≤ c2 → c2 < a → JVal.ref c2 ∉ st3.inputObjects := by
        intro c2 hc2a hc2b hmem
        rw [hstIc2] at hmem
        rcases List.mem_append.mp hmem with hm | hm
        · rcases List.mem_append.mp hm with hm2 | hm2
          · exact hseen c2 (by omega) hc2b hm2
          · rw [List.mem_singleton] at hm2
            injection hm2 with hm2e
            have hm3 : c2 = c := hm2e
            omega
        · obtain ⟨c3, hc3, hc3a, hc3b⟩ := hdrangec _ hm
          injection hc3 with hc23
          have hc24 : c2 = c3 := hc23
          omega
      have ihrest := copyWalkF userCb hcb rest mid a N fuel2 h3 st3 b fjsAll
        (pre ++ [(k, JVal.ref c)]) fjs2 (outFs ++ [(k, JVal.ref h.length)]) pa
        h3a (by rw [hsplitAll]; simp) hnd hrep3 haN (by omega) hNb h3b
        (by
          intro k2 hk2 hmem
          rw [List.map_append] at hmem
          rcases List.mem_append.mp hmem with hm | hm
          · exact hdisj2 k2 hk2 hm
          · simp at hm
            rw [hm] at hk2
            exact hknotin2 hk2)
        hidx3
        (by
          rw [hstIc2, hstOc2]
          simp only [List.length_append, List.length_cons, List.length_nil]
          omega)
        hseen3 hwf2.2 hplain2.2 (by omega) hpt
      obtain ⟨h4, st4, newFs2, heq4, hlen4, hag4, hb4, hkeys4, hrop4,
        dI2, dO2, hstI2, hstO2, hdlen2, hdrange2⟩ := ihrest
      refine ⟨h4, st4, (k, JVal.ref h.length) :: newFs2, ?_, ?_, ?_, ?_, ?_, ?_,
        ([JVal.ref c] ++ dIc) ++ dI2, ([h.length] ++ dOc) ++ dO2, ?_, ?_, ?_, ?_⟩
      · simp only [walkItems]
        rw [pathGet_array pa hpt]
        dsimp only []
        rw [hcbEq]
        dsimp only []
        rw [if_neg Bool.false_ne_true, hval1, hcond, Bool.true_or, if_pos rfl]
        dsimp only []
        rw [hset]
        dsimp only []
        rw [hkeysC, heq3]
        dsimp only []
        rw [heq4]
      · omega
      · intro i hi hne
        rw [hag4 i (by omega) hne, hag3 i (by omega) (by omega), h1i i hi hne]
      · rw [hb4]
        simp
      · simp [hkeys4]
      · refine ⟨JVal.ref h.length, newFs2, rfl, ?_, ?_⟩
        · refine ⟨h.length, newFsC, rfl, le_refl _, by omega, ?_, ?_⟩
          · rw [hag4 h.length (by omega) (by omega)]
            simpa using hb3
          · refine RepOF_mono fsc (heapWrite (h ++ [JCont.obj []]) b k
              (.ref h.length)).length h3.length h.length h4.length h3 h4 newFsC
              (by omega) (by omega) ?_ hrop3
            intro i hia hib
            exact hag4 i (by omega) (by omega)
        · refine RepOF_mono rest h3.length h4.length h.length h4.length h4 h4 newFs2
            (by omega) (le_refl _) (fun i _ _ => rfl) hrop4
      · rw [hstI2, hstIc2]
        simp
      · rw [hstO2, hstOc2]
        simp
      · simp only [List.length_append, List.length_cons, List.length_nil]
        omega
      · intro x hx
        rcases List.mem_append.mp hx with hm | hm
        · rcases List.mem_append.mp hm with hm2 | hm2
          · rw [List.mem_singleton] at hm2
            exact ⟨c, hm2, hlo_c, hc_lt_a⟩
          · obtain ⟨c3, hc3, hc3a, hc3b⟩ := hdrangec _ hm2
            exact ⟨c3, hc3, hc3a, by omega⟩
        · obtain ⟨c3, hc3, hc3a, hc3b⟩ := hdrange2 _ hm
          exact ⟨c3, hc3, by omega, hc3b⟩
    | arr esc =>
      obtain ⟨c, ejsc, hmid_eq, hlo_c, hv1eq, hgetC, hrepC⟩ := hv1
      subst hv1eq
      have hc_lt_a : c < a := by omega
      have hcN : c < N := by omega
      have hc_lt_h : c < h.length := lt_of_get_some hgetC
      have hcb2 : c ≠ b := by omega
      obtain ⟨hlenE, hallE⟩ := RepRE_shape esc lo c h ejsc hrepC
      have hkind : isPlainObject h (.ref c) = false ∧ isArrayVal h (.ref c) = true := by
        refine ⟨?_, ?_⟩
        · simp [isPlainObject, hgetC]
        · simp [isArrayVal, hgetC]
      have hcbEq : walkCallback userCb k a pa._path h st =
          .ok (false, heapWrite (h ++ [JCont.arr []]) b k (.ref h.length),
               ⟨st.inputObjects ++ [JVal.ref c], st.outputObjects ++ [h.length]⟩) :=
        walkCallback_container userCb hcb k a pa._path h st b c true hidx hval hkind
      have h1len : (heapWrite (h ++ [JCont.arr []]) b k (.ref h.length)).length =
          h.length + 1 := by
        rw [heapWrite_length]
        simp
      have h1i : ∀ i, i < h.length → i ≠ b →
          (heapWrite (h ++ [JCont.arr []]) b k (.ref h.length))[i]? = h[i]? := by
        intro i hi hne
        rw [heapWrite_get_ne _ _ _ _ _ hne]
        exact List.getElem?_append_left hi
      have h1b : (heapWrite (h ++ [JCont.arr []]) b k (.ref h.length))[b]? =
          some (.obj (outFs ++ [(k, .ref h.length)])) := by
        have hb2 : (h ++ [JCont.arr []])[b]? = some (.obj outFs) := by
          rw [List.getElem?_append_left hb_lt]
          exact hgetB
        rw [heapWrite_get_eq _ _ _ _ _ hb2]
        show some (JCont.obj (setField outFs k (JVal.ref h.length))) = _
        rw [setField_append outFs k _ hk_notin]
      have h1top : (heapWrite (h ++ [JCont.arr []]) b k (.ref h.length))[h.length]? =
          some (.arr []) := by
        rw [heapWrite_get_ne (h ++ [JCont.arr []]) b k (JVal.ref h.length) h.length
          (by omega)]
        rw [List.getElem?_concat_length]
      have h1a : (heapWrite (h ++ [JCont.arr []]) b k (.ref h.length))[a]? =
          some (.obj fjsAll) := by
        rw [h1i a ha_lt hab]
        exact hgetA
      have h1c : (heapWrite (h ++ [JCont.arr []]) b k (.ref h.length))[c]? =
          some (.arr ejsc) := by
        rw [h1i c hc_lt_h hcb2]
        exact hgetC
      have hval1 : readProp (heapWrite (h ++ [JCont.arr []]) b k (.ref h.length)) a k =
          .ref c :=
        readProp_obj_head _ a fjsAll pre fjs2 k (.ref c) h1a hsplitAll hnd
      have hpoC : isPlainObject (heapWrite (h ++ [JCont.arr []]) b k (.ref h.length))
          (.ref c) = false := by
        simp [isPlainObject, h1c]
      have havC : isArrayVal (heapWrite (h ++ [JCont.arr []]) b k (.ref h.length))
          (.ref c) = true := by
        simp [isArrayVal, h1c]
      have hdawC : doArrayWalk true k true none = true := rfl
      obtain ⟨pa2, hset, hpt2⟩ := pathSet_array pa hpt
        (isArrAt (heapWrite (h ++ [JCont.arr []]) b k (.ref h.length)) a) k
      have hkeysC : heapKeys (heapWrite (h ++ [JCont.arr []]) b k (.ref h.length)) c =
          (List.range' 0 (elemsLen esc)).map renderIdx := by
        rw [heapKeys_arr_allSome _ c ejsc h1c hallE, hlenE]
      have hrepC1 : RepRE lo c (heapWrite (h ++ [JCont.arr []]) b k (.ref h.length))
          ejsc esc :=
        RepRE_mono esc lo c h _ ejsc (fun i hi2 => h1i i (by omega) (by omega)) hrepC
      have hnotinC : JVal.ref c ∉ st.inputObjects := hseen c hlo_c hc_lt_a
      have hidxC : (st.outputObjects ++ [h.length])[jsIndexOf
          (st.inputObjects ++ [JVal.ref c]) (JVal.ref c)]? = some h.length := by
        rw [jsIndexOf_append_of_notMem _ _ _ hnotinC]
        simp [jsIndexOf, hlen, List.getElem?_concat_length]
      have hseenC : ∀ c2, lo ≤ c2 → c2 < c →
          JVal.ref c2 ∉ st.inputObjects ++ [JVal.ref c] := by
        intro c2 hc2a hc2b hmem
        rcases List.mem_append.mp hmem with hm | hm
        · exact hseen c2 hc2a (by omega) hm
        · rw [List.mem_singleton] at hm
          injection hm with hm2e
          have hm3 : c2 = c := hm2e
          omega
      have ihc := copyWalkE userCb hcb esc lo c N fuel2 0
        (heapWrite (h ++ [JCont.arr []]) b k (.ref h.length))
        ⟨st.inputObjects ++ [JVal.ref c], st.outputObjects ++ [h.length]⟩ h.length
        ejsc ejsc [] pa2 h1c rfl hrepC1 hcN (by omega) hNh h1top rfl hidxC
        (by simp [hlen]) hseenC
        (by simpa [wfT] using hwf2.1)
        (by simpa [plainT] using hplain2.1)
        (by
          have hft : fuelT (Tree.arr esc) = fuelE esc := rfl
          omega)
        hpt2
      obtain ⟨h3, st3, newEsC, heq3, hlen3, hag3, hb3, hkeys3, hrop3,
        dIc, dOc, hstIc, hstOc, hdlenc, hdrangec⟩ := ihc
      have hstIc2 : st3.inputObjects = (st.inputObjects ++ [JVal.ref c]) ++ dIc := hstIc
      have hstOc2 : st3.outputObjects = (st.outputObjects ++ [h.length]) ++ dOc := hstOc
      have h3a : h3[a]? = some (.obj fjsAll) := by
        rw [hag3 a (by omega) (by omega)]
        exact h1a
      have h3b : h3[b]? = some (.obj (outFs ++ [(k, JVal.ref h.length)])) := by
        rw [hag3 b (by omega) (by omega)]
        exact h1b
      have hrep3 : RepRF mid a h3 fjs2 rest := by
        refine RepRF_mono rest mid a h h3 fjs2 ?_ hrest
        intro i hi2
        rw [hag3 i (by omega) (by omega), h1i i (by omega) (by omega)]
      have hidx_lt : jsIndexOf st.inputObjects (JVal.ref a) < st.outputObjects.length :=
        lt_of_get_some hidx
      have hmemA : JVal.ref a ∈ st.inputObjects :=
        jsIndexOf_mem_of_lt _ _ (by omega)
      have hidx3 : st3.outputObjects[jsIndexOf st3.inputObjects (JVal.ref a)]? =
          some b := by
        rw [hstIc2, hstOc2, List.append_assoc st.inputObjects,
          jsIndexOf_append_of_mem _ _ _ hmemA, List.append_assoc st.outputObjects,
          List.getElem?_append_left hidx_lt]
        exact hidx
      have hseen3 : ∀ c2, mid ≤ c2 → c2 < a → JVal.ref c2 ∉ st3.inputObjects := by
        intro c2 hc2a hc2b hmem
        rw [hstIc2] at hmem
        rcases List.mem_append.mp hmem with hm | hm
        · rcases List.mem_append.mp hm with hm2 | hm2
          · exact hseen c2 (by omega) hc2b hm2
          · rw [List.mem_singleton] at hm2
            injection hm2 with hm2e
            have hm3 : c2 = c := hm2e
            omega
        · obtain ⟨c3, hc3, hc3a, hc3b⟩ := hdrangec _ hm
          injection hc3 with hc23
          have hc24 : c2 = c3 := hc23
          omega
      have ihrest := copyWalkF userCb hcb rest mid a N fuel2 h3 st3 b fjsAll
        (pre ++ [(k, JVal.ref c)]) fjs2 (outFs ++ [(k, JVal.ref h.length)]) pa
        h3a (by rw [hsplitAll]; simp) hnd hrep3 haN (by omega) hNb h3b
        (by
          intro k2 hk2 hmem
          rw [List.map_append] at hmem
          rcases List.mem_append.mp hmem with hm | hm
          · exact hdisj2 k2 hk2 hm
          · simp at hm
            rw [hm] at hk2
            exact hknotin2 hk2)
        hidx3
        (by
          rw [hstIc2, hstOc2]
          simp only [List.length_append, List.length_cons, List.length_nil]
          omega)
        hseen3 hwf2.2 hplain2.2 (by omega) hpt
      obtain ⟨h4, st4, newFs2, heq4, hlen4, hag4, hb4, hkeys4, hrop4,
        dI2, dO2, hstI2, hstO2, hdlen2, hdrange2⟩ := ihrest
      refine ⟨h4, st4, (k, JVal.ref h.length) :: newFs2, ?_, ?_, ?_, ?_, ?_, ?_,
        ([JVal.ref c] ++ dIc) ++ dI2, ([h.length] ++ dOc) ++ dO2, ?_, ?_, ?_, ?_⟩
      · simp only [walkItems]
        rw [pathGet_array pa hpt]
        dsimp only []
        rw [hcbEq]
        dsimp only []
        rw [if_neg Bool.false_ne_true, hval1, hpoC, Bool.false_or, havC, hdawC, if_pos rfl]
        dsimp only []
        rw [hset]
        dsimp only []
        rw [hkeysC, heq3]
        dsimp only []
        rw [heq4]
      · omega
      · intro i hi hne
        rw [hag4 i (by omega) hne, hag3 i (by omega) (by omega), h1i i hi hne]
      · rw [hb4]
        simp
      · simp [hkeys4]
      · refine ⟨JVal.ref h.length, newFs2, rfl, ?_, ?_⟩
        · refine ⟨h.length, newEsC, rfl, le_refl _, by omega, ?_, ?_⟩
          · rw [hag4 h.length (by omega) (by omega)]
            simpa using hb3
          · refine RepOE_mono esc (heapWrite (h ++ [JCont.arr []]) b k
              (.ref h.length)).length h3.length h.length h4.length h3 h4 newEsC
              (by omega) (by omega) ?_ hrop3
            intro i hia hib
            exact hag4 i (by omega) (by omega)
        · refine RepOF_mono rest h3.length h4.length h.length h4.length h4 h4 newFs2
            (by omega) (le_refl _) (fun i _ _ => rfl) hrop4
      · rw [hstI2, hstIc2]
        simp
      · rw [hstO2, hstOc2]
        simp
      · simp only [List.length_append, List.length_cons, List.length_nil]
        omega
      · intro x hx
        rcases List.mem_append.mp hx with hm | hm
        · rcases List.mem_append.mp hm with hm2 | hm2
          · rw [List.mem_singleton] at hm2
            exact ⟨c, hm2, hlo_c, hc_lt_a⟩
          · obtain ⟨c3, hc3, hc3a, hc3b⟩ := hdrangec _ hm2
            exact ⟨c3, hc3, hc3a, by omega⟩
        · obtain ⟨c3, hc3, hc3a, hc3b⟩ := hdrange2 _ hm
          exact ⟨c3, hc3, by omega, hc3b⟩
    | num n =>
      obtain ⟨hv1eq, hmid_eq⟩ := hv1
      have hscal := scalar_not_container h v1 (by rw [hv1eq]; intro a2 hc; cases hc)
      have hcbEq := walkCallback_scalar userCb hcb k a pa._path h st b v1 hidx
        hval hscal.1 hscal.2
      have h1len : (heapWrite h b k v1).length = h.length := heapWrite_length h b k v1
      have h1i : ∀ i, i ≠ b → (heapWrite h b k v1)[i]? = h[i]? :=
        fun i hne => heapWrite_get_ne h b k v1 i hne
      have h1b : (heapWrite h b k v1)[b]? = some (.obj (outFs ++ [(k, v1)])) := by
        rw [heapWrite_get_eq h b k v1 _ hgetB]
        show some (JCont.obj (setField outFs k v1)) = _
        rw [setField_append outFs k v1 hk_notin]
      have h1a : (heapWrite h b k v1)[a]? = some (.obj fjsAll) := by
        rw [h1i a hab]
        exact hgetA
      have hval1 : readProp (heapWrite h b k v1) a k = v1 :=
        readProp_obj_head _ a fjsAll pre fjs2 k v1 h1a hsplitAll hnd
      have hscal1 := scalar_not_container (heapWrite h b k v1) v1
        (by rw [hv1eq]; intro a2 hc; cases hc)
      have hdaw : doArrayWalk false k true none = false := rfl
      have hrep1 : RepRF mid a (heapWrite h b k v1) fjs2 rest :=
        RepRF_mono rest mid a h _ fjs2 (fun i hi2 => h1i i (by omega)) hrest
      have ihrest := copyWalkF userCb hcb rest mid a N fuel2 (heapWrite h b k v1) st b
        fjsAll (pre ++ [(k, v1)]) fjs2 (outFs ++ [(k, v1)]) pa h1a
        (by rw [hsplitAll]; simp) hnd hrep1 haN (by omega) hNb h1b
        (by
          intro k2 hk2 hmem
          rw [List.map_append] at hmem
          rcases List.mem_append.mp hmem with hm | hm
          · exact hdisj2 k2 hk2 hm
          · simp at hm
            rw [hm] at hk2
            exact hknotin2 hk2)
        hidx hlen
        (by
          intro c2 hc2a hc2b
          exact hseen c2 (by omega) hc2b)
        hwf2.2 hplain2.2 (by omega) hpt
      obtain ⟨h4, st4, newFs2, heq4, hlen4, hag4, hb4, hkeys4, hrop4,
        dI2, dO2, hstI2, hstO2, hdlen2, hdrange2⟩ := ihrest
      refine ⟨h4, st4, (k, v1) :: newFs2, ?_, ?_, ?_, ?_, ?_, ?_, dI2, dO2, hstI2, hstO2,
        hdlen2, ?_⟩
      · simp only [walkItems]
        rw [pathGet_array pa hpt]
        dsimp only []
        rw [hcbEq]
        dsimp only []
        rw [if_neg Bool.false_ne_true, hval1, hscal1.1, Bool.false_or, hscal1.2, hdaw,
          if_neg Bool.false_ne_true]
        exact heq4
      · omega
      · intro i hi hne
        rw [hag4 i (by omega) hne, h1i i hne]
      · rw [hb4]
        simp
      · simp [hkeys4]
      · refine ⟨v1, newFs2, rfl, hv1eq, ?_⟩
        refine RepOF_mono rest (heapWrite h b k v1).length h4.length h.length h4.length
          h4 h4 newFs2 (by omega) (le_refl _) (fun i _ _ => rfl) hrop4
      · intro x hx
        obtain ⟨c2, hc2, hc2a, hc2b⟩ := hdrange2 x hx
        exact ⟨c2, hc2, by omega, hc2b⟩
    | str s2 =>
      obtain ⟨hv1eq, hmid_eq⟩ := hv1
      have hscal := scalar_not_container h v1 (by rw [hv1eq]; intro a2 hc; cases hc)
      have hcbEq := walkCallback_scalar userCb hcb k a pa._path h st b v1 hidx
        hval hscal.1 hscal.2
      have h1len : (heapWrite h b k v1).length = h.length := heapWrite_length h b k v1
      have h1i : ∀ i, i ≠ b → (heapWrite h b k v1)[i]? = h[i]? :=
        fun i hne => heapWrite_get_ne h b k v1 i hne
      have h1b : (heapWrite h b k v1)[b]? = some (.obj (outFs ++ [(k, v1)])) := by
        rw [heapWrite_get_eq h b k v1 _ hgetB]
        show some (JCont.obj (setField outFs k v1)) = _
        rw [setField_append outFs k v1 hk_notin]
      have h1a : (heapWrite h b k v1)[a]? = some (.obj fjsAll) := by
        rw [h1i a hab]
        exact hgetA
      have hval1 : readProp (heapWrite h b k v1) a k = v1 :=
        readProp_obj_head _ a fjsAll pre fjs2 k v1 h1a hsplitAll hnd
      have hscal1 := scalar_not_container (heapWrite h b k v1) v1
        (by rw [hv1eq]; intro a2 hc; cases hc)
      have hdaw : doArrayWalk false k true none = false := rfl
      have hrep1 : RepRF mid a (heapWrite h b k v1) fjs2 rest :=
        RepRF_mono rest mid a h _ fjs2 (fun i hi2 => h1i i (by omega)) hrest
      have ihrest := copyWalkF userCb hcb rest mid a N fuel2 (heapWrite h b k v1) st b
        fjsAll (pre ++ [(k, v1)]) fjs2 (outFs ++ [(k, v1)]) pa h1a
        (by rw [hsplitAll]; simp) hnd hrep1 haN (by omega) hNb h1b
        (by
          intro k2 hk2 hmem
          rw [List.map_append] at hmem
          rcases List.mem_append.mp hmem with hm | hm
          · exact hdisj2 k2 hk2 hm
          · simp at hm
            rw [hm] at hk2
            exact hknotin2 hk2)
        hidx hlen
        (by
          intro c2 hc2a hc2b
          exact hseen c2 (by omega) hc2b)
        hwf2.2 hplain2.2 (by omega) hpt
      obtain ⟨h4, st4, newFs2, heq4, hlen4, hag4, hb4, hkeys4, hrop4,
        dI2, dO2, hstI2, hstO2, hdlen2, hdrange2⟩ := ihrest
      refine ⟨h4, st4, (k, v1) :: newFs2, ?_, ?_, ?_, ?_, ?_, ?_, dI2, dO2, hstI2, hstO2,
        hdlen2, ?_⟩
      · simp only [walkItems]
        rw [pathGet_array pa hpt]
        dsimp only []
        rw [hcbEq]
        dsimp only []
        rw [if_neg Bool.false_ne_true, hval1, hscal1.1, Bool.false_or, hscal1.2, hdaw,
          if_neg Bool.false_ne_true]
        exact heq4
      · omega
      · intro i hi hne
        rw [hag4 i (by omega) hne, h1i i hne]
      · rw [hb4]
        simp
      · simp [hkeys4]
      · refine ⟨v1, newFs2, rfl, hv1eq, ?_⟩
        refine RepOF_mono rest (heapWrite h b k v1).length h4.length h.length h4.length
          h4 h4 newFs2 (by omega) (le_refl _) (fun i _ _ => rfl) hrop4
      · intro x hx
        obtain ⟨c2, hc2, hc2a, hc2b⟩ := hdrange2 x hx
        exact ⟨c2, hc2, by omega, hc2b⟩
    | bool b2 =>
      obtain ⟨hv1eq, hmid_eq⟩ := hv1
      have hscal := scalar_not_container h v1 (by rw [hv1eq]; intro a2 hc; cases hc)
      have hcbEq := walkCallback_scalar userCb hcb k a pa._path h st b v1 hidx
        hval hscal.1 hscal.2
      have h1len : (heapWrite h b k v1).length = h.length := heapWrite_length h b k v1
      have h1i : ∀ i, i ≠ b → (heapWrite h b k v1)[i]? = h[i]? :=
        fun i hne => heapWrite_get_ne h b k v1 i hne
      have h1b : (heapWrite h b k v1)[b]? = some (.obj (outFs ++ [(k, v1)])) := by
        rw [heapWrite_get_eq h b k v1 _ hgetB]
        show some (JCont.obj (setField outFs k v1)) = _
        rw [setField_append outFs k v1 hk_notin]
      have h1a : (heapWrite h b k v1)[a]? = some (.obj fjsAll) := by
        rw [h1i a hab]
        exact hgetA
      have hval1 : readProp (heapWrite h b k v1) a k = v1 :=
        readProp_obj_head _ a fjsAll pre fjs2 k v1 h1a hsplitAll hnd
      have hscal1 := scalar_not_container (heapWrite h b k v1) v1
        (by rw [hv1eq]; intro a2 hc; cases hc)
      have hdaw : doArrayWalk false k true none = false := rfl
      have hrep1 : RepRF mid a (heapWrite h b k v1) fjs2 rest :=
        RepRF_mono rest mid a h _ fjs2 (fun i hi2 => h1i i (by omega)) hrest
      have ihrest := copyWalkF userCb hcb rest mid a N fuel2 (heapWrite h b k v1) st b
        fjsAll (pre ++ [(k, v1)]) fjs2 (outFs ++ [(k, v1)]) pa h1a
        (by rw [hsplitAll]; simp) hnd hrep1 haN (by omega) hNb h1b
        (by
          intro k2 hk2 hmem
          rw [List.map_append] at hmem
          rcases List.mem_append.mp hmem with hm | hm
          · exact hdisj2 k2 hk2 hm
          · simp at hm
            rw [hm] at hk2
            exact hknotin2 hk2)
        hidx hlen
        (by
          intro c2 hc2a hc2b
          exact hseen c2 (by omega) hc2b)
        hwf2.2 hplain2.2 (by omega) hpt
      obtain ⟨h4, st4, newFs2, heq4, hlen4, hag4, hb4, hkeys4, hrop4,
        dI2, dO2, hstI2, hstO2, hdlen2, hdrange2⟩ := ihrest
      refine ⟨h4, st4, (k, v1) :: newFs2, ?_, ?_, ?_, ?_, ?_, ?_, dI2, dO2, hstI2, hstO2,
        hdlen2, ?_⟩
      · simp only [walkItems]
        rw [pathGet_array pa hpt]
        dsimp only []
        rw [hcbEq]
        dsimp only []
        rw [if_neg Bool.false_ne_true, hval1, hscal1.1, Bool.false_or, hscal1.2, hdaw,
          if_neg Bool.false_ne_true]
        exact heq4
      · omega
      · intro i hi hne
        rw [hag4 i (by omega) hne, h1i i hne]
      · rw [hb4]
        simp
      · simp [hkeys4]
      · refine ⟨v1, newFs2, rfl, hv1eq, ?_⟩
        refine RepOF_mono rest (heapWrite h b k v1).length h4.length h.length h4.length
          h4 h4 newFs2 (by omega) (le_refl _) (fun i _ _ => rfl) hrop4
      · intro x hx
        obtain ⟨c2, hc2, hc2a, hc2b⟩ := hdrange2 x hx
        exact ⟨c2, hc2, by omega, hc2b⟩
    | null =>
      obtain ⟨hv1eq, hmid_eq⟩ := hv1
      have hscal := scalar_not_container h v1 (by rw [hv1eq]; intro a2 hc; cases hc)
      have hcbEq := walkCallback_scalar userCb hcb k a pa._path h st b v1 hidx
        hval hscal.1 hscal.2
      have h1len : (heapWrite h b k v1).length = h.length := heapWrite_length h b k v1
      have h1i : ∀ i, i ≠ b → (heapWrite h b k v1)[i]? = h[i]? :=
        fun i hne => heapWrite_get_ne h b k v1 i hne
      have h1b : (heapWrite h b k v1)[b]? = some (.obj (outFs ++ [(k, v1)])) := by
        rw [heapWrite_get_eq h b k v1 _ hgetB]
        show some (JCont.obj (setField outFs k v1)) = _
        rw [setField_append outFs k v1 hk_notin]
      have h1a : (heapWrite h b k v1)[a]? = some (.obj fjsAll) := by
        rw [h1i a hab]
        exact hgetA
      have hval1 : readProp (heapWrite h b k v1) a k = v1 :=
        readProp_obj_head _ a fjsAll pre fjs2 k v1 h1a hsplitAll hnd
      have hscal1 := scalar_not_container (heapWrite h b k v1) v1
        (by rw [hv1eq]; intro a2 hc; cases hc)
      have hdaw : doArrayWalk false k true none = false := rfl
      have hrep1 : RepRF mid a (heapWrite h b k v1) fjs2 rest :=
        RepRF_mono rest mid a h _ fjs2 (fun i hi2 => h1i i (by omega)) hrest
      have ihrest := copyWalkF userCb hcb rest mid a N fuel2 (heapWrite h b k v1) st b
        fjsAll (pre ++ [(k, v1)]) fjs2 (outFs ++ [(k, v1)]) pa h1a
        (by rw [hsplitAll]; simp) hnd hrep1 haN (by omega) hNb h1b
        (by
          intro k2 hk2 hmem
          rw [List.map_append] at hmem
          rcases List.mem_append.mp hmem with hm | hm
          · exact hdisj2 k2 hk2 hm
          · simp at hm
            rw [hm] at hk2
            exact hknotin2 hk2)
        hidx hlen
        (by
          intro c2 hc2a hc2b
          exact hseen c2 (by omega) hc2b)
        hwf2.2 hplain2.2 (by omega) hpt
      obtain ⟨h4, st4, newFs2, heq4, hlen4, hag4, hb4, hkeys4, hrop4,
        dI2, dO2, hstI2, hstO2, hdlen2, hdrange2⟩ := ihrest
      refine ⟨h4, st4, (k, v1) :: newFs2, ?_, ?_, ?_, ?_, ?_, ?_, dI2, dO2, hstI2, hstO2,
        hdlen2, ?_⟩
      · simp only [walkItems]
        rw [pathGet_array pa hpt]
        dsimp only []
        rw [hcbEq]
        dsimp only []
        rw [if_neg Bool.false_ne_true, hval1, hscal1.1, Bool.false_or, hscal1.2, hdaw,
          if_neg Bool.false_ne_true]
        exact heq4
      · omega
      · intro i hi hne
        rw [hag4 i (by omega) hne, h1i i hne]
      · rw [hb4]
        simp
      · simp [hkeys4]
      · refine ⟨v1, newFs2, rfl, hv1eq, ?_⟩
        refine RepOF_mono rest (heapWrite h b k v1).length h4.length h.length h4.length
          h4 h4 newFs2 (by omega) (le_refl _) (fun i _ _ => rfl) hrop4
      · intro x hx
        obtain ⟨c2, hc2, hc2a, hc2b⟩ := hdrange2 x hx
        exact ⟨c2, hc2, by omega, hc2b⟩
    | undef =>
      obtain ⟨hv1eq, hmid_eq⟩ := hv1
      have hscal := scalar_not_container h v1 (by rw [hv1eq]; intro a2 hc; cases hc)
      have hcbEq := walkCallback_scalar userCb hcb k a pa._path h st b v1 hidx
        hval hscal.1 hscal.2
      have h1len : (heapWrite h b k v1).length = h.length := heapWrite_length h b k v1
      have h1i : ∀ i, i ≠ b → (heapWrite h b k v1)[i]? = h[i]? :=
        fun i hne => heapWrite_get_ne h b k v1 i hne
      have h1b : (heapWrite h b k v1)[b]? = some (.obj (outFs ++ [(k, v1)])) := by
        rw [heapWrite_get_eq h b k v1 _ hgetB]
        show some (JCont.obj (setField outFs k v1)) = _
        rw [setField_append outFs k v1 hk_notin]
      have h1a : (heapWrite h b k v1)[a]? = some (.obj fjsAll) := by
        rw [h1i a hab]
        exact hgetA
      have hval1 : readProp (heapWrite h b k v1) a k = v1 :=
        readProp_obj_head _ a fjsAll pre fjs2 k v1 h1a hsplitAll hnd
      have hscal1 := scalar_not_container (heapWrite h b k v1) v1
        (by rw [hv1eq]; intro a2 hc; cases hc)
      have hdaw : doArrayWalk false k true none = false := rfl
      have hrep1 : RepRF mid a (heapWrite h b k v1) fjs2 rest :=
        RepRF_mono rest mid a h _ fjs2 (fun i hi2 => h1i i (by omega)) hrest
      have ihrest := copyWalkF userCb hcb rest mid a N fuel2 (heapWrite h b k v1) st b
        fjsAll (pre ++ [(k, v1)]) fjs2 (outFs ++ [(k, v1)]) pa h1a
        (by rw [hsplitAll]; simp) hnd hrep1 haN (by omega) hNb h1b
        (by
          intro k2 hk2 hmem
          rw [List.map_append] at hmem
          rcases List.mem_append.mp hmem with hm | hm
          · exact hdisj2 k2 hk2 hm
          · simp at hm
            rw [hm] at hk2
            exact hknotin2 hk2)
        hidx hlen
        (by
          intro c2 hc2a hc2b
          exact hseen c2 (by omega) hc2b)
        hwf2.2 hplain2.2 (by omega) hpt
      obtain ⟨h4, st4, newFs2, heq4, hlen4, hag4, hb4, hkeys4, hrop4,
        dI2, dO2, hstI2, hstO2, hdlen2, hdrange2⟩ := ihrest
      refine ⟨h4, st4, (k, v1) :: newFs2, ?_, ?_, ?_, ?_, ?_, ?_, dI2, dO2, hstI2, hstO2,
        hdlen2, ?_⟩
      · simp only [walkItems]
        rw [pathGet_array pa hpt]
        dsimp only []
        rw [hcbEq]
        dsimp only []
        rw [if_neg Bool.false_ne_true, hval1, hscal1.1, Bool.false_or, hscal1.2, hdaw,
          if_neg Bool.false_ne_true]
        exact heq4
      · omega
      · intro i hi hne
        rw [hag4 i (by omega) hne, h1i i hne]
      · rw [hb4]
        simp
      · simp [hkeys4]
      · refine ⟨v1, newFs2, rfl, hv1eq, ?_⟩
        refine RepOF_mono rest (heapWrite h b k v1).length h4.length h.length h4.length
          h4 h4 newFs2 (by omega) (le_refl _) (fun i _ _ => rfl) hrop4
      · intro x hx
        obtain ⟨c2, hc2, hc2a, hc2b⟩ := hdrange2 x hx
        exact ⟨c2, hc2, by omega, hc2b⟩

/-- Simulation of the copy traversal over the remaining elements of an
input array, mirroring the field version: `i0` elements are already
copied into the output array at `b`, and the remaining keys are the
decimal indices from `i0` on. -/
theorem copyWalkE (userCb : String → JVal → PathVal → JVal)
    (hcb : ∀ k2 v p, userCb k2 v p ≠ JVal.bool false) (es : Elems) :
    ∀ (lo a N fuel i0 : Nat) (h : Heap) (st : CopySt) (b : Nat)
      (ejsAll ejs outEs : List (Option JVal)) (pa : PathAcc),
    h[a]? = some (.arr ejsAll) →
    ejsAll.drop i0 = ejs →
    RepRE lo a h ejs es →
    a < N → N ≤ h.length → N ≤ b →
    h[b]? = some (.arr outEs) →
    outEs.length = i0 →
    st.outputObjects[jsIndexOf st.inputObjects (JVal.ref a)]? = some b →
    st.inputObjects.length = st.outputObjects.length →
    (∀ c, lo ≤ c → c < a → JVal.ref c ∉ st.inputObjects) →
    wfE es = true → plainE es = true →
    fuelE es ≤ fuel →
    pa.pathType = "array" →
    ∃ h2 st2 newEs,
      walkItems (walkCallback userCb) ⟨true, none, none⟩ fuel a
          ((List.range' i0 (elemsLen es)).map renderIdx) pa h st = .ok (h2, st2) ∧
      h.length ≤ h2.length ∧
      (∀ i, i < h.length → i ≠ b → h2[i]? = h[i]?) ∧
      h2[b]? = some (.arr (outEs ++ newEs)) ∧
      newEs.length = elemsLen es ∧
      RepOE h.length h2.length h2 newEs es ∧
      ∃ dI dO, st2.inputObjects = st.inputObjects ++ dI ∧
        st2.outputObjects = st.outputObjects ++ dO ∧ dI.length = dO.length ∧
        ∀ x ∈ dI, ∃ c : Nat, x = JVal.ref c ∧ lo ≤ c ∧ c < a := by
  cases es with
  | enil =>
    intro lo a N fuel i0 h st b ejsAll ejs outEs pa
    intro hgetA hdrop hrep haN hNh hNb hgetB hlenB hidx hlen hseen hwf hplain hfuel hpt
    refine ⟨h, st, [], ?_, le_refl _, fun i _ _ => rfl, by simpa using hgetB, rfl, rfl,
      [], [], by simp, by simp, rfl, by simp⟩
    have hrange : (List.range' i0 (elemsLen Elems.enil)).map renderIdx = ([] : List String) := by
      simp [elemsLen]
    rw [hrange]
    simp only [walkItems]
  | econs tv rest =>
    intro lo a N fuel i0 h st b ejsAll ejs outEs pa
    intro hgetA hdrop hrep haN hNh hNb hgetB hlenB hidx hlen hseen hwf hplain hfuel hpt
    obtain ⟨v1, ejs2, mid, hsplit2, hv1, hrest⟩ := hrep
    subst hsplit2
    have hb_lt : b < h.length := lt_of_get_some hgetB
    have ha_lt : a < h.length := lt_of_get_some hgetA
    have hab : a ≠ b := by omega
    have hgetIdx : ejsAll[i0]? = some (some v1) := by
      have h0 : (ejsAll.drop i0)[0]? = some (some v1) := by
        rw [hdrop]
        simp
      rw [List.getElem?_drop] at h0
      simpa using h0
    have hval : readProp h a (renderIdx i0) = v1 := by
      rw [readProp_arr_idx h a ejsAll i0 hgetA, hgetIdx]
      rfl
    have hdrop2 : ejsAll.drop (i0 + 1) = ejs2 := by
      have h2 : (ejsAll.drop i0).drop 1 = ejs2 := by
        rw [hdrop]
        rfl
      rw [List.drop_drop] at h2
      exact h2
    have hmid_le : mid ≤ a := RepRE_le rest mid a h ejs2 hrest
    have hlo_mid : lo ≤ mid := RepR_le tv lo mid h v1 hv1
    have hwf2 : wfT tv = true ∧ wfE rest = true := by
      simpa [wfE, Bool.and_eq_true] using hwf
    have hplain2 : plainT tv = true ∧ plainE rest = true := by
      simpa [plainE, Bool.and_eq_true] using hplain
    obtain ⟨fuel2, rfl⟩ : ∃ f2, fuel = f2 + 1 := by
      rw [fuelE] at hfuel
      exact ⟨fuel - 1, by omega⟩
    rw [fuelE] at hfuel
    have hfueltv : fuelT tv ≤ fuel2 := by
      have hm := le_max_left (fuelT tv) (fuelE rest)
      omega
    have hfuelrest : fuelE rest ≤ fuel2 := by
      have hm := le_max_right (fuelT tv) (fuelE rest)
      omega
    have hkl : (List.range' i0 (elemsLen (Elems.econs tv rest))).map renderIdx =
        renderIdx i0 :: (List.range' (i0 + 1) (elemsLen rest)).map renderIdx := by
      rw [elemsLen, List.range'_succ]
      simp
    rw [hkl]
    cases tv with
    | othr => simp [plainT, plainE] at hplain
    | obj fsc =>
      obtain ⟨c, fjsc, hmid_eq, hlo_c, hv1eq, hgetC, hrepC⟩ := hv1
      subst hv1eq
      have hc_lt_a : c < a := by omega
      have hcN : c < N := by omega
      have hc_lt_h : c < h.length := lt_of_get_some hgetC
      have hcb2 : c ≠ b := by omega
      have hkind : isPlainObject h (.ref c) = true := by
        simp [isPlainObject, hgetC]
      have hcbEq : walkCallback userCb (renderIdx i0) a pa._path h st =
          .ok (false, heapWrite (h ++ [JCont.obj []]) b (renderIdx i0) (.ref h.length),
               ⟨st.inputObjects ++ [JVal.ref c], st.outputObjects ++ [h.length]⟩) :=
        walkCallback_container userCb hcb (renderIdx i0) a pa._path h st b c false hidx
          hval hkind
      have h1len : (heapWrite (h ++ [JCont.obj []]) b (renderIdx i0) (.ref h.length)).length =
          h.length + 1 := by
        rw [heapWrite_length]
        simp
      have h1i : ∀ i, i < h.length → i ≠ b →
          (heapWrite (h ++ [JCont.obj []]) b (renderIdx i0) (.ref h.length))[i]? = h[i]? := by
        intro i hi hne
        rw [heapWrite_get_ne _ _ _ _ _ hne]
        exact List.getElem?_append_left hi
      have h1b : (heapWrite (h ++ [JCont.obj []]) b (renderIdx i0) (.ref h.length))[b]? =
          some (.arr (outEs ++ [some (JVal.ref h.length)])) := by
        have hb2 : (h ++ [JCont.obj []])[b]? = some (.arr outEs) := by
          rw [List.getElem?_append_left hb_lt]
          exact hgetB
        rw [heapWrite_get_eq _ _ _ _ _ hb2, contWrite_arr_idx,
          setElem_append outEs i0 _ hlenB]
      have h1top : (heapWrite (h ++ [JCont.obj []]) b (renderIdx i0) (.ref h.length))[h.length]? =
          some (.obj []) := by
        rw [heapWrite_get_ne (h ++ [JCont.obj []]) b (renderIdx i0) (JVal.ref h.length) h.length
          (by omega)]
        rw [List.getElem?_concat_length]
      have h1a : (heapWrite (h ++ [JCont.obj []]) b (renderIdx i0) (.ref h.length))[a]? =
          some (.arr ejsAll) := by
        rw [h1i a ha_lt hab]
        exact hgetA
      have h1c : (heapWrite (h ++ [JCont.obj []]) b (renderIdx i0) (.ref h.length))[c]? =
          some (.obj fjsc) := by
        rw [h1i c hc_lt_h hcb2]
        exact hgetC
      have hval1 : readProp (heapWrite (h ++ [JCont.obj []]) b (renderIdx i0)
          (.ref h.length)) a (renderIdx i0) = .ref c := by
        rw [readProp_arr_idx _ a ejsAll i0 h1a, hgetIdx]
        rfl
      have hcond : isPlainObject (heapWrite (h ++ [JCont.obj []]) b (renderIdx i0) (.ref h.length))
          (.ref c) = true := by
        simp [isPlainObject, h1c]
      obtain ⟨pa2, hset, hpt2⟩ := pathSet_array pa hpt
        (isArrAt (heapWrite (h ++ [JCont.obj []]) b (renderIdx i0) (.ref h.length)) a)
        (renderIdx i0)
      have hkeysC : heapKeys (heapWrite (h ++ [JCont.obj []]) b (renderIdx i0) (.ref h.length)) c =
          fjsc.map Prod.fst := heapKeys_obj _ c fjsc h1c
      have hwfC : wfT (Tree.obj fsc) = true := hwf2.1
      rw [wfT] at hwfC
      simp only [Bool.and_eq_true, decide_eq_true_eq] at hwfC
      have hndC : (fjsc.map Prod.fst).Nodup := by
        rw [RepRF_keys fsc lo c h fjsc hrepC]
        exact hwfC.1
      have hrepC1 : RepRF lo c (heapWrite (h ++ [JCont.obj []]) b (renderIdx i0) (.ref h.length))
          fjsc fsc :=
        RepRF_mono fsc lo c h _ fjsc (fun i hi2 => h1i i (by omega) (by omega)) hrepC
      have hnotinC : JVal.ref c ∉ st.inputObjects := hseen c hlo_c hc_lt_a
      have hidxC : (st.outputObjects ++ [h.length])[jsIndexOf
          (st.inputObjects ++ [JVal.ref c]) (JVal.ref c)]? = some h.length := by
        rw [jsIndexOf_append_of_notMem _ _ _ hnotinC]
        simp [jsIndexOf, hlen, List.getElem?_concat_length]
      have hseenC : ∀ c2, lo ≤ c2 → c2 < c →
          JVal.ref c2 ∉ st.inputObjects ++ [JVal.ref c] := by
        intro c2 hc2a hc2b hmem
        rcases List.mem_append.mp hmem with hm | hm
        · exact hseen c2 hc2a (by omega) hm
        · rw [List.mem_singleton] at hm
          injection hm with hm2e
          have hm3 : c2 = c := hm2e
          omega
      have ihc := copyWalkF userCb hcb fsc lo c N fuel2
        (heapWrite (h ++ [JCont.obj []]) b (renderIdx i0) (.ref h.length))
        ⟨st.inputObjects ++ [JVal.ref c], st.outputObjects ++ [h.length]⟩ h.length
        fjsc [] fjsc [] pa2 h1c (by simp) hndC hrepC1 hcN (by omega) hNh h1top
        (by simp) hidxC (by simp [hlen]) hseenC hwfC.2
        (by simpa [plainT] using hplain2.1)
        (by
          have hft : fuelT (Tree.obj fsc) = fuelF fsc := rfl
          omega)
        hpt2
      obtain ⟨h3, st3, newFsC, heq3, hlen3, hag3, hb3, hkeys3, hrop3,
        dIc, dOc, hstIc, hstOc, hdlenc, hdrangec⟩ := ihc
      have hstIc2 : st3.inputObjects = (st.inputObjects ++ [JVal.ref c]) ++ dIc := hstIc
      have hstOc2 : st3.outputObjects = (st.outputObjects ++ [h.length]) ++ dOc := hstOc
      have h3a : h3[a]? = some (.arr ejsAll) := by
        rw [hag3 a (by omega) (by omega)]
        exact h1a
      have h3b : h3[b]? = some (.arr (outEs ++ [some (JVal.ref h.length)])) := by
        rw [hag3 b (by omega) (by omega)]
        exact h1b
      have hrep3 : RepRE mid a h3 ejs2 rest := by
        refine RepRE_mono rest mid a h h3 ejs2 ?_ hrest
        intro i hi2
        rw [hag3 i (by omega) (by omega), h1i i (by omega) (by omega)]
      have hidx_lt : jsIndexOf st.inputObjects (JVal.ref a) < st.outputObjects.length :=
        lt_of_get_some hidx
      have hmemA : JVal.ref a ∈ st.inputObjects :=
        jsIndexOf_mem_of_lt _ _ (by omega)
      have hidx3 : st3.outputObjects[jsIndexOf st3.inputObjects (JVal.ref a)]? =
          some b := by
        rw [hstIc2, hstOc2, List.append_assoc st.inputObjects,
          jsIndexOf_append_of_mem _ _ _ hmemA, List.append_assoc st.outputObjects,
          List.getElem?_append_left hidx_lt]
        exact hidx
      have hseen3 : ∀ c2, mid ≤ c2 → c2 < a → JVal.ref c2 ∉ st3.inputObjects := by
        intro c2 hc2a hc2b hmem
        rw [hstIc2] at hmem
        rcases List.mem_append.mp hmem with hm | hm
        · rcases List.mem_append.mp hm with hm2 | hm2
          · exact hseen c2 (by omega) hc2b hm2
          · rw [List.mem_singleton] at hm2
            injection hm2 with hm2e
            have hm3 : c2 = c := hm2e
            omega
        · obtain ⟨c3, hc3, hc3a, hc3b⟩ := hdrangec _ hm
          injection hc3 with hc23
          have hc24 : c2 = c3 := hc23
          omega
      have ihrest := copyWalkE userCb hcb rest mid a N fuel2 (i0 + 1) h3 st3 b
        ejsAll ejs2 (outEs ++ [some (JVal.ref h.length)]) pa
        h3a hdrop2 hrep3 haN (by omega) hNb h3b (by simp [hlenB]) hidx3
        (by
          rw [hstIc2, hstOc2]
          simp only [List.length_append, List.length_cons, List.length_nil]
          omega)
        hseen3 hwf2.2 hplain2.2 (by omega) hpt
      obtain ⟨h4, st4, newEs2, heq4, hlen4, hag4, hb4, hlen42, hrop4,
        dI2, dO2, hstI2, hstO2, hdlen2, hdrange2⟩ := ihrest
      refine ⟨h4, st4, some (JVal.ref h.length) :: newEs2, ?_, ?_, ?_, ?_, ?_, ?_,
        ([JVal.ref c] ++ dIc) ++ dI2, ([h.length] ++ dOc) ++ dO2, ?_, ?_, ?_, ?_⟩
      · simp only [walkItems]
        rw [pathGet_array pa hpt]
        dsimp only []
        rw [hcbEq]
        dsimp only []
        rw [if_neg Bool.false_ne_true, hval1, hcond, Bool.true_or, if_pos rfl]
        dsimp only []
        rw [hset]
        dsimp only []
        rw [hkeysC, heq3]
        dsimp only []
        rw [heq4]
      · omega
      · intro i hi hne
        rw [hag4 i (by omega) hne, hag3 i (by omega) (by omega), h1i i hi hne]
      · rw [hb4]
        simp
      · simp [elemsLen, hlen42]
      · refine ⟨JVal.ref h.length, newEs2, rfl, ?_, ?_⟩
        · refine ⟨h.length, newFsC, rfl, le_refl _, by omega, ?_, ?_⟩
          · rw [hag4 h.length (by omega) (by omega)]
            simpa using hb3
          · refine RepOF_mono fsc (heapWrite (h ++ [JCont.obj []]) b (renderIdx i0)
              (.ref h.length)).length h3.length h.length h4.length h3 h4 newFsC
              (by omega) (by omega) ?_ hrop3
            intro i hia hib
            exact hag4 i (by omega) (by omega)
        · refine RepOE_mono rest h3.length h4.length h.length h4.length h4 h4 newEs2
            (by omega) (le_refl _) (fun i _ _ => rfl) hrop4
      · rw [hstI2, hstIc2]
        simp
      · rw [hstO2, hstOc2]
        simp
      · simp only [List.length_append, List.length_cons, List.length_nil]
        omega
      · intro x hx
        rcases List.mem_append.mp hx with hm | hm
        · rcases List.mem_append.mp hm with hm2 | hm2
          · rw [List.mem_singleton] at hm2
            exact ⟨c, hm2, hlo_c, hc_lt_a⟩
          · obtain ⟨c3, hc3, hc3a, hc3b⟩ := hdrangec _ hm2
            exact ⟨c3, hc3, hc3a, by omega⟩
        · obtain ⟨c3, hc3, hc3a, hc3b⟩ := hdrange2 _ hm
          exact ⟨c3, hc3, by omega, hc3b⟩
    | arr esc =>
      obtain ⟨c, ejsc, hmid_eq, hlo_c, hv1eq, hgetC, hrepC⟩ := hv1
      subst hv1eq
      have hc_lt_a : c < a := by omega
      have hcN : c < N := by omega
      have hc_lt_h : c < h.length := lt_of_get_some hgetC
      have hcb2 : c ≠ b := by omega
      obtain ⟨hlenE, hallE⟩ := RepRE_shape esc lo c h ejsc hrepC
      have hkind : isPlainObject h (.ref c) = false ∧ isArrayVal h (.ref c) = true := by
        refine ⟨?_, ?_⟩
        · simp [isPlainObject, hgetC]
        · simp [isArrayVal, hgetC]
      have hcbEq : walkCallback userCb (renderIdx i0) a pa._path h st =
          .ok (false, heapWrite (h ++ [JCont.arr []]) b (renderIdx i0) (.ref h.length),
               ⟨st.inputObjects ++ [JVal.ref c], st.outputObjects ++ [h.length]⟩) :=
        walkCallback_container userCb hcb (renderIdx i0) a pa._path h st b c true hidx
          hval hkind
      have h1len : (heapWrite (h ++ [JCont.arr []]) b (renderIdx i0) (.ref h.length)).length =
          h.length + 1 := by
        rw [heapWrite_length]
        simp
      have h1i : ∀ i, i < h.length → i ≠ b →
          (heapWrite (h ++ [JCont.arr []]) b (renderIdx i0) (.ref h.length))[i]? = h[i]? := by
        intro i hi hne
        rw [heapWrite_get_ne _ _ _ _ _ hne]
        exact List.getElem?_append_left hi
      have h1b : (heapWrite (h ++ [JCont.arr []]) b (renderIdx i0) (.ref h.length))[b]? =
          some (.arr (outEs ++ [some (JVal.ref h.length)])) := by
        have hb2 : (h ++ [JCont.arr []])[b]? = some (.arr outEs) := by
          rw [List.getElem?_append_left hb_lt]
          exact hgetB
        rw [heapWrite_get_eq _ _ _ _ _ hb2, contWrite_arr_idx,
          setElem_append outEs i0 _ hlenB]
      have h1top : (heapWrite (h ++ [JCont.arr []]) b (renderIdx i0) (.ref h.length))[h.length]? =
          some (.arr []) := by
        rw [heapWrite_get_ne (h ++ [JCont.arr []]) b (renderIdx i0) (JVal.ref h.length) h.length
          (by omega)]
        rw [List.getElem?_concat_length]
      have h1a : (heapWrite (h ++ [JCont.arr []]) b (renderIdx i0) (.ref h.length))[a]? =
          some (.arr ejsAll) := by
        rw [h1i a ha_lt hab]
        exact hgetA
      have h1c : (heapWrite (h ++ [JCont.arr []]) b (renderIdx i0) (.ref h.length))[c]? =
          some (.arr ejsc) := by
        rw [h1i c hc_lt_h hcb2]
        exact hgetC
      have hval1 : readProp (heapWrite (h ++ [JCont.arr []]) b (renderIdx i0)
          (.ref h.length)) a (renderIdx i0) = .ref c := by
        rw [readProp_arr_idx _ a ejsAll i0 h1a, hgetIdx]
        rfl
      have hpoC : isPlainObject (heapWrite (h ++ [JCont.arr []]) b (renderIdx i0) (.ref h.length))
          (.ref c) = false := by
        simp [isPlainObject, h1c]
      have havC : isArrayVal (heapWrite (h ++ [JCont.arr []]) b (renderIdx i0) (.ref h.length))
          (.ref c) = true := by
        simp [isArrayVal, h1c]
      have hdawC : doArrayWalk true (renderIdx i0) true none = true := rfl
      obtain ⟨pa2, hset, hpt2⟩ := pathSet_array pa hpt
        (isArrAt (heapWrite (h ++ [JCont.arr []]) b (renderIdx i0) (.ref h.length)) a)
        (renderIdx i0)
      have hkeysC : heapKeys (heapWrite (h ++ [JCont.arr []]) b (renderIdx i0) (.ref h.length)) c =
          (List.range' 0 (elemsLen esc)).map renderIdx := by
        rw [heapKeys_arr_allSome _ c ejsc h1c hallE, hlenE]
      have hrepC1 : RepRE lo c (heapWrite (h ++ [JCont.arr []]) b (renderIdx i0) (.ref h.length))
          ejsc esc :=
        RepRE_mono esc lo c h _ ejsc (fun i hi2 => h1i i (by omega) (by omega)) hrepC
      have hnotinC : JVal.ref c ∉ st.inputObjects := hseen c hlo_c hc_lt_a
      have hidxC : (st.outputObjects ++ [h.length])[jsIndexOf
          (st.inputObjects ++ [JVal.ref c]) (JVal.ref c)]? = some h.length := by
        rw [jsIndexOf_append_of_notMem _ _ _ hnotinC]
        simp [jsIndexOf, hlen, List.getElem?_concat_length]
      have hseenC : ∀ c2, lo ≤ c2 → c2 < c →
          JVal.ref c2 ∉ st.inputObjects ++ [JVal.ref c] := by
        intro c2 hc2a hc2b hmem
        rcases List.mem_append.mp hmem with hm | hm
        · exact hseen c2 hc2a (by omega) hm
        · rw [List.mem_singleton] at hm
          injection hm with hm2e
          have hm3 : c2 = c := hm2e
          omega
      have ihc := copyWalkE userCb hcb esc lo c N fuel2 0
        (heapWrite (h ++ [JCont.arr []]) b (renderIdx i0) (.ref h.length))
        ⟨st.inputObjects ++ [JVal.ref c], st.outputObjects ++ [h.length]⟩ h.length
        ejsc ejsc [] pa2 h1c rfl hrepC1 hcN (by omega) hNh h1top rfl hidxC
        (by simp [hlen]) hseenC
        (by simpa [wfT] using hwf2.1)
        (by simpa [plainT] using hplain2.1)
        (by
          have hft : fuelT (Tree.arr esc) = fuelE esc := rfl
          omega)
        hpt2
      obtain ⟨h3, st3, newEsC, heq3, hlen3, hag3, hb3, hkeys3, hrop3,
        dIc, dOc, hstIc, hstOc, hdlenc, hdrangec⟩ := ihc
      have hstIc2 : st3.inputObjects = (st.inputObjects ++ [JVal.ref c]) ++ dIc := hstIc
      have hstOc2 : st3.outputObjects = (st.outputObjects ++ [h.length]) ++ dOc := hstOc
      have h3a : h3[a]? = some (.arr ejsAll) := by
        rw [hag3 a (by omega) (by omega)]
        exact h1a
      have h3b : h3[b]? = some (.arr (outEs ++ [some (JVal.ref h.length)])) := by
        rw [hag3 b (by omega) (by omega)]
        exact h1b
      have hrep3 : RepRE mid a h3 ejs2 rest := by
        refine RepRE_mono rest mid a h h3 ejs2 ?_ hrest
        intro i hi2
        rw [hag3 i (by omega) (by omega), h1i i (by omega) (by omega)]
      have hidx_lt : jsIndexOf st.inputObjects (JVal.ref a) < st.outputObjects.length :=
        lt_of_get_some hidx
      have hmemA : JVal.ref a ∈ st.inputObjects :=
        jsIndexOf_mem_of_lt _ _ (by omega)
      have hidx3 : st3.outputObjects[jsIndexOf st3.inputObjects (JVal.ref a)]? =
          some b := by
        rw [hstIc2, hstOc2, List.append_assoc st.inputObjects,
          jsIndexOf_append_of_mem _ _ _ hmemA, List.append_assoc st.outputObjects,
          List.getElem?_append_left hidx_lt]
        exact hidx
      have hseen3 : ∀ c2, mid ≤ c2 → c2 < a → JVal.ref c2 ∉ st3.inputObjects := by
        intro c2 hc2a hc2b hmem
        rw [hstIc2] at hmem
        rcases List.mem_append.mp hmem with hm | hm
        · rcases List.mem_append.mp hm with hm2 | hm2
          · exact hseen c2 (by omega) hc2b hm2
          · rw [List.mem_singleton] at hm2
            injection hm2 with hm2e
            have hm3 : c2 = c := hm2e
            omega
        · obtain ⟨c3, hc3, hc3a, hc3b⟩ := hdrangec _ hm
          injection hc3 with hc23
          have hc24 : c2 = c3 := hc23
          omega
      have ihrest := copyWalkE userCb hcb rest mid a N fuel2 (i0 + 1) h3 st3 b
        ejsAll ejs2 (outEs ++ [some (JVal.ref h.length)]) pa
        h3a hdrop2 hrep3 haN (by omega) hNb h3b (by simp [hlenB]) hidx3
        (by
          rw [hstIc2, hstOc2]
          simp only [List.length_append, List.length_cons, List.length_nil]
          omega)
        hseen3 hwf2.2 hplain2.2 (by omega) hpt
      obtain ⟨h4, st4, newEs2, heq4, hlen4, hag4, hb4, hlen42, hrop4,
        dI2, dO2, hstI2, hstO2, hdlen2, hdrange2⟩ := ihrest
      refine ⟨h4, st4, some (JVal.ref h.length) :: newEs2, ?_, ?_, ?_, ?_, ?_, ?_,
        ([JVal.ref c] ++ dIc) ++ dI2, ([h.length] ++ dOc) ++ dO2, ?_, ?_, ?_, ?_⟩
      · simp only [walkItems]
        rw [pathGet_array pa hpt]
        dsimp only []
        rw [hcbEq]
        dsimp only []
        rw [if_neg Bool.false_ne_true, hval1, hpoC, Bool.false_or, havC, hdawC, if_pos rfl]
        dsimp only []
        rw [hset]
        dsimp only []
        rw [hkeysC, heq3]
        dsimp only []
        rw [heq4]
      · omega
      · intro i hi hne
        rw [hag4 i (by omega) hne, hag3 i (by omega) (by omega), h1i i hi hne]
      · rw [hb4]
        simp
      · simp [elemsLen, hlen42]
      · refine ⟨JVal.ref h.length, newEs2, rfl, ?_, ?_⟩
        · refine ⟨h.length, newEsC, rfl, le_refl _, by omega, ?_, ?_⟩
          · rw [hag4 h.length (by omega) (by omega)]
            simpa using hb3
          · refine RepOE_mono esc (heapWrite (h ++ [JCont.arr []]) b (renderIdx i0)
              (.ref h.length)).length h3.length h.length h4.length h3 h4 newEsC
              (by omega) (by omega) ?_ hrop3
            intro i hia hib
            exact hag4 i (by omega) (by omega)
        · refine RepOE_mono rest h3.length h4.length h.length h4.length h4 h4 newEs2
            (by omega) (le_refl _) (fun i _ _ => rfl) hrop4
      · rw [hstI2, hstIc2]
        simp
      · rw [hstO2, hstOc2]
        simp
      · simp only [List.length_append, List.length_cons, List.length_nil]
        omega
      · intro x hx
        rcases List.mem_append.mp hx with hm | hm
        · rcases List.mem_append.mp hm with hm2 | hm2
          · rw [List.mem_singleton] at hm2
            exact ⟨c, hm2, hlo_c, hc_lt_a⟩
          · obtain ⟨c3, hc3, hc3a, hc3b⟩ := hdrangec _ hm2
            exact ⟨c3, hc3, hc3a, by omega⟩
        · obtain ⟨c3, hc3, hc3a, hc3b⟩ := hdrange2 _ hm
          exact ⟨c3, hc3, by omega, hc3b⟩
    | num n =>
      obtain ⟨hv1eq, hmid_eq⟩ := hv1
      have hscal := scalar_not_container h v1 (by rw [hv1eq]; intro a2 hc; cases hc)
      have hcbEq := walkCallback_scalar userCb hcb (renderIdx i0) a pa._path h st b v1 hidx
        hval hscal.1 hscal.2
      have h1len : (heapWrite h b (renderIdx i0) v1).length = h.length :=
        heapWrite_length h b (renderIdx i0) v1
      have h1i : ∀ i, i ≠ b → (heapWrite h b (renderIdx i0) v1)[i]? = h[i]? :=
        fun i hne => heapWrite_get_ne h b (renderIdx i0) v1 i hne
      have h1b : (heapWrite h b (renderIdx i0) v1)[b]? =
          some (.arr (outEs ++ [some v1])) := by
        rw [heapWrite_get_eq h b (renderIdx i0) v1 _ hgetB, contWrite_arr_idx,
          setElem_append outEs i0 v1 hlenB]
      have h1a : (heapWrite h b (renderIdx i0) v1)[a]? = some (.arr ejsAll) := by
        rw [h1i a hab]
        exact hgetA
      have hval1 : readProp (heapWrite h b (renderIdx i0) v1) a (renderIdx i0) = v1 := by
        rw [readProp_arr_idx _ a ejsAll i0 h1a, hgetIdx]
        rfl
      have hscal1 := scalar_not_container (heapWrite h b (renderIdx i0) v1) v1
        (by rw [hv1eq]; intro a2 hc; cases hc)
      have hdaw : doArrayWalk false (renderIdx i0) true none = false := rfl
      have hrep1 : RepRE mid a (heapWrite h b (renderIdx i0) v1) ejs2 rest :=
        RepRE_mono rest mid a h _ ejs2 (fun i hi2 => h1i i (by omega)) hrest
      have ihrest := copyWalkE userCb hcb rest mid a N fuel2 (i0 + 1)
        (heapWrite h b (renderIdx i0) v1) st b ejsAll ejs2 (outEs ++ [some v1]) pa
        h1a hdrop2 hrep1 haN (by omega) hNb h1b (by simp [hlenB]) hidx hlen
        (by
          intro c2 hc2a hc2b
          exact hseen c2 (by omega) hc2b)
        hwf2.2 hplain2.2 (by omega) hpt
      obtain ⟨h4, st4, newEs2, heq4, hlen4, hag4, hb4, hlen42, hrop4,
        dI2, dO2, hstI2, hstO2, hdlen2, hdrange2⟩ := ihrest
      refine ⟨h4, st4, some v1 :: newEs2, ?_, ?_, ?_, ?_, ?_, ?_, dI2, dO2, hstI2, hstO2,
        hdlen2, ?_⟩
      · simp only [walkItems]
        rw [pathGet_array pa hpt]
        dsimp only []
        rw [hcbEq]
        dsimp only []
        rw [if_neg Bool.false_ne_true, hval1, hscal1.1, Bool.false_or, hscal1.2, hdaw,
          if_neg Bool.false_ne_true]
        exact heq4
      · omega
      · intro i hi hne
        rw [hag4 i (by omega) hne, h1i i hne]
      · rw [hb4]
        simp
      · simp [elemsLen, hlen42]
      · refine ⟨v1, newEs2, rfl, hv1eq, ?_⟩
        refine RepOE_mono rest (heapWrite h b (renderIdx i0) v1).length h4.length h.length
          h4.length h4 h4 newEs2 (by omega) (le_refl _) (fun i _ _ => rfl) hrop4
      · intro x hx
        obtain ⟨c2, hc2, hc2a, hc2b⟩ := hdrange2 x hx
        exact ⟨c2, hc2, by omega, hc2b⟩
    | str s2 =>
      obtain ⟨hv1eq, hmid_eq⟩ := hv1
      have hscal := scalar_not_container h v1 (by rw [hv1eq]; intro a2 hc; cases hc)
      have hcbEq := walkCallback_scalar userCb hcb (renderIdx i0) a pa._path h st b v1 hidx
        hval hscal.1 hscal.2
      have h1len : (heapWrite h b (renderIdx i0) v1).length = h.length :=
        heapWrite_length h b (renderIdx i0) v1
      have h1i : ∀ i, i ≠ b → (heapWrite h b (renderIdx i0) v1)[i]? = h[i]? :=
        fun i hne => heapWrite_get_ne h b (renderIdx i0) v1 i hne
      have h1b : (heapWrite h b (renderIdx i0) v1)[b]? =
          some (.arr (outEs ++ [some v1])) := by
        rw [heapWrite_get_eq h b (renderIdx i0) v1 _ hgetB, contWrite_arr_idx,
          setElem_append outEs i0 v1 hlenB]
      have h1a : (heapWrite h b (renderIdx i0) v1)[a]? = some (.arr ejsAll) := by
        rw [h1i a hab]
        exact hgetA
      have hval1 : readProp (heapWrite h b (renderIdx i0) v1) a (renderIdx i0) = v1 := by
        rw [readProp_arr_idx _ a ejsAll i0 h1a, hgetIdx]
        rfl
      have hscal1 := scalar_not_container (heapWrite h b (renderIdx i0) v1) v1
        (by rw [hv1eq]; intro a2 hc; cases hc)
      have hdaw : doArrayWalk false (renderIdx i0) true none = false := rfl
      have hrep1 : RepRE mid a (heapWrite h b (renderIdx i0) v1) ejs2 rest :=
        RepRE_mono rest mid a h _ ejs2 (fun i hi2 => h1i i (by omega)) hrest
      have ihrest := copyWalkE userCb hcb rest mid a N fuel2 (i0 + 1)
        (heapWrite h b (renderIdx i0) v1) st b ejsAll ejs2 (outEs ++ [some v1]) pa
        h1a hdrop2 hrep1 haN (by omega) hNb h1b (by simp [hlenB]) hidx hlen
        (by
          intro c2 hc2a hc2b
          exact hseen c2 (by omega) hc2b)
        hwf2.2 hplain2.2 (by omega) hpt
      obtain ⟨h4, st4, newEs2, heq4, hlen4, hag4, hb4, hlen42, hrop4,
        dI2, dO2, hstI2, hstO2, hdlen2, hdrange2⟩ := ihrest
      refine ⟨h4, st4, some v1 :: newEs2, ?_, ?_, ?_, ?_, ?_, ?_, dI2, dO2, hstI2, hstO2,
        hdlen2, ?_⟩
      · simp only [walkItems]
        rw [pathGet_array pa hpt]
        dsimp only []
        rw [hcbEq]
        dsimp only []
        rw [if_neg Bool.false_ne_true, hval1, hscal1.1, Bool.false_or, hscal1.2, hdaw,
          if_neg Bool.false_ne_true]
        exact heq4
      · omega
      · intro i hi hne
        rw [hag4 i (by omega) hne, h1i i hne]
      · rw [hb4]
        simp
      · simp [elemsLen, hlen42]
      · refine ⟨v1, newEs2, rfl, hv1eq, ?_⟩
        refine RepOE_mono rest (heapWrite h b (renderIdx i0) v1).length h4.length h.length
          h4.length h4 h4 newEs2 (by omega) (le_refl _) (fun i _ _ => rfl) hrop4
      · intro x hx
        obtain ⟨c2, hc2, hc2a, hc2b⟩ := hdrange2 x hx
        exact ⟨c2, hc2, by omega, hc2b⟩
    | bool b2 =>
      obtain ⟨hv1eq, hmid_eq⟩ := hv1
      have hscal := scalar_not_container h v1 (by rw [hv1eq]; intro a2 hc; cases hc)
      have hcbEq := walkCallback_scalar userCb hcb (renderIdx i0) a pa._path h st b v1 hidx
        hval hscal.1 hscal.2
      have h1len : (heapWrite h b (renderIdx i0) v1).length = h.length :=
        heapWrite_length h b (renderIdx i0) v1
      have h1i : ∀ i, i ≠ b → (heapWrite h b (renderIdx i0) v1)[i]? = h[i]? :=
        fun i hne => heapWrite_get_ne h b (renderIdx i0) v1 i hne
      have h1b : (heapWrite h b (renderIdx i0) v1)[b]? =
          some (.arr (outEs ++ [some v1])) := by
        rw [heapWrite_get_eq h b (renderIdx i0) v1 _ hgetB, contWrite_arr_idx,
          setElem_append outEs i0 v1 hlenB]
      have h1a : (heapWrite h b (renderIdx i0) v1)[a]? = some (.arr ejsAll) := by
        rw [h1i a hab]
        exact hgetA
      have hval1 : readProp (heapWrite h b (renderIdx i0) v1) a (renderIdx i0) = v1 := by
        rw [readProp_arr_idx _ a ejsAll i0 h1a, hgetIdx]
        rfl
      have hscal1 := scalar_not_container (heapWrite h b (renderIdx i0) v1) v1
        (by rw [hv1eq]; intro a2 hc; cases hc)
      have hdaw : doArrayWalk false (renderIdx i0) true none = false := rfl
      have hrep1 : RepRE mid a (heapWrite h b (renderIdx i0) v1) ejs2 rest :=
        RepRE_mono rest mid a h _ ejs2 (fun i hi2 => h1i i (by omega)) hrest
      have ihrest := copyWalkE userCb hcb rest mid a N fuel2 (i0 + 1)
        (heapWrite h b (renderIdx i0) v1) st b ejsAll ejs2 (outEs ++ [some v1]) pa
        h1a hdrop2 hrep1 haN (by omega) hNb h1b (by simp [hlenB]) hidx hlen
        (by
          intro c2 hc2a hc2b
          exact hseen c2 (by omega) hc2b)
        hwf2.2 hplain2.2 (by omega) hpt
      obtain ⟨h4, st4, newEs2, heq4, hlen4, hag4, hb4, hlen42, hrop4,
        dI2, dO2, hstI2, hstO2, hdlen2, hdrange2⟩ := ihrest
      refine ⟨h4, st4, some v1 :: newEs2, ?_, ?_, ?_, ?_, ?_, ?_, dI2, dO2, hstI2, hstO2,
        hdlen2, ?_⟩
      · simp only [walkItems]
        rw [pathGet_array pa hpt]
        dsimp only []
        rw [hcbEq]
        dsimp only []
        rw [if_neg Bool.false_ne_true, hval1, hscal1.1, Bool.false_or, hscal1.2, hdaw,
          if_neg Bool.false_ne_true]
        exact heq4
      · omega
      · intro i hi hne
        rw [hag4 i (by omega) hne, h1i i hne]
      · rw [hb4]
        simp
      · simp [elemsLen, hlen42]
      · refine ⟨v1, newEs2, rfl, hv1eq, ?_⟩
        refine RepOE_mono rest (heapWrite h b (renderIdx i0) v1).length h4.length h.length
          h4.length h4 h4 newEs2 (by omega) (le_refl _) (fun i _ _ => rfl) hrop4
      · intro x hx
        obtain ⟨c2, hc2, hc2a, hc2b⟩ := hdrange2 x hx
        exact ⟨c2, hc2, by omega, hc2b⟩
    | null =>
      obtain ⟨hv1eq, hmid_eq⟩ := hv1
      have hscal := scalar_not_container h v1 (by rw [hv1eq]; intro a2 hc; cases hc)
      have hcbEq := walkCallback_scalar userCb hcb (renderIdx i0) a pa._path h st b v1 hidx
        hval hscal.1 hscal.2
      have h1len : (heapWrite h b (renderIdx i0) v1).length = h.length :=
        heapWrite_length h b (renderIdx i0) v1
      have h1i : ∀ i, i ≠ b → (heapWrite h b (renderIdx i0) v1)[i]? = h[i]? :=
        fun i hne => heapWrite_get_ne h b (renderIdx i0) v1 i hne
      have h1b : (heapWrite h b (renderIdx i0) v1)[b]? =
          some (.arr (outEs ++ [some v1])) := by
        rw [heapWrite_get_eq h b (renderIdx i0) v1 _ hgetB, contWrite_arr_idx,
          setElem_append outEs i0 v1 hlenB]
      have h1a : (heapWrite h b (renderIdx i0) v1)[a]? = some (.arr ejsAll) := by
        rw [h1i a hab]
        exact hgetA
      have hval1 : readProp (heapWrite h b (renderIdx i0) v1) a (renderIdx i0) = v1 := by
        rw [readProp_arr_idx _ a ejsAll i0 h1a, hgetIdx]
        rfl
      have hscal1 := scalar_not_container (heapWrite h b (renderIdx i0) v1) v1
        (by rw [hv1eq]; intro a2 hc; cases hc)
      have hdaw : doArrayWalk false (renderIdx i0) true none = false := rfl
      have hrep1 : RepRE mid a (heapWrite h b (renderIdx i0) v1) ejs2 rest :=
        RepRE_mono rest mid a h _ ejs2 (fun i hi2 => h1i i (by omega)) hrest
      have ihrest := copyWalkE userCb hcb rest mid a N fuel2 (i0 + 1)
        (heapWrite h b (renderIdx i0) v1) st b ejsAll ejs2 (outEs ++ [some v1]) pa
        h1a hdrop2 hrep1 haN (by omega) hNb h1b (by simp [hlenB]) hidx hlen
        (by
          intro c2 hc2a hc2b
          exact hseen c2 (by omega) hc2b)
        hwf2.2 hplain2.2 (by omega) hpt
      obtain ⟨h4, st4, newEs2, heq4, hlen4, hag4, hb4, hlen42, hrop4,
        dI2, dO2, hstI2, hstO2, hdlen2, hdrange2⟩ := ihrest
      refine ⟨h4, st4, some v1 :: newEs2, ?_, ?_, ?_, ?_, ?_, ?_, dI2, dO2, hstI2, hstO2,
        hdlen2, ?_⟩
      · simp only [walkItems]
        rw [pathGet_array pa hpt]
        dsimp only []
        rw [hcbEq]
        dsimp only []
        rw [if_neg Bool.false_ne_true, hval1, hscal1.1, Bool.false_or, hscal1.2, hdaw,
          if_neg Bool.false_ne_true]
        exact heq4
      · omega
      · intro i hi hne
        rw [hag4 i (by omega) hne, h1i i hne]
      · rw [hb4]
        simp
      · simp [elemsLen, hlen42]
      · refine ⟨v1, newEs2, rfl, hv1eq, ?_⟩
        refine RepOE_mono rest (heapWrite h b (renderIdx i0) v1).length h4.length h.length
          h4.length h4 h4 newEs2 (by omega) (le_refl _) (fun i _ _ => rfl) hrop4
      · intro x hx
        obtain ⟨c2, hc2, hc2a, hc2b⟩ := hdrange2 x hx
        exact ⟨c2, hc2, by omega, hc2b⟩
    | undef =>
      obtain ⟨hv1eq, hmid_eq⟩ := hv1
      have hscal := scalar_not_container h v1 (by rw [hv1eq]; intro a2 hc; cases hc)
      have hcbEq := walkCallback_scalar userCb hcb (renderIdx i0) a pa._path h st b v1 hidx
        hval hscal.1 hscal.2
      have h1len : (heapWrite h b (renderIdx i0) v1).length = h.length :=
        heapWrite_length h b (renderIdx i0) v1
      have h1i : ∀ i, i ≠ b → (heapWrite h b (renderIdx i0) v1)[i]? = h[i]? :=
        fun i hne => heapWrite_get_ne h b (renderIdx i0) v1 i hne
      have h1b : (heapWrite h b (renderIdx i0) v1)[b]? =
          some (.arr (outEs ++ [some v1])) := by
        rw [heapWrite_get_eq h b (renderIdx i0) v1 _ hgetB, contWrite_arr_idx,
          setElem_append outEs i0 v1 hlenB]
      have h1a : (heapWrite h b (renderIdx i0) v1)[a]? = some (.arr ejsAll) := by
        rw [h1i a hab]
        exact hgetA
      have hval1 : readProp (heapWrite h b (renderIdx i0) v1) a (renderIdx i0) = v1 := by
        rw [readProp_arr_idx _ a ejsAll i0 h1a, hgetIdx]
        rfl
      have hscal1 := scalar_not_container (heapWrite h b (renderIdx i0) v1) v1
        (by rw [hv1eq]; intro a2 hc; cases hc)
      have hdaw : doArrayWalk false (renderIdx i0) true none = false := rfl
      have hrep1 : RepRE mid a (heapWrite h b (renderIdx i0) v1) ejs2 rest :=
        RepRE_mono rest mid a h _ ejs2 (fun i hi2 => h1i i (by omega)) hrest
      have ihrest := copyWalkE userCb hcb rest mid a N fuel2 (i0 + 1)
        (heapWrite h b (renderIdx i0) v1) st b ejsAll ejs2 (outEs ++ [some v1]) pa
        h1a hdrop2 hrep1 haN (by omega) hNb h1b (by simp [hlenB]) hidx hlen
        (by
          intro c2 hc2a hc2b
          exact hseen c2 (by omega) hc2b)
        hwf2.2 hplain2.2 (by omega) hpt
      obtain ⟨h4, st4, newEs2, heq4, hlen4, hag4, hb4, hlen42, hrop4,
        dI2, dO2, hstI2, hstO2, hdlen2, hdrange2⟩ := ihrest
      refine ⟨h4, st4, some v1 :: newEs2, ?_, ?_, ?_, ?_, ?_, ?_, dI2, dO2, hstI2, hstO2,
        hdlen2, ?_⟩
      · simp only [walkItems]
        rw [pathGet_array pa hpt]
        dsimp only []
        rw [hcbEq]
        dsimp only []
        rw [if_neg Bool.false_ne_true, hval1, hscal1.1, Bool.false_or, hscal1.2, hdaw,
          if_neg Bool.false_ne_true]
        exact heq4
      · omega
      · intro i hi hne
        rw [hag4 i (by omega) hne, h1i i hne]
      · rw [hb4]
        simp
      · simp [elemsLen, hlen42]
      · refine ⟨v1, newEs2, rfl, hv1eq, ?_⟩
        refine RepOE_mono rest (heapWrite h b (renderIdx i0) v1).length h4.length h.length
          h4.length h4 h4 newEs2 (by omega) (le_refl _) (fun i _ _ => rfl) hrop4
      · intro x hx
        obtain ⟨c2, hc2, hc2a, hc2b⟩ := hdrange2 x hx
        exact ⟨c2, hc2, by omega, hc2b⟩

end

/-! ## Theorems: flat copy walks and the copy claims -/

theorem lookupField_mem_nodup (fjs : List (String × JVal))
    (hnd : (fjs.map Prod.fst).Nodup) :
    ∀ p ∈ fjs, lookupField fjs p.1 = some p.2 := by
  intro p hp
  obtain ⟨s, t2, hst⟩ := List.append_of_mem hp
  obtain ⟨k2, v2⟩ := p
  rw [hst]
  refine lookupField_append_nodup s t2 k2 v2 ?_
  rw [← hst]
  exact hnd

/-- Copying a run of scalar fields onto a fresh output object: every field
is assigned as-is to the output parent `b`, nothing else changes, and the
traversal pushes nothing onto the correspondence. -/
theorem copyFlatWalk (userCb : String → JVal → PathVal → JVal)
    (hcb : ∀ k2 v p, userCb k2 v p ≠ JVal.bool false) (fjs : List (String × JVal)) :
    ∀ (fuel a b : Nat) (fjsAll pre outFs : List (String × JVal)) (pa : PathAcc)
      (h : Heap) (st : CopySt),
    h[a]? = some (.obj fjsAll) →
    fjsAll = pre ++ fjs →
    (fjsAll.map Prod.fst).Nodup →
    (∀ p ∈ fjs, ∀ a2, p.2 ≠ JVal.ref a2) →
    (∀ p ∈ fjs, p.1 ∉ outFs.map Prod.fst) →
    a ≠ b → b < h.length →
    h[b]? = some (.obj outFs) →
    st.outputObjects[jsIndexOf st.inputObjects (JVal.ref a)]? = some b →
    fjs.length ≤ fuel →
    pa.pathType = "array" →
    walkItems (walkCallback userCb) ⟨true, none, none⟩ fuel a (fjs.map Prod.fst) pa h st =
      .ok (h.set b (.obj (outFs ++ fjs)), st) := by
  cases fjs with
  | nil =>
    intro fuel a b fjsAll pre outFs pa h st
    intro hgetA hsplit hnd hsc hfresh hab hbl hgetB hidx hfuel hpt
    simp only [List.map_nil, walkItems, List.append_nil]
    rw [list_set_self h b (.obj outFs) hgetB]
  | cons p0 rest =>
    obtain ⟨k, v⟩ := p0
    intro fuel a b fjsAll pre outFs pa h st
    intro hgetA hsplit hnd hsc hfresh hab hbl hgetB hidx hfuel hpt
    obtain ⟨fuel2, rfl⟩ : ∃ f2, fuel = f2 + 1 := ⟨fuel - 1, by simp at hfuel; omega⟩
    simp only [List.length_cons] at hfuel
    have hval : readProp h a k = v :=
      readProp_obj_head h a fjsAll pre rest k v hgetA hsplit hnd
    have hscv : ∀ a2, v ≠ JVal.ref a2 := fun a2 => hsc (k, v) (by simp) a2
    have hscal := scalar_not_container h v hscv
    have hcbEq := walkCallback_scalar userCb hcb k a pa._path h st b v hidx hval
      hscal.1 hscal.2
    have hkfresh : k ∉ outFs.map Prod.fst := hfresh (k, v) (by simp)
    have hW : heapWrite h b k v = h.set b (.obj (outFs ++ [(k, v)])) := by
      rw [heapWrite.eq_def, hgetB]
      show h.set b (JCont.obj (setField outFs k v)) = _
      rw [setField_append outFs k v hkfresh]
    have hkeys_nd : (k :: rest.map Prod.fst).Nodup := by
      have h2 := hnd
      rw [hsplit, List.map_append] at h2
      simpa using nodup_of_append_right h2
    have hknotin : k ∉ rest.map Prod.fst := (List.nodup_cons.mp hkeys_nd).1
    have h1a : (h.set b (.obj (outFs ++ [(k, v)])))[a]? = some (.obj fjsAll) := by
      rw [List.getElem?_set_ne (Ne.symm hab)]
      exact hgetA
    have h1b : (h.set b (.obj (outFs ++ [(k, v)])))[b]? =
        some (.obj (outFs ++ [(k, v)])) := by
      rw [List.getElem?_set_self' ]
      simp [hbl]
    have hval1 : readProp (h.set b (.obj (outFs ++ [(k, v)]))) a k = v :=
      readProp_obj_head _ a fjsAll pre rest k v h1a hsplit hnd
    have hscal1 := scalar_not_container (h.set b (.obj (outFs ++ [(k, v)]))) v hscv
    have hdaw : doArrayWalk false k true none = false := rfl
    have ih := copyFlatWalk userCb hcb rest fuel2 a b fjsAll (pre ++ [(k, v)])
      (outFs ++ [(k, v)]) pa (h.set b (.obj (outFs ++ [(k, v)]))) st
      h1a (by rw [hsplit]; simp) hnd
      (fun p hp a2 => hsc p (by simp [hp]) a2)
      (by
        intro p hp hmem
        rw [List.map_append] at hmem
        rcases List.mem_append.mp hmem with hm | hm
        · exact hfresh p (by simp [hp]) hm
        · simp at hm
          have hpm : p.1 ∈ rest.map Prod.fst := List.mem_map_of_mem Prod.fst hp
          rw [hm] at hpm
          exact hknotin hpm)
      hab (by simp [hbl]) h1b hidx (by omega) hpt
    simp only [List.map_cons]
    rw [walkItems]
    rw [pathGet_array pa hpt]
    dsimp only []
    rw [hcbEq]
    dsimp only []
    rw [if_neg Bool.false_ne_true, hW, hval1, hscal1.1, Bool.false_or, hscal1.2, hdaw,
      if_neg Bool.false_ne_true, ih, List.set_set]
    simp

/-- Walking a run of scalar fields a second time, when the output parent
already holds exactly those fields: every assignment rewrites the same
value, so the heap and the correspondence are unchanged. -/
theorem copyFlatRewrite (userCb : String → JVal → PathVal → JVal)
    (hcb : ∀ k2 v p, userCb k2 v p ≠ JVal.bool false) (fjs : List (String × JVal)) :
    ∀ (fuel a b : Nat) (fjsAll pre outFs : List (String × JVal)) (pa : PathAcc)
      (h : Heap) (st : CopySt),
    h[a]? = some (.obj fjsAll) →
    fjsAll = pre ++ fjs →
    (fjsAll.map Prod.fst).Nodup →
    (∀ p ∈ fjs, ∀ a2, p.2 ≠ JVal.ref a2) →
    (∀ p ∈ fjs, lookupField outFs p.1 = some p.2) →
    h[b]? = some (.obj outFs) →
    st.outputObjects[jsIndexOf st.inputObjects (JVal.ref a)]? = some b →
    fjs.length ≤ fuel →
    pa.pathType = "array" →
    walkItems (walkCallback userCb) ⟨true, none, none⟩ fuel a (fjs.map Prod.fst) pa h st =
      .ok (h, st) := by
  cases fjs with
  | nil =>
    intro fuel a b fjsAll pre outFs pa h st
    intro hgetA hsplit hnd hsc hlook hgetB hidx hfuel hpt
    simp only [List.map_nil, walkItems]
  | cons p0 rest =>
    obtain ⟨k, v⟩ := p0
    intro fuel a b fjsAll pre outFs pa h st
    intro hgetA hsplit hnd hsc hlook hgetB hidx hfuel hpt
    obtain ⟨fuel2, rfl⟩ : ∃ f2, fuel = f2 + 1 := ⟨fuel - 1, by simp at hfuel; omega⟩
    simp only [List.length_cons] at hfuel
    have hval : readProp h a k = v :=
      readProp_obj_head h a fjsAll pre rest k v hgetA hsplit hnd
    have hscv : ∀ a2, v ≠ JVal.ref a2 := fun a2 => hsc (k, v) (by simp) a2
    have hscal := scalar_not_container h v hscv
    have hcbEq := walkCallback_scalar userCb hcb k a pa._path h st b v hidx hval
      hscal.1 hscal.2
    have hW : heapWrite h b k v = h := by
      rw [heapWrite.eq_def, hgetB]
      show h.set b (JCont.obj (setField outFs k v)) = _
      rw [setField_self outFs k v (hlook (k, v) (by simp))]
      exact list_set_self h b (.obj outFs) hgetB
    have hdaw : doArrayWalk false k true none = false := rfl
    have ih := copyFlatRewrite userCb hcb rest fuel2 a b fjsAll (pre ++ [(k, v)]) outFs
      pa h st hgetA (by rw [hsplit]; simp) hnd
      (fun p hp a2 => hsc p (by simp [hp]) a2)
      (fun p hp => hlook p (by simp [hp])) hgetB hidx (by omega) hpt
    simp only [List.map_cons]
    rw [walkItems]
    rw [pathGet_array pa hpt]
    dsimp only []
    rw [hcbEq]
    dsimp only []
    rw [if_neg Bool.false_ne_true, hW, hval, hscal.1, Bool.false_or, hscal.2, hdaw,
      if_neg Bool.false_ne_true]
    exact ih

/-- Claim C2: for every input value that is a plain object or an array —
modelled as a well-formed plain tree laid out exactly on an address range
of the heap — copyObject with a callback that never returns exactly false
succeeds with a reference to a freshly allocated container, leaves the
input region of the heap untouched, and produces a representation of the
same tree all of whose containers sit at fresh addresses (at or above the
pre-call heap size): no container reference is shared between input and
output, while leaf scalars are assigned as-is; and the prune example: on
:: a: :: b: 1 :: :: with a callback returning false exactly at key a, the
a subtree is entirely omitted and the result is an empty object. -/
theorem copyObject_spec :
    (∀ (t : Tree) (h : Heap) (v : JVal) (userCb : String → JVal → PathVal → JVal)
       (fuel : Nat),
       (∀ k2 v2 p, userCb k2 v2 p ≠ JVal.bool false) →
       wfT t = true → plainT t = true →
       (isPlainObjectT t = true ∨ isArrayT t = true) →
       RepR 0 h.length h v t → fuelT t ≤ fuel →
       ∃ h2, copyObject fuel v userCb h = .ok (h2, .ref h.length) ∧
         (∀ i, i < h.length → h2[i]? = h[i]?) ∧
         RepO h.length h2.length h2 (.ref h.length) t) ∧
    copyObject 2 (.ref 1) (fun k _ _ => .bool (!(k == "a")))
        [.obj [("b", .num 1)], .obj [("a", .ref 0)]] =
      .ok ([.obj [("b", .num 1)], .obj [("a", .ref 0)], .obj []], .ref 2) := by
  refine ⟨?_, by rfl⟩
  intro t h v userCb fuel hcb hwf hplain hcont hrep hfuel
  cases t with
  | num n => rcases hcont with hc | hc <;> simp [isPlainObjectT, isArrayT] at hc
  | str s2 => rcases hcont with hc | hc <;> simp [isPlainObjectT, isArrayT] at hc
  | bool b2 => rcases hcont with hc | hc <;> simp [isPlainObjectT, isArrayT] at hc
  | null => rcases hcont with hc | hc <;> simp [isPlainObjectT, isArrayT] at hc
  | undef => rcases hcont with hc | hc <;> simp [isPlainObjectT, isArrayT] at hc
  | othr => rcases hcont with hc | hc <;> simp [isPlainObjectT, isArrayT] at hc
  | obj fs =>
    obtain ⟨a, fjs, hlen_eq, _, hveq, hget, hrepf⟩ := hrep
    subst hveq
    have ha_lt : a < h.length := by omega
    have hav : isArrayVal h (.ref a) = false := by simp [isArrayVal, hget]
    have hga : (h ++ [JCont.obj []])[a]? = some (.obj fjs) := by
      rw [List.getElem?_append_left ha_lt]
      exact hget
    have hpo2 : isPlainObject (h ++ [JCont.obj []]) (.ref a) = true := by
      simp [isPlainObject, hga]
    have hnc : (!isPlainObject (h ++ [JCont.obj []]) (.ref a) &&
        !isArrayVal (h ++ [JCont.obj []]) (.ref a)) = false := by
      rw [hpo2]
      rfl
    have hkeys2 : heapKeys (h ++ [JCont.obj []]) a = fjs.map Prod.fst :=
      heapKeys_obj _ a fjs hga
    have hwf2 : wfT (Tree.obj fs) = true := hwf
    rw [wfT] at hwf2
    simp only [Bool.and_eq_true, decide_eq_true_eq] at hwf2
    have hnd : (fjs.map Prod.fst).Nodup := by
      rw [RepRF_keys fs 0 a h fjs hrepf]
      exact hwf2.1
    have hrepf2 : RepRF 0 a (h ++ [JCont.obj []]) fjs fs :=
      RepRF_mono fs 0 a h _ fjs
        (fun i hi2 => List.getElem?_append_left (by omega)) hrepf
    have hgb : (h ++ [JCont.obj []])[h.length]? = some (.obj []) := by
      rw [List.getElem?_concat_length]
    have hidx0 : ([h.length] : List Addr)[jsIndexOf [JVal.ref a] (JVal.ref a)]? =
        some h.length := by
      simp [jsIndexOf]
    have hseen0 : ∀ c, 0 ≤ c → c < a → JVal.ref c ∉ ([JVal.ref a] : List JVal) := by
      intro c hc1 hc2 hmem
      rw [List.mem_singleton] at hmem
      injection hmem with hme
      have hme2 : c = a := hme
      omega
    have hw := copyWalkF userCb hcb fs 0 a h.length fuel (h ++ [JCont.obj []])
      ⟨[JVal.ref a], [h.length]⟩ h.length fjs [] fjs [] (getPath "array" none)
      hga (by simp) hnd hrepf2 (by omega) (by simp) (le_refl _) hgb
      (by simp) hidx0 rfl hseen0 hwf2.2 (by simpa [plainT] using hplain)
      (by simpa [fuelT] using hfuel) rfl
    obtain ⟨h2, st2, newFs, heq, hlen2, hag, hb2, hkeysO, hrop, _⟩ := hw
    refine ⟨h2, ?_, ?_, ?_⟩
    · rw [copyObject]
      rw [hav, if_neg Bool.false_ne_true]
      rw [walkObject.eq_def, if_neg (by rw [hnc]; exact Bool.false_ne_true)]
      dsimp only []
      simp only [Option.getD_none]
      rw [hkeys2, heq]
    · intro i hi
      have hlt : i < (h ++ [JCont.obj []]).length := by
        simp only [List.length_append, List.length_cons, List.length_nil]
        omega
      rw [hag i hlt (by omega)]
      exact List.getElem?_append_left hi
    · refine ⟨h.length, newFs, rfl, le_refl _, ?_, ?_, ?_⟩
      · have hx : (h ++ [JCont.obj []]).length = h.length + 1 := by simp
        omega
      · simpa using hb2
      · refine RepOF_mono fs (h ++ [JCont.obj []]).length h2.length h.length h2.length
          h2 h2 newFs (by simp) (le_refl _) (fun i _ _ => rfl) hrop
  | arr es =>
    obtain ⟨a, ejs, hlen_eq, _, hveq, hget, hrepe⟩ := hrep
    subst hveq
    have ha_lt : a < h.length := by omega
    have hav : isArrayVal h (.ref a) = true := by simp [isArrayVal, hget]
    have hga : (h ++ [JCont.arr []])[a]? = some (.arr ejs) := by
      rw [List.getElem?_append_left ha_lt]
      exact hget
    have hav2 : isArrayVal (h ++ [JCont.arr []]) (.ref a) = true := by
      simp [isArrayVal, hga]
    have hnc : (!isPlainObject (h ++ [JCont.arr []]) (.ref a) &&
        !isArrayVal (h ++ [JCont.arr []]) (.ref a)) = false := by
      rw [hav2]
      simp
    obtain ⟨hlenE, hallE⟩ := RepRE_shape es 0 a h ejs hrepe
    have hkeys2 : heapKeys (h ++ [JCont.arr []]) a =
        (List.range' 0 (elemsLen es)).map renderIdx := by
      rw [heapKeys_arr_allSome _ a ejs hga hallE, hlenE]
    have hrepe2 : RepRE 0 a (h ++ [JCont.arr []]) ejs es :=
      RepRE_mono es 0 a h _ ejs
        (fun i hi2 => List.getElem?_append_left (by omega)) hrepe
    have hgb : (h ++ [JCont.arr []])[h.length]? = some (.arr []) := by
      rw [List.getElem?_concat_length]
    have hidx0 : ([h.length] : List Addr)[jsIndexOf [JVal.ref a] (JVal.ref a)]? =
        some h.length := by
      simp [jsIndexOf]
    have hseen0 : ∀ c, 0 ≤ c → c < a → JVal.ref c ∉ ([JVal.ref a] : List JVal) := by
      intro c hc1 hc2 hmem
      rw [List.mem_singleton] at hmem
      injection hmem with hme
      have hme2 : c = a := hme
      omega
    have hw := copyWalkE userCb hcb es 0 a h.length fuel 0 (h ++ [JCont.arr []])
      ⟨[JVal.ref a], [h.length]⟩ h.length ejs ejs [] (getPath "array" none)
      hga rfl hrepe2 (by omega) (by simp) (le_refl _) hgb rfl hidx0 rfl hseen0
      (by simpa [wfT] using hwf) (by simpa [plainT] using hplain)
      (by simpa [fuelT] using hfuel) rfl
    obtain ⟨h2, st2, newEs, heq, hlen2, hag, hb2, hlenO, hrop, _⟩ := hw
    refine ⟨h2, ?_, ?_, ?_⟩
    · rw [copyObject]
      rw [hav, if_pos rfl]
      rw [walkObject.eq_def, if_neg (by rw [hnc]; exact Bool.false_ne_true)]
      dsimp only []
      simp only [Option.getD_none]
      rw [hkeys2, heq]
    · intro i hi
      have hlt : i < (h ++ [JCont.arr []]).length := by
        simp only [List.length_append, List.length_cons, List.length_nil]
        omega
      rw [hag i hlt (by omega)]
      exact List.getElem?_append_left hi
    · refine ⟨h.length, newEs, rfl, le_refl _, ?_, ?_, ?_⟩
      · have hx : (h ++ [JCont.arr []]).length = h.length + 1 := by simp
        omega
      · simpa using hb2
      · refine RepOE_mono es (h ++ [JCont.arr []]).length h2.length h.length h2.length
          h2 h2 newEs (by simp) (le_refl _) (fun i _ _ => rfl) hrop

/-- Witness for claim C2 at a concrete input: the object :: b: 1 :: laid
out at address 0, copied with the always-true callback. -/
theorem copyObject_spec_witness :
    wfT (Tree.obj (.fcons "b" (.num 1) .fnil)) = true ∧
    (∃ h2, copyObject 1 (JVal.ref 0) (fun _ _ _ => JVal.bool true)
          [JCont.obj [("b", JVal.num 1)]] = .ok (h2, .ref 1) ∧
        (∀ i, i < 1 → h2[i]? = ([JCont.obj [("b", JVal.num 1)]] : Heap)[i]?) ∧
        RepO 1 h2.length h2 (.ref 1) (Tree.obj (.fcons "b" (.num 1) .fnil))) :=
  ⟨by decide,
   copyObject_spec.1 (Tree.obj (.fcons "b" (.num 1) .fnil)) [JCont.obj [("b", JVal.num 1)]]
     (JVal.ref 0) (fun _ _ _ => JVal.bool true) 1
     (fun k2 v2 p hc => by simp at hc) (by decide) (by decide) (Or.inl rfl)
     ⟨0, [("b", JVal.num 1)], rfl, Nat.le_refl 0, rfl, rfl,
      ⟨JVal.num 1, [], 0, rfl, ⟨rfl, rfl⟩, ⟨rfl, rfl⟩⟩⟩
     (by decide)⟩

/-- Claim C10: when the same container is the value of two different keys
of the input, copyObject allocates a distinct fresh empty output container
at each occurrence's key (addresses 3 and 4 below), but the children of
every traversal of the shared container are written into the container
allocated at its first occurrence, because the input-to-output
correspondence is looked up by FIRST index of reference identity; the
second traversal therefore rewrites the first copy with the same values,
and the container assigned at the later occurrence's key stays empty. -/
theorem copyObject_shared_container (k1 k2 : String) (hk : k1 ≠ k2)
    (fjs : List (String × JVal))
    (hsc : ∀ p ∈ fjs, ∀ a2, p.2 ≠ JVal.ref a2)
    (hnd : (fjs.map Prod.fst).Nodup)
    (userCb : String → JVal → PathVal → JVal)
    (hcb : ∀ k3 v p, userCb k3 v p ≠ JVal.bool false)
    (fuel : Nat) (hfuel : fjs.length + 2 ≤ fuel) :
    copyObject fuel (.ref 1) userCb [.obj fjs, .obj [(k1, .ref 0), (k2, .ref 0)]] =
      .ok ([.obj fjs, .obj [(k1, .ref 0), (k2, .ref 0)],
            .obj [(k1, .ref 3), (k2, .ref 4)], .obj fjs, .obj []], .ref 2) := by
  obtain ⟨f1, rfl⟩ : ∃ f1, fuel = f1 + 1 := ⟨fuel - 1, by omega⟩
  obtain ⟨f2, rfl⟩ : ∃ f2, f1 = f2 + 1 := ⟨f1 - 1, by omega⟩
  have hnd12 : (([(k1, JVal.ref 0), (k2, JVal.ref 0)]).map Prod.fst).Nodup := by
    simp [hk]
  have hval2 : readProp [JCont.obj fjs, .obj [(k1, JVal.ref 0), (k2, JVal.ref 0)],
      .obj [(k1, JVal.ref 3)], .obj fjs] 1 k2 = .ref 0 :=
    readProp_obj_head _ 1 [(k1, JVal.ref 0), (k2, JVal.ref 0)] [(k1, JVal.ref 0)] []
      k2 (.ref 0) rfl rfl hnd12
  have hcbEq2 : walkCallback userCb k2 1 (getPath "array" none)._path
      [JCont.obj fjs, .obj [(k1, JVal.ref 0), (k2, JVal.ref 0)],
       .obj [(k1, JVal.ref 3)], .obj fjs]
      ⟨[JVal.ref 1, JVal.ref 0], [2, 3]⟩ =
      .ok (false,
        heapWrite ([JCont.obj fjs, .obj [(k1, JVal.ref 0), (k2, JVal.ref 0)],
           .obj [(k1, JVal.ref 3)], .obj fjs] ++ [JCont.obj []]) 2 k2 (.ref 4),
        ⟨[JVal.ref 1, JVal.ref 0, JVal.ref 0], [2, 3, 4]⟩) :=
    walkCallback_container userCb hcb k2 1 _ _ _ 2 0 false rfl hval2 rfl
  have hW2 : heapWrite ([JCont.obj fjs, .obj [(k1, JVal.ref 0), (k2, JVal.ref 0)],
      .obj [(k1, JVal.ref 3)], .obj fjs] ++ [JCont.obj []]) 2 k2 (.ref 4) =
      [JCont.obj fjs, .obj [(k1, JVal.ref 0), (k2, JVal.ref 0)],
       .obj [(k1, JVal.ref 3), (k2, JVal.ref 4)], .obj fjs, .obj []] := by
    show ([JCont.obj fjs, .obj [(k1, JVal.ref 0), (k2, JVal.ref 0)],
      .obj [(k1, JVal.ref 3)], .obj fjs] ++ [JCont.obj []]).set 2
        (JCont.obj (setField [(k1, JVal.ref 3)] k2 (JVal.ref 4))) = _
    rw [setField_append [(k1, JVal.ref 3)] k2 (JVal.ref 4) (by simpa using Ne.symm hk)]
    rfl
  have hval2b : readProp [JCont.obj fjs, .obj [(k1, JVal.ref 0), (k2, JVal.ref 0)],
      .obj [(k1, JVal.ref 3), (k2, JVal.ref 4)], .obj fjs, .obj []] 1 k2 = .ref 0 :=
    readProp_obj_head _ 1 [(k1, JVal.ref 0), (k2, JVal.ref 0)] [(k1, JVal.ref 0)] []
      k2 (.ref 0) rfl rfl hnd12
  obtain ⟨pa2, hset2, hpt2⟩ := pathSet_array (getPath "array" none) rfl
    (isArrAt [JCont.obj fjs, .obj [(k1, JVal.ref 0), (k2, JVal.ref 0)],
      .obj [(k1, JVal.ref 3), (k2, JVal.ref 4)], .obj fjs, .obj []] 1) k2
  have hd2 := copyFlatRewrite userCb hcb fjs f2 0 3 fjs [] fjs pa2
    [JCont.obj fjs, .obj [(k1, JVal.ref 0), (k2, JVal.ref 0)],
     .obj [(k1, JVal.ref 3), (k2, JVal.ref 4)], .obj fjs, .obj []]
    ⟨[JVal.ref 1, JVal.ref 0, JVal.ref 0], [2, 3, 4]⟩
    rfl (by simp) hnd hsc (lookupField_mem_nodup fjs hnd) rfl rfl (by omega) hpt2
  have hstep2 : walkItems (walkCallback userCb) ⟨true, none, none⟩ (f2 + 1) 1 [k2]
      (getPath "array" none)
      [JCont.obj fjs, .obj [(k1, JVal.ref 0), (k2, JVal.ref 0)],
       .obj [(k1, JVal.ref 3)], .obj fjs]
      ⟨[JVal.ref 1, JVal.ref 0], [2, 3]⟩ =
      .ok ([JCont.obj fjs, .obj [(k1, JVal.ref 0), (k2, JVal.ref 0)],
            .obj [(k1, JVal.ref 3), (k2, JVal.ref 4)], .obj fjs, .obj []],
           ⟨[JVal.ref 1, JVal.ref 0, JVal.ref 0], [2, 3, 4]⟩) := by
    rw [walkItems]
    rw [pathGet_array (getPath "array" none) rfl]
    dsimp only []
    rw [hcbEq2]
    dsimp only []
    rw [if_neg Bool.false_ne_true, hW2, hval2b]
    rw [show isPlainObject [JCont.obj fjs, .obj [(k1, JVal.ref 0), (k2, JVal.ref 0)],
        .obj [(k1, JVal.ref 3), (k2, JVal.ref 4)], .obj fjs, .obj []] (JVal.ref 0) = true
      from rfl, Bool.true_or, if_pos rfl]
    dsimp only []
    rw [hset2]
    dsimp only []
    rw [show heapKeys [JCont.obj fjs, .obj [(k1, JVal.ref 0), (k2, JVal.ref 0)],
        .obj [(k1, JVal.ref 3), (k2, JVal.ref 4)], .obj fjs, .obj []] 0 = fjs.map Prod.fst
      from heapKeys_obj _ 0 fjs rfl, hd2]
    dsimp only []
    rw [walkItems]
  have hval1 : readProp [JCont.obj fjs, JCont.obj [(k1, JVal.ref 0), (k2, JVal.ref 0)],
      JCont.obj []] 1 k1 = .ref 0 :=
    readProp_obj_head _ 1 [(k1, JVal.ref 0), (k2, JVal.ref 0)] [] [(k2, JVal.ref 0)]
      k1 (.ref 0) rfl rfl hnd12
  have hcbEq1 : walkCallback userCb k1 1 (getPath "array" none)._path
      [JCont.obj fjs, .obj [(k1, JVal.ref 0), (k2, JVal.ref 0)], .obj []]
      ⟨[JVal.ref 1], [2]⟩ =
      .ok (false,
        heapWrite ([JCont.obj fjs, .obj [(k1, JVal.ref 0), (k2, JVal.ref 0)],
           .obj []] ++ [JCont.obj []]) 2 k1 (.ref 3),
        ⟨[JVal.ref 1, JVal.ref 0], [2, 3]⟩) :=
    walkCallback_container userCb hcb k1 1 _ _ _ 2 0 false rfl hval1 rfl
  have hW1 : heapWrite ([JCont.obj fjs, .obj [(k1, JVal.ref 0), (k2, JVal.ref 0)],
      .obj []] ++ [JCont.obj []]) 2 k1 (.ref 3) =
      [JCont.obj fjs, .obj [(k1, JVal.ref 0), (k2, JVal.ref 0)],
       .obj [(k1, JVal.ref 3)], .obj []] := rfl
  have hval1b : readProp [JCont.obj fjs, .obj [(k1, JVal.ref 0), (k2, JVal.ref 0)],
      .obj [(k1, JVal.ref 3)], .obj []] 1 k1 = .ref 0 :=
    readProp_obj_head _ 1 [(k1, JVal.ref 0), (k2, JVal.ref 0)] [] [(k2, JVal.ref 0)]
      k1 (.ref 0) rfl rfl hnd12
  obtain ⟨pa1, hset1, hpt1⟩ := pathSet_array (getPath "array" none) rfl
    (isArrAt [JCont.obj fjs, .obj [(k1, JVal.ref 0), (k2, JVal.ref 0)],
      .obj [(k1, JVal.ref 3)], .obj []] 1) k1
  have hd1 := copyFlatWalk userCb hcb fjs (f2 + 1) 0 3 fjs [] [] pa1
    [JCont.obj fjs, .obj [(k1, JVal.ref 0), (k2, JVal.ref 0)], .obj [(k1, JVal.ref 3)],
     .obj []]
    ⟨[JVal.ref 1, JVal.ref 0], [2, 3]⟩
    rfl (by simp) hnd hsc (by simp) (by omega) (by simp) rfl rfl (by omega) hpt1
  have hd1b : walkItems (walkCallback userCb) ⟨true, none, none⟩ (f2 + 1) 0
      (fjs.map Prod.fst) pa1
      [JCont.obj fjs, .obj [(k1, JVal.ref 0), (k2, JVal.ref 0)], .obj [(k1, JVal.ref 3)],
       .obj []] ⟨[JVal.ref 1, JVal.ref 0], [2, 3]⟩ =
      .ok ([JCont.obj fjs, .obj [(k1, JVal.ref 0), (k2, JVal.ref 0)],
            .obj [(k1, JVal.ref 3)], .obj fjs], ⟨[JVal.ref 1, JVal.ref 0], [2, 3]⟩) := hd1
  have hrun : walkItems (walkCallback userCb) ⟨true, none, none⟩ (f2 + 1 + 1) 1 [k1, k2]
      (getPath "array" none)
      [JCont.obj fjs, .obj [(k1, JVal.ref 0), (k2, JVal.ref 0)], .obj []]
      ⟨[JVal.ref 1], [2]⟩ =
      .ok ([JCont.obj fjs, .obj [(k1, JVal.ref 0), (k2, JVal.ref 0)],
            .obj [(k1, JVal.ref 3), (k2, JVal.ref 4)], .obj fjs, .obj []],
           ⟨[JVal.ref 1, JVal.ref 0, JVal.ref 0], [2, 3, 4]⟩) := by
    rw [walkItems]
    rw [pathGet_array (getPath "array" none) rfl]
    dsimp only []
    rw [hcbEq1]
    dsimp only []
    rw [if_neg Bool.false_ne_true, hW1, hval1b]
    rw [show isPlainObject [JCont.obj fjs, .obj [(k1, JVal.ref 0), (k2, JVal.ref 0)],
        .obj [(k1, JVal.ref 3)], .obj []] (JVal.ref 0) = true from rfl,
      Bool.true_or, if_pos rfl]
    dsimp only []
    rw [hset1]
    dsimp only []
    rw [show heapKeys [JCont.obj fjs, .obj [(k1, JVal.ref 0), (k2, JVal.ref 0)],
        .obj [(k1, JVal.ref 3)], .obj []] 0 = fjs.map Prod.fst
      from heapKeys_obj _ 0 fjs rfl, hd1b]
    dsimp only []
    rw [hstep2]
  have hstart : copyObject (f2 + 1 + 1) (JVal.ref 1) userCb
      [JCont.obj fjs, .obj [(k1, JVal.ref 0), (k2, JVal.ref 0)]] =
      (match walkItems (walkCallback userCb) ⟨true, none, none⟩ (f2 + 1 + 1) 1 [k1, k2]
          (getPath "array" none)
          [JCont.obj fjs, .obj [(k1, JVal.ref 0), (k2, JVal.ref 0)], .obj []]
          ⟨[JVal.ref 1], [2]⟩ with
       | .error e => .error e
       | .ok (h2, _) => .ok (h2, JVal.ref 2)) := rfl
  rw [hstart, hrun]

/-- Witness for claim C10: the shared container :: x: 7 :: under the two
keys k1 and k2, copied with the always-true callback. -/
theorem copyObject_shared_container_witness :
    ("k1" : String) ≠ "k2" ∧
    copyObject 3 (JVal.ref 1) (fun _ _ _ => JVal.bool true)
        [JCont.obj [("x", JVal.num 7)],
         JCont.obj [("k1", JVal.ref 0), ("k2", JVal.ref 0)]] =
      .ok ([JCont.obj [("x", JVal.num 7)],
            JCont.obj [("k1", JVal.ref 0), ("k2", JVal.ref 0)],
            JCont.obj [("k1", JVal.ref 3), ("k2", JVal.ref 4)],
            JCont.obj [("x", JVal.num 7)], JCont.obj []], JVal.ref 2) :=
  ⟨by decide,
   copyObject_shared_container "k1" "k2" (by decide) [("x", JVal.num 7)]
     (by
       intro p hp a2 hc
       simp at hp
       rw [hp] at hc
       simp at hc)
     (by decide) (fun _ _ _ => JVal.bool true) (fun k3 v p hc => by simp at hc) 3
     (by decide)⟩

end ObjectUtils
